import Mathlib

/-! # Separators of `boost/token_functions.hpp`

A shallow embedding of the four `TokenizerFunction` models of
`boost/token_functions.hpp` (`char_separator`, `escaped_list_separator`,
`offset_separator`, `char_delimiters_separator`) and theorems about their
token sequences.

Conventions of the embedding.

* A character is a Lean `Char`; a `std::basic_string` is a `List Char`.
* The iterator pair `(next, end)` is the list of characters from the cursor to
  the sentinel: `[]` is `next == end`, `c :: rest` is `*next = c` with `++next`
  giving `rest`.
* The token buffer is a `List Char` (`clear` is `[]`, `append` adds at the
  back, `assign(tok, start, next)` is the span between the two cursors).
* A call `sep(next, end, tok)` returns a `CallResult`: the boolean, the token
  buffer, the new cursor and the separator with its updated iteration state.
  A thrown exception or a failed `BOOST_ASSERT` is `Except.error`.
-/

namespace boost

/-- What a separator call can raise: `escaped_list_error(what_arg)` thrown by
`escaped_list_separator::do_escape`, or a failed `BOOST_ASSERT(expr)`. -/
inductive Failure where
  | escaped_list_error (what_arg : String)
  | assertion_failed (expr : String)
  deriving DecidableEq, Repr

/-- The observable effect of one call `sep(next, end, tok)`. -/
structure CallResult (σ : Type) where
  ret : Bool
  tok : List Char
  next : List Char
  sep : σ
  deriving DecidableEq, Repr

/-! ## Character classification -/

/-- The `<cctype>` classifier `std::isspace` in the default "C" locale:
space, `\t`, `\n`, `\v`, `\f`, `\r`. -/
def std_isspace (c : Char) : Bool :=
  c.toNat == 32 || (9 ≤ c.toNat && c.toNat ≤ 13)

/-- The `<cctype>` classifier `std::ispunct` in the default "C" locale: the
printable ASCII characters that are neither alphanumeric nor the space. -/
def std_ispunct (c : Char) : Bool :=
  (33 ≤ c.toNat && c.toNat ≤ 47) || (58 ≤ c.toNat && c.toNat ≤ 64) ||
  (91 ≤ c.toNat && c.toNat ≤ 96) || (123 ≤ c.toNat && c.toNat ≤ 126)

namespace tokenizer_detail

/-- `traits_extension<traits>::isspace` for the narrow character type in the
build with `<cwctype>`: `std::isspace(c) != 0`. -/
def traits_extension.isspace (c : Char) : Bool := std_isspace c

/-- `traits_extension<traits>::ispunct` for the narrow character type in the
build with `<cwctype>`: `std::ispunct(c) != 0`. -/
def traits_extension.ispunct (c : Char) : Bool := std_ispunct c

end tokenizer_detail

/-! ## The driving iterator -/

/-- How an iteration ended: a call returned `false`, a call raised, or the
model's call budget ran out before either happened. -/
inductive Outcome where
  | finished
  | failed (e : Failure)
  | out_of_fuel
  deriving DecidableEq, Repr

/-- The tokens of the calls that returned `true`, how the iteration ended, and
the separator and cursor as the last completed call left them (a call that
raised leaves the ones it was made with). -/
structure Run (σ : Type) where
  tokens : List (List Char)
  outcome : Outcome
  sep : σ
  next : List Char
  deriving DecidableEq, Repr

/-- Modelled from the spec: the token iterator (`boost/token_iterator.hpp`, not
among the sources) "holds a cursor and a sentinel over the input and a
separator instance; on each advance it calls the separator once", and "stops
permanently once a call returns no token". `iterate call fuel sep next` makes
at most `fuel` calls, collecting the token of every call that returned `true`. -/
def iterate {σ : Type} (call : σ → List Char → Except Failure (CallResult σ)) :
    Nat → σ → List Char → Run σ
  | 0, sep, next => ⟨[], Outcome.out_of_fuel, sep, next⟩
  | fuel + 1, sep, next =>
    match call sep next with
    | Except.error e => ⟨[], Outcome.failed e, sep, next⟩
    | Except.ok r =>
      if r.ret then
        let rest := iterate call fuel r.sep r.next
        ⟨r.tok :: rest.tokens, rest.outcome, rest.sep, rest.next⟩
      else ⟨[], Outcome.finished, r.sep, r.next⟩

/-- Modelled from the spec: iterating to completion over `input` from the
separator state `sep`. No separator makes more than `2 * input.length + 2`
calls before one returns `false` or raises, so that is the call budget. -/
def tokenize {σ : Type} (call : σ → List Char → Except Failure (CallResult σ))
    (sep : σ) (input : List Char) : Run σ :=
  iterate call (2 * input.length + 2) sep input

/-! ## `char_separator` -/

/-- The enumeration `empty_token_policy`. -/
inductive empty_token_policy where
  | drop_empty_tokens
  | keep_empty_tokens
  deriving DecidableEq, Repr

/-- The data members of `char_separator<Char>`. -/
structure char_separator where
  m_kept_delims : List Char
  m_dropped_delims : List Char
  m_use_ispunct : Bool
  m_use_isspace : Bool
  m_empty_tokens : empty_token_policy
  m_output_done : Bool
  deriving DecidableEq, Repr

namespace char_separator

/-- The constructor `char_separator(dropped_delims, kept_delims, empty_tokens)`.
A `const Char*` argument is given by the characters of the C string;
`kept_delims = none` is the null pointer, which yields the empty string. -/
def mk_explicit (dropped_delims : List Char) (kept_delims : Option (List Char))
    (empty_tokens : empty_token_policy) : char_separator :=
  { m_kept_delims := kept_delims.getD []
    m_dropped_delims := dropped_delims
    m_use_ispunct := false
    m_use_isspace := false
    m_empty_tokens := empty_tokens
    m_output_done := false }

/-- The default constructor `char_separator()`. -/
def mk_default : char_separator :=
  { m_kept_delims := []
    m_dropped_delims := []
    m_use_ispunct := true
    m_use_isspace := true
    m_empty_tokens := empty_token_policy.drop_empty_tokens
    m_output_done := false }

/-- The member `reset()`, whose body is empty. -/
def reset (sep : char_separator) : char_separator := sep

/-- The member `is_kept`. -/
def is_kept (sep : char_separator) (E : Char) : Bool :=
  if sep.m_kept_delims.length ≠ 0 then decide (E ∈ sep.m_kept_delims)
  else if sep.m_use_ispunct then tokenizer_detail.traits_extension.ispunct E
  else false

/-- The member `is_dropped`. -/
def is_dropped (sep : char_separator) (E : Char) : Bool :=
  if sep.m_dropped_delims.length ≠ 0 then decide (E ∈ sep.m_dropped_delims)
  else if sep.m_use_isspace then tokenizer_detail.traits_extension.isspace E
  else false

/-- The loop condition `!is_dropped(*next) && !is_kept(*next)` of the two
"append all the non delim characters" loops. -/
def non_delim (sep : char_separator) (E : Char) : Bool :=
  !sep.is_dropped E && !sep.is_kept E

/-- The call operator `operator()(next, end, tok)`. -/
def call (sep : char_separator) (next : List Char) : CallResult char_separator :=
  match sep.m_empty_tokens with
  | empty_token_policy.drop_empty_tokens =>
    -- skip past all dropped_delims; `start` is the cursor after the skip
    match next.dropWhile sep.is_dropped with
    | [] => ⟨false, [], [], sep⟩
    | c :: rest =>
      if sep.is_kept c then ⟨true, [c], rest, sep⟩
      else
        ⟨true, (c :: rest).takeWhile sep.non_delim, (c :: rest).dropWhile sep.non_delim, sep⟩
  | empty_token_policy.keep_empty_tokens =>
    match next with
    | [] =>
      if sep.m_output_done = false then ⟨true, [], [], { sep with m_output_done := true }⟩
      else ⟨false, [], [], sep⟩
    | c :: rest =>
      if sep.is_kept c then
        if sep.m_output_done = false then
          ⟨true, [], c :: rest, { sep with m_output_done := true }⟩
        else ⟨true, [c], rest, { sep with m_output_done := false }⟩
      else if sep.m_output_done = false ∧ sep.is_dropped c = true then
        ⟨true, [], c :: rest, { sep with m_output_done := true }⟩
      else
        let start := if sep.is_dropped c then rest else c :: rest
        ⟨true, start.takeWhile sep.non_delim, start.dropWhile sep.non_delim,
          { sep with m_output_done := true }⟩

/-- The token sequence of `input`, iterating from the state `sep`. -/
def run (sep : char_separator) (input : List Char) : Run char_separator :=
  tokenize (fun s next => Except.ok (s.call next)) sep input

end char_separator

/-! ## `escaped_list_separator` -/

/-- The data members of `escaped_list_separator<Char>`. -/
structure escaped_list_separator where
  escape_ : List Char
  c_ : List Char
  quote_ : List Char
  last_ : Bool
  deriving DecidableEq, Repr

namespace escaped_list_separator

/-- The constructor `escaped_list_separator(Char e, Char c, Char q)`. -/
def mk_chars (e c q : Char) : escaped_list_separator :=
  { escape_ := [e], c_ := [c], quote_ := [q], last_ := false }

/-- The default arguments of that constructor: backslash, comma, double quote. -/
def mk_default : escaped_list_separator := mk_chars '\\' ',' '\"'

/-- The constructor `escaped_list_separator(string_type e, string_type c, string_type q)`. -/
def mk_strings (e c q : List Char) : escaped_list_separator :=
  { escape_ := e, c_ := c, quote_ := q, last_ := false }

/-- The member `reset()`. -/
def reset (sep : escaped_list_separator) : escaped_list_separator :=
  { sep with last_ := false }

/-- The member `is_escape`. -/
def is_escape (sep : escaped_list_separator) (e : Char) : Bool := decide (e ∈ sep.escape_)

/-- The member `is_c`. -/
def is_c (sep : escaped_list_separator) (e : Char) : Bool := decide (e ∈ sep.c_)

/-- The member `is_quote`. -/
def is_quote (sep : escaped_list_separator) (e : Char) : Bool := decide (e ∈ sep.quote_)

/-- The member `do_escape(next, end, tok)`, called with the cursor on the escape
character. It returns the cursor (moved by its `++next` onto the escaped
character) and the token buffer, or raises. -/
def do_escape (sep : escaped_list_separator) (next tok : List Char) :
    Except Failure (List Char × List Char) :=
  match next.tail with
  | [] => Except.error (Failure.escaped_list_error "cannot end with escape")
  | x :: rest =>
    if x = 'n' then Except.ok (x :: rest, tok ++ ['\n'])
    else if sep.is_quote x then Except.ok (x :: rest, tok ++ [x])
    else if sep.is_c x then Except.ok (x :: rest, tok ++ [x])
    else if sep.is_escape x then Except.ok (x :: rest, tok ++ [x])
    else Except.error (Failure.escaped_list_error "unknown escape sequence")

/-- The loop `for (;next != end;++next)` of the call operator, entered with
`last_` already cleared in `sep`. After a `do_escape` that returned, the cursor
is on the escaped character and the loop's `++next` steps past it: that is the
`rest1` of the second pattern (with the cursor on the last character
`do_escape` always raises, so the first pattern never gets to its `bind`). -/
def scan (sep : escaped_list_separator) :
    Bool → List Char → List Char → Except Failure (CallResult escaped_list_separator)
  | _, tok, [] => Except.ok ⟨true, tok, [], sep⟩
  | bInQuote, tok, c :: rest =>
    if sep.is_escape c then
      match rest with
      | [] => (sep.do_escape [c] tok).bind fun r => Except.ok ⟨true, r.2, r.1.tail, sep⟩
      | x :: rest1 => (sep.do_escape (c :: x :: rest1) tok).bind fun r => scan sep bInQuote r.2 rest1
    else if sep.is_c c then
      if !bInQuote then Except.ok ⟨true, tok, rest, { sep with last_ := true }⟩
      else scan sep bInQuote (tok ++ [c]) rest
    else if sep.is_quote c then scan sep (!bInQuote) tok rest
    else scan sep bInQuote (tok ++ [c]) rest

/-- The call operator `operator()(next, end, tok)`. -/
def call (sep : escaped_list_separator) (next : List Char) :
    Except Failure (CallResult escaped_list_separator) :=
  match next with
  | [] =>
    if sep.last_ then Except.ok ⟨true, [], [], { sep with last_ := false }⟩
    else Except.ok ⟨false, [], [], sep⟩
  | _ :: _ => scan { sep with last_ := false } false [] next

/-- The token sequence of `input`, iterating from the state `sep`. -/
def run (sep : escaped_list_separator) (input : List Char) : Run escaped_list_separator :=
  tokenize call sep input

end escaped_list_separator

/-! ## `offset_separator` -/

/-- The data members of `offset_separator`: `offsets_` is a `std::vector<int>`,
`current_offset_` an `unsigned int`. -/
structure offset_separator where
  offsets_ : List Int
  current_offset_ : Nat
  wrap_offsets_ : Bool
  return_partial_last_ : Bool
  deriving DecidableEq, Repr

namespace tokenizer_detail

/-- The helper `assign(tok, first, last)`: the span from the cursor `first` up
to the later cursor `last` of the same sequence. -/
def assign (first last : List Char) : List Char := first.take (first.length - last.length)

end tokenizer_detail

namespace offset_separator

/-- The constructor `offset_separator(begin, end, wrap_offsets, return_partial_last)`. -/
def mk_range (offsets : List Int) (wrap_offsets : Bool) (return_partial_last : Bool) :
    offset_separator :=
  { offsets_ := offsets, current_offset_ := 0, wrap_offsets_ := wrap_offsets,
    return_partial_last_ := return_partial_last }

/-- The default constructor `offset_separator()`. -/
def mk_default : offset_separator :=
  { offsets_ := [1], current_offset_ := 0, wrap_offsets_ := true, return_partial_last_ := true }

/-- The member `reset()`. -/
def reset (sep : offset_separator) : offset_separator := { sep with current_offset_ := 0 }

/-- The loop `for (; i < c; ++i) { if (next == end) break; ++next; }`: the
final value of `i` and the final cursor. -/
def advance (c : Int) : Int → List Char → Int × List Char
  | i, [] => (i, [])
  | i, x :: rest => if i < c then advance c (i + 1) rest else (i, x :: rest)

/-- The call operator `operator()(next, end, tok)`. An index outside `offsets_`
at the read `offsets_[current_offset_]` is reported as a failed assertion of
the vector's bound; `++current_offset_` is arithmetic modulo `2 ^ 32`. -/
def call (sep : offset_separator) (next : List Char) :
    Except Failure (CallResult offset_separator) :=
  if sep.offsets_.isEmpty then Except.error (Failure.assertion_failed "!offsets_.empty()")
  else
    match next with
    | [] => Except.ok ⟨false, [], [], sep⟩
    | _ :: _ =>
      if sep.current_offset_ = sep.offsets_.length ∧ sep.wrap_offsets_ = false then
        Except.ok ⟨false, [], next, sep⟩
      else
        let current := if sep.current_offset_ = sep.offsets_.length then 0 else sep.current_offset_
        match sep.offsets_[current]? with
        | none => Except.error (Failure.assertion_failed "current_offset_ < offsets_.size()")
        | some c =>
          let r := advance c 0 next
          let tok := tokenizer_detail.assign next r.2
          if sep.return_partial_last_ = false ∧ r.1 < c - 1 then
            Except.ok ⟨false, tok, r.2, { sep with current_offset_ := current }⟩
          else
            Except.ok ⟨true, tok, r.2, { sep with current_offset_ := (current + 1) % 2 ^ 32 }⟩

/-- The token sequence of `input`, iterating from the state `sep`. -/
def run (sep : offset_separator) (input : List Char) : Run offset_separator :=
  tokenize call sep input

end offset_separator

namespace char_separator

/-- Layout of a drop-mode token sequence over the input. `DropLayout D K before rest toks`:
`before` is the input already consumed, `rest` the input still ahead, and
`rest` is `toks` in order, each preceded by a gap of dropped delimiters, with a
final gap of dropped delimiters. A token is one kept, non-dropped delimiter, or
a non-empty run of non-delimiters that no non-delimiter precedes or follows in
the input. -/
inductive DropLayout (D K : List Char) : List Char → List Char → List (List Char) → Prop where
  | done (before gap : List Char) (hgap : ∀ x ∈ gap, x ∈ D) : DropLayout D K before gap []
  | kept (before gap : List Char) (c : Char) (rest : List Char) (toks : List (List Char))
      (hgap : ∀ x ∈ gap, x ∈ D) (hK : c ∈ K) (hD : c ∉ D)
      (htail : DropLayout D K (before ++ gap ++ [c]) rest toks) :
      DropLayout D K before (gap ++ c :: rest) ([c] :: toks)
  | word (before gap t rest : List Char) (toks : List (List Char))
      (hgap : ∀ x ∈ gap, x ∈ D) (hne : t ≠ []) (ht : ∀ x ∈ t, x ∉ D ∧ x ∉ K)
      (hleft : ∀ x, (before ++ gap).getLast? = some x → x ∈ D ∨ x ∈ K)
      (hright : ∀ x, rest.head? = some x → x ∈ D ∨ x ∈ K)
      (htail : DropLayout D K (before ++ gap ++ t) rest toks) :
      DropLayout D K before (gap ++ t ++ rest) (t :: toks)

/-- Specification side of keep_empty_tokens mode: the fields of a split, with
the delimiters that separate them, woven into one sequence in which a kept
delimiter stands as a one-character token between the two fields it separates
and a dropped delimiter leaves no token. -/
def weave_kept (K : List Char) : List (List Char) → List Char → List (List Char)
  | [], _ => []
  | f :: fs, [] => f :: fs
  | f :: fs, d :: ds =>
    if d ∈ K then f :: [d] :: weave_kept K fs ds else f :: weave_kept K fs ds

/-- Specification side of keep_empty_tokens mode: the input split at every
character of `D` or `K` (`List.splitOnP`, which keeps empty fields), with each
`K` character between the two fields it separates. -/
def keep_fields (D K : List Char) (s : List Char) : List (List Char) :=
  weave_kept K (s.splitOnP fun c => decide (c ∈ D) || decide (c ∈ K))
    (s.filter fun c => decide (c ∈ D) || decide (c ∈ K))

end char_separator

namespace offset_separator

/-- Specification side of the wrapping, partial-accepting offset separator:
`OffsetLayout w k s toks` says that `toks` are the tokens numbered `k`, `k + 1`,
... over the remaining input `s`: each is non-empty and is the next
`min (w[k mod n], remaining length)` characters, and the input ends with the
last of them. -/
def OffsetLayout (w : List Int) : Nat → List Char → List (List Char) → Prop
  | _, s, [] => s = []
  | k, s, t :: ts =>
    t = s.take (w.getD (k % w.length) 0).toNat ∧ t ≠ [] ∧ OffsetLayout w (k + 1) (s.drop t.length) ts

end offset_separator

/-! ## `char_delimiters_separator` -/

/-- The data members of `char_delimiters_separator<Char>`. -/
structure char_delimiters_separator where
  returnable_ : List Char
  nonreturnable_ : List Char
  return_delims_ : Bool
  no_ispunct_ : Bool
  no_isspace_ : Bool
  deriving DecidableEq, Repr

namespace char_delimiters_separator

/-- The constructor `char_delimiters_separator(return_delims, returnable, nonreturnable)`.
A `const Char*` argument is `none` for the null pointer and otherwise the
characters of the C string. Both strings are built as `string(ptr, n)` with a
length `n` that is guarded by `returnable` for both of them:
`returnable ? Traits::length(returnable) : 0` and
`returnable ? Traits::length(nonreturnable) : 0`. So with `returnable` null the
string `nonreturnable_` gets length 0 whatever `nonreturnable` is, and with
`returnable` non-null and `nonreturnable` null the constructor takes the
length of the null pointer, which has no defined result: `none`. The flags
are `no_ispunct_(returnable != 0)` and `no_isspace_(nonreturnable != 0)`. -/
def mk_cstr (return_delims : Bool) (returnable nonreturnable : Option (List Char)) :
    Option char_delimiters_separator :=
  match returnable, nonreturnable with
  | some r, some n => some ⟨r, n, return_delims, true, true⟩
  | some _, none => none
  | none, some _ => some ⟨[], [], return_delims, false, true⟩
  | none, none => some ⟨[], [], return_delims, false, false⟩

/-- The constructor with all its default arguments, `char_delimiters_separator()`. -/
def mk_default : char_delimiters_separator := ⟨[], [], false, false, false⟩

/-- The member `reset()`, whose body is empty. -/
def reset (sep : char_delimiters_separator) : char_delimiters_separator := sep

/-- The member `is_ret`. -/
def is_ret (sep : char_delimiters_separator) (E : Char) : Bool :=
  if sep.returnable_.length ≠ 0 then decide (E ∈ sep.returnable_)
  else if sep.no_ispunct_ then false
  else tokenizer_detail.traits_extension.ispunct E

/-- The member `is_nonret`. -/
def is_nonret (sep : char_delimiters_separator) (E : Char) : Bool :=
  if sep.nonreturnable_.length ≠ 0 then decide (E ∈ sep.nonreturnable_)
  else if sep.no_isspace_ then false
  else tokenizer_detail.traits_extension.isspace E

/-- The condition `is_nonret(*next) || (is_ret(*next) && !return_delims_)` of
the skipping loop. -/
def skipped (sep : char_delimiters_separator) (E : Char) : Bool :=
  sep.is_nonret E || (sep.is_ret E && !sep.return_delims_)

/-- The condition `!is_nonret(*next) && !is_ret(*next)` of the loop that
appends the non-delimiter characters. -/
def non_delim (sep : char_delimiters_separator) (E : Char) : Bool :=
  !sep.is_nonret E && !sep.is_ret E

/-- The call operator `operator()(next, end, tok)`. -/
def call (sep : char_delimiters_separator) (next : List Char) :
    CallResult char_delimiters_separator :=
  match next.dropWhile sep.skipped with
  | [] => ⟨false, [], [], sep⟩
  | c :: rest =>
    if sep.is_ret c then ⟨true, [c], rest, sep⟩
    else
      ⟨true, (c :: rest).takeWhile sep.non_delim, (c :: rest).dropWhile sep.non_delim, sep⟩

/-- The token sequence of `input`, iterating from the state `sep`. -/
def run (sep : char_delimiters_separator) (input : List Char) : Run char_delimiters_separator :=
  tokenize (fun s next => Except.ok (s.call next)) sep input

end char_delimiters_separator

/-! ## Reachable states -/

/-- The states a separator can be in after construction in the state `init`:
`init` itself, the state a returning call leaves, made from a reachable state
with any cursor, and the state `reset()` leaves. -/
inductive Reachable {σ : Type} (call : σ → List Char → Except Failure (CallResult σ))
    (reset : σ → σ) (init : σ) : σ → Prop where
  | init : Reachable call reset init init
  | call (sep : σ) (next : List Char) (r : CallResult σ) (h : Reachable call reset init sep)
      (hc : call sep next = Except.ok r) : Reachable call reset init r.sep
  | reset (sep : σ) (h : Reachable call reset init sep) : Reachable call reset init (reset sep)

namespace escaped_list_separator

/-- Specification side of the round trip: `enc f` is `f` with a backslash
inserted before every backslash, comma and double quote. -/
def enc : List Char → List Char
  | [] => []
  | x :: f => if x = '\\' ∨ x = ',' ∨ x = '\"' then '\\' :: x :: enc f else x :: enc f

/-- Specification side of the round trip: the `enc` of the fields, joined by
commas. -/
def encode (fs : List (List Char)) : List Char := [','].intercalate (fs.map enc)

end escaped_list_separator

/-! ## Character classification without `<cwctype>` -/

namespace tokenizer_detail

/-- `static_cast<unsigned>(c)` of a character value `c` of an integer
character type (narrow or wide, signed or unsigned): the value modulo
`2 ^ 32`. -/
def static_cast_unsigned (c : Int) : Nat := (c % 2 ^ 32).toNat

/-- The `<cctype>` classifier `std::isspace(int)` in the default "C" locale,
with its domain: the argument must be representable as `unsigned char` or be
`EOF` (-1), for which the answer is 0; any other argument is undefined
behaviour, `none`. -/
def std_isspace_int (c : Int) : Option Bool :=
  if 0 ≤ c ∧ c ≤ 255 then some (std_isspace (Char.ofNat c.toNat))
  else if c = -1 then some false
  else none

/-- The `<cctype>` classifier `std::ispunct(int)` in the default "C" locale,
with its domain (see `std_isspace_int`). -/
def std_ispunct_int (c : Int) : Option Bool :=
  if 0 ≤ c ∧ c ≤ 255 then some (std_ispunct (Char.ofNat c.toNat))
  else if c = -1 then some false
  else none

namespace no_cwctype

/-- `traits_extension<traits>::isspace` in the build without `<cwctype>`
(`BOOST_NO_CWCTYPE`), on the value of a character of any integer character
type: `static_cast<unsigned>(c) <= 255 && std::isspace(c) != 0`. The right
operand of `&&` is evaluated only when the left one holds. -/
def traits_extension.isspace (c : Int) : Option Bool :=
  if static_cast_unsigned c ≤ 255 then std_isspace_int c else some false

/-- `traits_extension<traits>::ispunct` in the build without `<cwctype>`
(`BOOST_NO_CWCTYPE`): `static_cast<unsigned>(c) <= 255 && std::ispunct(c) != 0`. -/
def traits_extension.ispunct (c : Int) : Option Bool :=
  if static_cast_unsigned c ≤ 255 then std_ispunct_int c else some false

end no_cwctype

end tokenizer_detail

/-! # Theorems -/

theorem dropWhile_head_false {p : Char → Bool} {s : List Char} {c : Char} {rest : List Char}
    (h : s.dropWhile p = c :: rest) : p c = false := by
  have := List.head?_dropWhile_not p s
  rw [h] at this
  simpa using this

theorem length_takeWhile_add_dropWhile (p : Char → Bool) (l : List Char) :
    l.length = (l.takeWhile p).length + (l.dropWhile p).length := by
  have := congrArg List.length (List.takeWhile_append_dropWhile p l)
  rw [List.length_append] at this
  exact this.symm

theorem iterate_fuel_mono {σ : Type} (call : σ → List Char → Except Failure (CallResult σ)) :
    ∀ (n : Nat) (sep : σ) (s : List Char), (iterate call n sep s).outcome ≠ Outcome.out_of_fuel →
      ∀ m, n ≤ m → iterate call m sep s = iterate call n sep s := by
  intro n
  induction n with
  | zero => intro sep s h; simp [iterate] at h
  | succ n ih =>
    intro sep s h m hm
    obtain ⟨m, rfl⟩ : ∃ k, m = k + 1 := ⟨m - 1, by omega⟩
    simp only [iterate] at h ⊢
    cases hc : call sep s with
    | error e => simp
    | ok r =>
      simp only [hc] at h ⊢
      by_cases hr : r.ret = true
      · simp only [hr, if_true] at h ⊢
        rw [ih r.sep r.next h m (by omega)]
      · simp [hr]

namespace char_separator

theorem is_dropped_mk_explicit (D : List Char) (K : Option (List Char)) (p : empty_token_policy)
    (c : Char) : (mk_explicit D K p).is_dropped c = decide (c ∈ D) := by
  cases D <;> simp [is_dropped, mk_explicit]

theorem is_kept_mk_explicit (D : List Char) (K : Option (List Char)) (p : empty_token_policy)
    (c : Char) : (mk_explicit D K p).is_kept c = decide (c ∈ K.getD []) := by
  cases h : K.getD [] <;> simp [is_kept, mk_explicit, h]

theorem non_delim_mk_explicit (D : List Char) (K : Option (List Char)) (p : empty_token_policy)
    (c : Char) : (mk_explicit D K p).non_delim c = (!decide (c ∈ D) && !decide (c ∈ K.getD [])) := by
  simp [non_delim, is_dropped_mk_explicit, is_kept_mk_explicit]

theorem drop_layout_aux (D : List Char) (K : Option (List Char)) :
    ∀ (n : Nat) (s : List Char), s.length ≤ n → ∀ fuel, n + 1 ≤ fuel → ∀ before : List Char,
      ((∀ x, before.getLast? = some x → x ∈ D ∨ x ∈ K.getD []) ∨
        (∀ y, s.head? = some y → y ∈ D ∨ y ∈ K.getD [])) →
      (iterate (fun sp nx => Except.ok (sp.call nx)) fuel
          (mk_explicit D K empty_token_policy.drop_empty_tokens) s).outcome = Outcome.finished ∧
      DropLayout D (K.getD []) before s
        (iterate (fun sp nx => Except.ok (sp.call nx)) fuel
          (mk_explicit D K empty_token_policy.drop_empty_tokens) s).tokens := by
  intro n
  induction n with
  | zero =>
    intro s hs fuel hf before _
    obtain ⟨f, rfl⟩ : ∃ k, fuel = k + 1 := ⟨fuel - 1, by omega⟩
    have : s = [] := List.length_eq_zero.mp (by omega)
    subst this
    simp only [iterate, call, mk_explicit, List.dropWhile_nil]
    exact ⟨rfl, DropLayout.done _ _ (by simp)⟩
  | succ n ih =>
    intro s hs fuel hf before hinv
    obtain ⟨f, rfl⟩ : ∃ k, fuel = k + 1 := ⟨fuel - 1, by omega⟩
    have hsplit := List.takeWhile_append_dropWhile
      (mk_explicit D K empty_token_policy.drop_empty_tokens).is_dropped s
    have hgap : ∀ x ∈ s.takeWhile
        (mk_explicit D K empty_token_policy.drop_empty_tokens).is_dropped, x ∈ D := by
      intro x hx
      have := List.mem_takeWhile_imp hx
      simpa [is_dropped_mk_explicit] using this
    cases hd : s.dropWhile (mk_explicit D K empty_token_policy.drop_empty_tokens).is_dropped with
    | nil =>
      rw [hd, List.append_nil] at hsplit
      have hcall : (mk_explicit D K empty_token_policy.drop_empty_tokens).call s
          = ⟨false, [], [], mk_explicit D K empty_token_policy.drop_empty_tokens⟩ := by
        simp only [call, hd]; rfl
      simp only [iterate, hcall]
      refine ⟨rfl, DropLayout.done _ _ ?_⟩
      rw [← hsplit]; exact hgap
    | cons c rest =>
      rw [hd] at hsplit
      have hcD : c ∉ D := by
        have := dropWhile_head_false hd
        simpa [is_dropped_mk_explicit] using this
      have hlen : s.length = (s.takeWhile
          (mk_explicit D K empty_token_policy.drop_empty_tokens).is_dropped).length
            + (rest.length + 1) := by
        have := length_takeWhile_add_dropWhile
          (mk_explicit D K empty_token_policy.drop_empty_tokens).is_dropped s
        rw [hd] at this
        simpa using this
      by_cases hk : (mk_explicit D K empty_token_policy.drop_empty_tokens).is_kept c = true
      · have hcall : (mk_explicit D K empty_token_policy.drop_empty_tokens).call s
            = ⟨true, [c], rest, mk_explicit D K empty_token_policy.drop_empty_tokens⟩ := by
          simp only [call, hd, hk]; rfl
        have hcK : c ∈ K.getD [] := by simpa [is_kept_mk_explicit] using hk
        have hrec := ih rest (by omega) f (by omega)
          (before ++ s.takeWhile
            (mk_explicit D K empty_token_policy.drop_empty_tokens).is_dropped ++ [c])
          (Or.inl (by intro x hx; simp at hx; subst hx; exact Or.inr hcK))
        simp only [iterate, hcall, if_true]
        refine ⟨hrec.1, ?_⟩
        rw [← hsplit]
        exact DropLayout.kept _ _ _ _ _ hgap hcK hcD hrec.2
      · have hcK : c ∉ K.getD [] := by simpa [is_kept_mk_explicit] using hk
        have hcall : (mk_explicit D K empty_token_policy.drop_empty_tokens).call s
            = ⟨true,
                (c :: rest).takeWhile
                  (mk_explicit D K empty_token_policy.drop_empty_tokens).non_delim,
                (c :: rest).dropWhile
                  (mk_explicit D K empty_token_policy.drop_empty_tokens).non_delim,
                mk_explicit D K empty_token_policy.drop_empty_tokens⟩ := by
          simp only [call, hd, hk]; rfl
        have hnd : (mk_explicit D K empty_token_policy.drop_empty_tokens).non_delim c = true := by
          simp [non_delim_mk_explicit, hcD, hcK]
        have hsplit2 := List.takeWhile_append_dropWhile
          (mk_explicit D K empty_token_policy.drop_empty_tokens).non_delim (c :: rest)
        have htne : (c :: rest).takeWhile
            (mk_explicit D K empty_token_policy.drop_empty_tokens).non_delim ≠ [] := by
          simp [List.takeWhile_cons, hnd]
        have hlen2 : (c :: rest).length = ((c :: rest).takeWhile
            (mk_explicit D K empty_token_policy.drop_empty_tokens).non_delim).length +
            ((c :: rest).dropWhile
              (mk_explicit D K empty_token_policy.drop_empty_tokens).non_delim).length :=
          length_takeWhile_add_dropWhile _ _
        have htpos : 0 < ((c :: rest).takeWhile
            (mk_explicit D K empty_token_policy.drop_empty_tokens).non_delim).length :=
          List.length_pos.mpr htne
        have hright : ∀ y, ((c :: rest).dropWhile
            (mk_explicit D K empty_token_policy.drop_empty_tokens).non_delim).head? = some y →
            y ∈ D ∨ y ∈ K.getD [] := by
          intro y hy
          have := List.head?_dropWhile_not
            (mk_explicit D K empty_token_policy.drop_empty_tokens).non_delim (c :: rest)
          rw [hy] at this
          simp only [non_delim_mk_explicit] at this
          by_cases h1 : y ∈ D
          · exact Or.inl h1
          · right; simpa [h1] using this
        have hrec := ih ((c :: rest).dropWhile
            (mk_explicit D K empty_token_policy.drop_empty_tokens).non_delim)
          (by simp only [List.length_cons] at hlen2; omega) f (by omega)
          (before ++ s.takeWhile
            (mk_explicit D K empty_token_policy.drop_empty_tokens).is_dropped ++
            (c :: rest).takeWhile
              (mk_explicit D K empty_token_policy.drop_empty_tokens).non_delim)
          (Or.inr hright)
        simp only [iterate, hcall, if_true]
        refine ⟨hrec.1, ?_⟩
        have hs3 : s = s.takeWhile
            (mk_explicit D K empty_token_policy.drop_empty_tokens).is_dropped ++
            (c :: rest).takeWhile
              (mk_explicit D K empty_token_policy.drop_empty_tokens).non_delim ++
            (c :: rest).dropWhile
              (mk_explicit D K empty_token_policy.drop_empty_tokens).non_delim := by
          rw [List.append_assoc, hsplit2, hsplit]
        have hleft : ∀ x, (before ++ s.takeWhile
            (mk_explicit D K empty_token_policy.drop_empty_tokens).is_dropped).getLast? = some x →
            x ∈ D ∨ x ∈ K.getD [] := by
          intro x hx
          by_cases hg : s.takeWhile
              (mk_explicit D K empty_token_policy.drop_empty_tokens).is_dropped = []
          · rw [hg, List.append_nil] at hx
            rcases hinv with h | h
            · exact h x hx
            · exfalso
              rw [hg, List.nil_append] at hsplit
              have := h c (by rw [← hsplit]; rfl)
              rcases this with h1 | h1
              · exact hcD h1
              · exact hcK h1
          · rw [List.getLast?_append_of_ne_nil _ hg] at hx
            exact Or.inl (hgap x (List.mem_of_getLast?_eq_some hx))
        have hword := DropLayout.word (K := K.getD []) before _ _ _ _ hgap htne
          (by
            intro x hx
            have := List.mem_takeWhile_imp hx
            simpa [non_delim_mk_explicit] using this)
          hleft hright hrec.2
        rw [← hs3] at hword
        exact hword

theorem DropLayout.forall_token {D K : List Char} {before s : List Char}
    {toks : List (List Char)} (h : DropLayout D K before s toks) :
    ∀ t ∈ toks, t ≠ [] ∧ (∀ c ∈ t, c ∉ D) ∧
      ((∃ c, t = [c] ∧ c ∈ K) ∨
        ((∀ c ∈ t, c ∉ K) ∧ ∃ pre post, before ++ s = pre ++ t ++ post ∧
          (∀ x, pre.getLast? = some x → x ∈ D ∨ x ∈ K) ∧
          (∀ x, post.head? = some x → x ∈ D ∨ x ∈ K))) := by
  induction h with
  | done before gap hgap => intro t ht; simp at ht
  | kept before gap c rest toks hgap hK hD htail ih =>
    intro t ht
    rcases List.mem_cons.mp ht with rfl | ht
    · exact ⟨by simp, by simpa using hD, Or.inl ⟨c, rfl, hK⟩⟩
    · have := ih t ht
      simpa [List.append_assoc] using this
  | word before gap t0 rest toks hgap hne ht0 hleft hright htail ih =>
    intro t ht
    rcases List.mem_cons.mp ht with rfl | ht
    · refine ⟨hne, fun c hc => (ht0 c hc).1, Or.inr ⟨fun c hc => (ht0 c hc).2, ?_⟩⟩
      exact ⟨before ++ gap, rest, by simp [List.append_assoc], hleft, hright⟩
    · have := ih t ht
      simpa [List.append_assoc] using this

/-- C1: in drop_empty_tokens mode with explicit dropped set `D` and kept set `K`
(`none` is the null pointer), for every input the iteration ends with a call
returning false; the tokens lie in the input in order, separated by gaps of
dropped delimiters only (`DropLayout`); every token is non-empty, holds no
dropped delimiter, and is either one kept delimiter or a run of non-delimiters
that is maximal in the input (bounded on each side by a delimiter or an end of
the input). The test input with `D = "-;|"` gives the six tokens of the test. -/
theorem char_separator_drop_tokens :
    (∀ (D : List Char) (K : Option (List Char)) (s : List Char),
      (run (mk_explicit D K empty_token_policy.drop_empty_tokens) s).outcome = Outcome.finished ∧
      DropLayout D (K.getD []) [] s
        (run (mk_explicit D K empty_token_policy.drop_empty_tokens) s).tokens ∧
      ∀ t ∈ (run (mk_explicit D K empty_token_policy.drop_empty_tokens) s).tokens,
        t ≠ [] ∧ (∀ c ∈ t, c ∉ D) ∧
        ((∃ c, t = [c] ∧ c ∈ K.getD []) ∨
          ((∀ c ∈ t, c ∉ K.getD []) ∧ ∃ pre post, s = pre ++ t ++ post ∧
            (∀ x, pre.getLast? = some x → x ∈ D ∨ x ∈ K.getD []) ∧
            (∀ x, post.head? = some x → x ∈ D ∨ x ∈ K.getD [])))) ∧
    (run (mk_explicit "-;|".toList none empty_token_policy.drop_empty_tokens)
        ";;Hello|world||-foo--bar;yow;baz|".toList).tokens =
      ["Hello".toList, "world".toList, "foo".toList, "bar".toList, "yow".toList,
        "baz".toList] := by
  refine ⟨fun D K s => ?_, by decide⟩
  have h := drop_layout_aux D K s.length s (le_refl _) (2 * s.length + 2) (by omega) []
    (Or.inl (by simp))
  refine ⟨h.1, h.2, ?_⟩
  have := DropLayout.forall_token h.2
  simpa using this

theorem is_dropped_explicit (sep : char_separator) (h : sep.m_use_isspace = false) (c : Char) :
    sep.is_dropped c = decide (c ∈ sep.m_dropped_delims) := by
  cases hd : sep.m_dropped_delims <;> simp [is_dropped, h, hd]

theorem is_kept_explicit (sep : char_separator) (h : sep.m_use_ispunct = false) (c : Char) :
    sep.is_kept c = decide (c ∈ sep.m_kept_delims) := by
  cases hd : sep.m_kept_delims <;> simp [is_kept, h, hd]

theorem keep_fields_nil (D K : List Char) : keep_fields D K [] = [[]] := by
  simp [keep_fields, weave_kept]

theorem keep_fields_cons_kept (D K : List Char) (c : Char) (cs : List Char) (hc : c ∈ K) :
    keep_fields D K (c :: cs) = [] :: [c] :: keep_fields D K cs := by
  simp [keep_fields, weave_kept, hc, List.filter_cons]

theorem keep_fields_cons_dropped (D K : List Char) (c : Char) (cs : List Char) (hc : c ∈ D)
    (hk : c ∉ K) : keep_fields D K (c :: cs) = [] :: keep_fields D K cs := by
  simp [keep_fields, weave_kept, hc, hk, List.filter_cons]

theorem weave_kept_modifyHead (K : List Char) (c : Char) :
    ∀ (fs : List (List Char)) (ds : List Char),
      weave_kept K (fs.modifyHead (List.cons c)) ds = (weave_kept K fs ds).modifyHead (List.cons c) := by
  intro fs ds
  cases fs with
  | nil => simp [weave_kept]
  | cons f fs =>
    cases ds with
    | nil => simp [weave_kept]
    | cons d ds =>
      by_cases hd : d ∈ K <;> simp [weave_kept, hd]

theorem keep_fields_cons_other (D K : List Char) (c : Char) (cs : List Char) (hc : c ∉ D)
    (hk : c ∉ K) :
    keep_fields D K (c :: cs) = (keep_fields D K cs).modifyHead (List.cons c) := by
  simp [keep_fields, hc, hk, List.filter_cons, weave_kept_modifyHead]

theorem keep_fields_run (D K : List Char) (s : List Char) :
    keep_fields D K s =
      s.takeWhile (fun c => !decide (c ∈ D) && !decide (c ∈ K)) ::
        (keep_fields D K (s.dropWhile fun c => !decide (c ∈ D) && !decide (c ∈ K))).tail := by
  induction s with
  | nil => simp [keep_fields_nil]
  | cons c cs ih =>
    by_cases hk : c ∈ K
    · simp [keep_fields_cons_kept, hk, List.takeWhile_cons, List.dropWhile_cons]
    · by_cases hd : c ∈ D
      · simp [keep_fields_cons_dropped, hk, hd, List.takeWhile_cons, List.dropWhile_cons]
      · rw [keep_fields_cons_other D K c cs hd hk, ih]
        simp [hk, hd, List.takeWhile_cons, List.dropWhile_cons]

theorem keep_fields_length (D K : List Char) (hdisj : ∀ c ∈ D, c ∉ K) (s : List Char) :
    (keep_fields D K s).length =
      1 + s.countP (fun c => decide (c ∈ D)) + 2 * s.countP (fun c => decide (c ∈ K)) := by
  induction s with
  | nil => simp [keep_fields_nil]
  | cons c cs ih =>
    by_cases hk : c ∈ K
    · have hd : c ∉ D := fun h => hdisj c h hk
      simp [keep_fields_cons_kept, hk, hd, List.countP_cons, ih]; omega
    · by_cases hd : c ∈ D
      · simp [keep_fields_cons_dropped, hk, hd, List.countP_cons, ih]; omega
      · rw [keep_fields_cons_other D K c cs hd hk]
        simp [hk, hd, List.countP_cons, ih]

theorem non_delim_explicit (sep : char_separator) (h1 : sep.m_use_ispunct = false)
    (h2 : sep.m_use_isspace = false) :
    sep.non_delim = fun c => !decide (c ∈ sep.m_dropped_delims) && !decide (c ∈ sep.m_kept_delims) := by
  funext c
  simp [non_delim, is_dropped_explicit sep h2, is_kept_explicit sep h1]

theorem keep_run_aux :
    ∀ (n : Nat) (s : List Char) (sep : char_separator), s.length ≤ n →
      sep.m_empty_tokens = empty_token_policy.keep_empty_tokens →
      sep.m_use_ispunct = false → sep.m_use_isspace = false →
      (sep.m_output_done = true →
        (∀ y, s.head? = some y → y ∈ sep.m_dropped_delims ∨ y ∈ sep.m_kept_delims) →
        ∀ fuel, 2 * s.length + 1 ≤ fuel →
          (iterate (fun sp nx => Except.ok (sp.call nx)) fuel sep s).outcome = Outcome.finished ∧
          (iterate (fun sp nx => Except.ok (sp.call nx)) fuel sep s).tokens =
            (keep_fields sep.m_dropped_delims sep.m_kept_delims s).tail) ∧
      (sep.m_output_done = false →
        ∀ fuel, 2 * s.length + 2 ≤ fuel →
          (iterate (fun sp nx => Except.ok (sp.call nx)) fuel sep s).outcome = Outcome.finished ∧
          (iterate (fun sp nx => Except.ok (sp.call nx)) fuel sep s).tokens =
            keep_fields sep.m_dropped_delims sep.m_kept_delims s) := by
  intro n
  induction n with
  | zero =>
    intro s sep hs hmode hp hsp
    have : s = [] := List.length_eq_zero.mp (by omega)
    subst this
    constructor
    · intro hdone _ fuel hf
      obtain ⟨f, rfl⟩ : ∃ k, fuel = k + 1 := ⟨fuel - 1, by omega⟩
      simp [iterate, call, hmode, hdone, keep_fields_nil]
    · intro hdone fuel hf
      obtain ⟨f, rfl⟩ : ∃ k, fuel = k + 2 := ⟨fuel - 2, by omega⟩
      simp [iterate, call, hmode, hdone, keep_fields_nil]
  | succ n ih =>
    have hB : ∀ (s : List Char) (sep : char_separator), s.length ≤ n + 1 →
        sep.m_empty_tokens = empty_token_policy.keep_empty_tokens →
        sep.m_use_ispunct = false → sep.m_use_isspace = false →
        sep.m_output_done = true →
        (∀ y, s.head? = some y → y ∈ sep.m_dropped_delims ∨ y ∈ sep.m_kept_delims) →
        ∀ fuel, 2 * s.length + 1 ≤ fuel →
          (iterate (fun sp nx => Except.ok (sp.call nx)) fuel sep s).outcome = Outcome.finished ∧
          (iterate (fun sp nx => Except.ok (sp.call nx)) fuel sep s).tokens =
            (keep_fields sep.m_dropped_delims sep.m_kept_delims s).tail := by
      intro s sep hs hmode hp hsp hdone hhead fuel hf
      have hnd := non_delim_explicit sep hp hsp
      obtain ⟨f, rfl⟩ : ∃ k, fuel = k + 1 := ⟨fuel - 1, by omega⟩
      cases s with
      | nil => simp [iterate, call, hmode, hdone, keep_fields_nil]
      | cons c cs =>
        simp only [List.length_cons] at hs hf
        by_cases hk : c ∈ sep.m_kept_delims
        · have hcall : sep.call (c :: cs) = ⟨true, [c], cs, { sep with m_output_done := false }⟩ := by
            simp [call, hmode, hdone, is_kept_explicit sep hp, hk]
          have hrec := (ih cs { sep with m_output_done := false } (by omega) hmode hp hsp).2 rfl
            f (by omega)
          simp only [iterate, hcall, if_true]
          refine ⟨hrec.1, ?_⟩
          rw [hrec.2, keep_fields_cons_kept _ _ _ _ hk]
          rfl
        · have hd : c ∈ sep.m_dropped_delims := by
            rcases hhead c rfl with h | h
            · exact h
            · exact absurd h hk
          have hcall : sep.call (c :: cs) =
              ⟨true, cs.takeWhile sep.non_delim, cs.dropWhile sep.non_delim,
                { sep with m_output_done := true }⟩ := by
            simp [call, hmode, hdone, is_kept_explicit sep hp, is_dropped_explicit sep hsp, hk, hd]
          have hlen := length_takeWhile_add_dropWhile sep.non_delim cs
          have hrec := (ih (cs.dropWhile sep.non_delim) { sep with m_output_done := true }
            (by omega) hmode hp hsp).1 rfl
            (by
              intro y hy
              have := List.head?_dropWhile_not sep.non_delim cs
              rw [hy, hnd] at this
              by_cases h1 : y ∈ sep.m_dropped_delims
              · exact Or.inl h1
              · right; simpa [h1] using this)
            f (by omega)
          simp only [iterate, hcall, if_true]
          refine ⟨hrec.1, ?_⟩
          rw [hrec.2, keep_fields_cons_dropped _ _ _ _ hd hk]
          simp only [List.tail_cons]
          rw [keep_fields_run _ _ cs, hnd]
    intro s sep hs hmode hp hsp
    refine ⟨hB s sep hs hmode hp hsp, ?_⟩
    have hnd := non_delim_explicit sep hp hsp
    intro hdone fuel hf
    obtain ⟨f, rfl⟩ : ∃ k, fuel = k + 1 := ⟨fuel - 1, by omega⟩
    cases s with
    | nil =>
      obtain ⟨f, rfl⟩ : ∃ k, f = k + 1 := ⟨f - 1, by simp at hf; omega⟩
      simp [iterate, call, hmode, hdone, keep_fields_nil]
    | cons c cs =>
      simp only [List.length_cons] at hs hf
      by_cases hk : c ∈ sep.m_kept_delims
      · have hcall : sep.call (c :: cs) = ⟨true, [], c :: cs, { sep with m_output_done := true }⟩ := by
          simp [call, hmode, hdone, is_kept_explicit sep hp, hk]
        have hrec := hB (c :: cs) { sep with m_output_done := true } (by simpa using hs) hmode hp hsp
          rfl (by intro y hy; simp at hy; subst hy; exact Or.inr hk) f (by simp; omega)
        simp only [iterate, hcall, if_true]
        refine ⟨hrec.1, ?_⟩
        rw [hrec.2, keep_fields_cons_kept _ _ _ _ hk]
        rfl
      · by_cases hd : c ∈ sep.m_dropped_delims
        · have hcall : sep.call (c :: cs) =
              ⟨true, [], c :: cs, { sep with m_output_done := true }⟩ := by
            simp [call, hmode, hdone, is_kept_explicit sep hp, is_dropped_explicit sep hsp, hk, hd]
          have hrec := hB (c :: cs) { sep with m_output_done := true } (by simpa using hs) hmode
            hp hsp rfl (by intro y hy; simp at hy; subst hy; exact Or.inl hd) f (by simp; omega)
          simp only [iterate, hcall, if_true]
          refine ⟨hrec.1, ?_⟩
          rw [hrec.2, keep_fields_cons_dropped _ _ _ _ hd hk]
          rfl
        · have hcall : sep.call (c :: cs) =
              ⟨true, (c :: cs).takeWhile sep.non_delim, (c :: cs).dropWhile sep.non_delim,
                { sep with m_output_done := true }⟩ := by
            simp [call, hmode, hdone, is_kept_explicit sep hp, is_dropped_explicit sep hsp, hk, hd]
          have hlen := length_takeWhile_add_dropWhile sep.non_delim (c :: cs)
          simp only [List.length_cons] at hlen
          have hrec := hB ((c :: cs).dropWhile sep.non_delim) { sep with m_output_done := true }
            (by omega) hmode hp hsp rfl
            (by
              intro y hy
              have := List.head?_dropWhile_not sep.non_delim (c :: cs)
              rw [hy, hnd] at this
              by_cases h1 : y ∈ sep.m_dropped_delims
              · exact Or.inl h1
              · right; simpa [h1] using this)
            f (by omega)
          simp only [iterate, hcall, if_true]
          refine ⟨hrec.1, ?_⟩
          rw [hrec.2]
          conv_rhs => rw [keep_fields_run _ _ (c :: cs)]
          rw [hnd]

/-- C2: in keep_empty_tokens mode with explicit disjoint dropped set `D` and
kept set `K` (`none` is the null pointer), for every input, the empty one
included, the iteration from the initial state ends with a call returning
false and its tokens are exactly `keep_fields D K s`: the fields of the input
split at every `D` or `K` character, empty ones kept, with each `K` character
as its own token between the two fields it separates; their number is
`1 + #D-characters + 2 * #K-characters`. -/
theorem char_separator_keep_tokens (D : List Char) (K : Option (List Char)) (s : List Char)
    (hdisj : ∀ c ∈ D, c ∉ K.getD []) :
    (run (mk_explicit D K empty_token_policy.keep_empty_tokens) s).outcome = Outcome.finished ∧
    (run (mk_explicit D K empty_token_policy.keep_empty_tokens) s).tokens
      = keep_fields D (K.getD []) s ∧
    (run (mk_explicit D K empty_token_policy.keep_empty_tokens) s).tokens.length
      = 1 + s.countP (fun c => decide (c ∈ D)) + 2 * s.countP (fun c => decide (c ∈ K.getD [])) := by
  have h := (keep_run_aux s.length s (mk_explicit D K empty_token_policy.keep_empty_tokens)
    (le_refl _) rfl rfl rfl).2 rfl (2 * s.length + 2) (le_refl _)
  refine ⟨h.1, h.2, ?_⟩
  have h2 : (run (mk_explicit D K empty_token_policy.keep_empty_tokens) s).tokens
      = keep_fields D (K.getD []) s := h.2
  rw [h2]
  exact keep_fields_length D (K.getD []) hdisj s

/-- Witness for C2: the test of `examples.cpp` with `D = "-;"`, `K = "|"`, whose
input holds seven dropped and four kept delimiters: sixteen tokens. -/
theorem char_separator_keep_tokens_witness :
    (∀ c ∈ "-;".toList, c ∉ (some "|".toList).getD []) ∧
    (run (mk_explicit "-;".toList (some "|".toList) empty_token_policy.keep_empty_tokens)
        ";;Hello|world||-foo--bar;yow;baz|".toList).tokens =
      ["".toList, "".toList, "Hello".toList, "|".toList, "world".toList, "|".toList, "".toList,
        "|".toList, "".toList, "foo".toList, "".toList, "bar".toList, "yow".toList,
        "baz".toList, "|".toList, "".toList] ∧
    (run (mk_explicit "-;".toList (some "|".toList) empty_token_policy.keep_empty_tokens)
        ";;Hello|world||-foo--bar;yow;baz|".toList).tokens.length = 16 := by
  have h := char_separator_keep_tokens "-;".toList (some "|".toList)
    ";;Hello|world||-foo--bar;yow;baz|".toList (by decide)
  refine ⟨by decide, ?_, ?_⟩
  · rw [h.2.1]; decide
  · rw [h.2.2]; decide

end char_separator

theorem splitOnP_length (p : Char → Bool) (s : List Char) :
    (s.splitOnP p).length = s.countP p + 1 := by
  induction s with
  | nil => simp
  | cons c cs ih =>
    by_cases h : p c = true <;> simp [List.splitOnP_cons, h, List.countP_cons, ih]

theorem splitOnP_append_sep (p : Char → Bool) (s : List Char) (d : Char) (hd : p d = true) :
    (s ++ [d]).splitOnP p = s.splitOnP p ++ [[]] := by
  induction s with
  | nil => simp [hd]
  | cons c cs ih =>
    by_cases h : p c = true
    · simp [List.splitOnP_cons, h, ih]
    · simp only [List.cons_append, List.splitOnP_cons, h, ih]
      cases hsp : List.splitOnP p cs with
      | nil => exact absurd hsp (List.splitOnP_ne_nil p cs)
      | cons f fs => simp

namespace escaped_list_separator

theorem scan_cons (sep : escaped_list_separator) (bInQuote : Bool) (tok : List Char) (c : Char)
    (rest : List Char) :
    scan sep bInQuote tok (c :: rest) =
      if sep.is_escape c then
        match rest with
        | [] => (sep.do_escape [c] tok).bind fun r => Except.ok ⟨true, r.2, r.1.tail, sep⟩
        | x :: rest1 =>
          (sep.do_escape (c :: x :: rest1) tok).bind fun r => scan sep bInQuote r.2 rest1
      else if sep.is_c c then
        if !bInQuote then Except.ok ⟨true, tok, rest, { sep with last_ := true }⟩
        else scan sep bInQuote (tok ++ [c]) rest
      else if sep.is_quote c then scan sep (!bInQuote) tok rest
      else scan sep bInQuote (tok ++ [c]) rest := by
  rw [scan.eq_def]
theorem scan_plain (sep : escaped_list_separator) :
    ∀ (s tok : List Char), (∀ x ∈ s, x ∉ sep.escape_ ∧ x ∉ sep.quote_) →
      scan sep false tok s =
        match s.dropWhile (fun x => !decide (x ∈ sep.c_)) with
        | [] => Except.ok ⟨true, tok ++ s, [], sep⟩
        | _ :: rest =>
          Except.ok ⟨true, tok ++ s.takeWhile (fun x => !decide (x ∈ sep.c_)), rest,
            { sep with last_ := true }⟩ := by
  intro s
  induction s with
  | nil => intro tok _; simp [scan]
  | cons c cs ih =>
    intro tok hs
    have hc := hs c (List.mem_cons_self _ _)
    have hcs : ∀ x ∈ cs, x ∉ sep.escape_ ∧ x ∉ sep.quote_ :=
      fun x hx => hs x (List.mem_cons_of_mem _ hx)
    by_cases hsep : c ∈ sep.c_
    · simp [scan_cons, is_escape, is_c, hc.1, hsep]
    · rw [scan_cons]
      simp only [is_escape, is_c, is_quote, hc.1, hc.2, hsep, decide_False, Bool.false_eq_true,
        if_false]
      rw [ih (tok ++ [c]) hcs]
      simp only [List.dropWhile_cons, List.takeWhile_cons, hsep, decide_False, Bool.not_false,
        if_true]
      cases cs.dropWhile (fun x => !decide (x ∈ sep.c_)) <;> simp

theorem plain_run_aux :
    ∀ (n : Nat) (s : List Char) (sep : escaped_list_separator), s.length ≤ n →
      (∀ x ∈ s, x ∉ sep.escape_ ∧ x ∉ sep.quote_) → (sep.last_ = true ∨ s ≠ []) →
      ∀ fuel, s.length + 2 ≤ fuel →
        (iterate call fuel sep s).outcome = Outcome.finished ∧
        (iterate call fuel sep s).tokens = s.splitOnP (fun x => decide (x ∈ sep.c_)) := by
  intro n
  induction n with
  | zero =>
    intro s sep hs _ hlast fuel hf
    have : s = [] := List.length_eq_zero.mp (by omega)
    subst this
    obtain ⟨f, rfl⟩ : ∃ k, fuel = k + 2 := ⟨fuel - 2, by omega⟩
    have hl : sep.last_ = true := by simpa using hlast
    simp [iterate, call, hl]
  | succ n ih =>
    intro s sep hs hplain hlast fuel hf
    obtain ⟨f, rfl⟩ : ∃ k, fuel = k + 2 := ⟨fuel - 2, by omega⟩
    cases s with
    | nil =>
      have hl : sep.last_ = true := by simpa using hlast
      simp [iterate, call, hl]
    | cons c cs =>
      have hcall : call sep (c :: cs) = scan { sep with last_ := false } false [] (c :: cs) := rfl
      have hscan := scan_plain { sep with last_ := false } (c :: cs) [] hplain
      have hsplit := List.takeWhile_append_dropWhile (fun x => !decide (x ∈ sep.c_)) (c :: cs)
      have hlen := length_takeWhile_add_dropWhile (fun x => !decide (x ∈ sep.c_)) (c :: cs)
      have htake : ∀ x ∈ (c :: cs).takeWhile (fun x => !decide (x ∈ sep.c_)),
          ¬ (decide (x ∈ sep.c_) = true) := by
        intro x hx
        have := List.mem_takeWhile_imp hx
        simpa using this
      cases hd : (c :: cs).dropWhile (fun x => !decide (x ∈ sep.c_)) with
      | nil =>
        simp only [hd] at hscan
        rw [hd, List.append_nil] at hsplit
        rw [hsplit] at htake
        simp only [iterate, hcall, hscan, if_true, List.nil_append, call, Bool.false_eq_true,
          if_false]
        exact ⟨trivial, (List.splitOnP_eq_single _ _ htake).symm⟩
      | cons d rest =>
        simp only [hd] at hscan
        rw [hd] at hsplit hlen
        have hdsep : decide (d ∈ sep.c_) = true := by
          have := dropWhile_head_false hd
          simpa using this
        simp only [List.length_cons] at hlen hs hf
        have hrec := ih rest { sep with last_ := true } (by omega)
          (fun x hx => hplain x (by rw [← hsplit]; simp [hx])) (Or.inl rfl) (f + 1) (by omega)
        rw [iterate, hcall, hscan]
        simp only [if_true, List.nil_append]
        refine ⟨hrec.1, ?_⟩
        rw [hrec.2]
        conv_rhs => rw [← hsplit]
        rw [List.splitOnP_first _ _ htake d hdsep]

/-- C3: for every configuration and every input without escape and quote
characters the iteration ends with a call returning false; the empty input
gives no token; a non-empty input gives exactly its fields split at every
separator character (`List.splitOnP`, empty fields kept), one more than the
number of separator characters; and an input ending with a separator gives the
fields of what precedes that separator followed by one empty token. -/
theorem escaped_list_plain_fields (e c q : List Char) (s : List Char)
    (hs : ∀ x ∈ s, x ∉ e ∧ x ∉ q) :
    (run (mk_strings e c q) s).outcome = Outcome.finished ∧
    (s = [] → (run (mk_strings e c q) s).tokens = []) ∧
    (s ≠ [] →
      (run (mk_strings e c q) s).tokens = s.splitOnP (fun x => decide (x ∈ c)) ∧
      (run (mk_strings e c q) s).tokens.length = s.countP (fun x => decide (x ∈ c)) + 1) ∧
    (∀ p d, s = p ++ [d] → d ∈ c →
      (run (mk_strings e c q) s).tokens = p.splitOnP (fun x => decide (x ∈ c)) ++ [[]]) := by
  by_cases hne : s = []
  · subst hne
    refine ⟨rfl, fun _ => rfl, fun h => absurd rfl h, ?_⟩
    intro p d hp
    simp at hp
  · have h := plain_run_aux s.length s (mk_strings e c q) (le_refl _) hs (Or.inr hne)
      (2 * s.length + 2) (by omega)
    have h2 : (run (mk_strings e c q) s).tokens = s.splitOnP (fun x => decide (x ∈ c)) := h.2
    refine ⟨h.1, fun h0 => absurd h0 hne, fun _ => ⟨h2, ?_⟩, ?_⟩
    · rw [h2, splitOnP_length]
    · intro p d hp hd
      rw [h2, hp]
      exact splitOnP_append_sep _ p d (by simpa using hd)

/-- Witness for C3: the default configuration on `,a,,b,`, whose four commas
give five fields, the first, the third and the last of them empty. -/
theorem escaped_list_plain_fields_witness :
    (∀ x ∈ ",a,,b,".toList, x ∉ ['\\'] ∧ x ∉ ['\"']) ∧
    (run (mk_strings ['\\'] [','] ['\"']) ",a,,b,".toList).outcome = Outcome.finished ∧
    (run (mk_strings ['\\'] [','] ['\"']) ",a,,b,".toList).tokens =
      [[], ['a'], [], ['b'], []] := by
  have h := escaped_list_plain_fields ['\\'] [','] ['\"'] ",a,,b,".toList (by decide)
  refine ⟨by decide, h.1, ?_⟩
  rw [(h.2.2.1 (by decide)).1]
  decide

end escaped_list_separator

theorem iterate_ok_true {σ : Type} (call : σ → List Char → Except Failure (CallResult σ))
    (fuel : Nat) (sep : σ) (s : List Char) (r : CallResult σ) (h : call sep s = Except.ok r)
    (hr : r.ret = true) :
    iterate call (fuel + 1) sep s =
      ⟨r.tok :: (iterate call fuel r.sep r.next).tokens, (iterate call fuel r.sep r.next).outcome,
        (iterate call fuel r.sep r.next).sep, (iterate call fuel r.sep r.next).next⟩ := by
  simp [iterate, h, hr]

theorem iterate_ok_false {σ : Type} (call : σ → List Char → Except Failure (CallResult σ))
    (fuel : Nat) (sep : σ) (s : List Char) (r : CallResult σ) (h : call sep s = Except.ok r)
    (hr : r.ret = false) :
    iterate call (fuel + 1) sep s = ⟨[], Outcome.finished, r.sep, r.next⟩ := by
  simp [iterate, h, hr]

theorem iterate_error {σ : Type} (call : σ → List Char → Except Failure (CallResult σ))
    (fuel : Nat) (sep : σ) (s : List Char) (e : Failure) (h : call sep s = Except.error e) :
    iterate call (fuel + 1) sep s = ⟨[], Outcome.failed e, sep, s⟩ := by
  simp [iterate, h]

theorem tokenize_eq {σ : Type} (call : σ → List Char → Except Failure (CallResult σ))
    (sep : σ) (s : List Char) :
    tokenize call sep s = iterate call ((2 * s.length + 1) + 1) sep s := rfl

namespace escaped_list_separator

theorem scan_quoted (sep : escaped_list_separator) :
    ∀ (f tok rest : List Char), (∀ x ∈ f, x ∉ sep.quote_ ∧ x ∉ sep.escape_) →
      scan sep true tok (f ++ rest) = scan sep true (tok ++ f) rest := by
  intro f
  induction f with
  | nil => intro tok rest _; simp
  | cons c cs ih =>
    intro tok rest hf
    have hc := hf c (List.mem_cons_self _ _)
    have hcs : ∀ x ∈ cs, x ∉ sep.quote_ ∧ x ∉ sep.escape_ :=
      fun x hx => hf x (List.mem_cons_of_mem _ hx)
    rw [List.cons_append, scan_cons]
    simp only [is_escape, is_c, is_quote, hc.1, hc.2, decide_False, Bool.false_eq_true, if_false,
      Bool.not_true, ite_self]
    rw [ih (tok ++ [c]) rest hcs]
    simp

/-- C4 as stated fails: with separator set `,;` and quote set `";` the quote
character `;` is also a separator, and the input `;a,b;` (the field `a,b`
between two `;`) gives the four tokens "", "a", "b", "" instead of the one
token `a,b`: the separator test comes before the quote test. Likewise, with
the double quote also in the escape set, the input `"a"` raises instead of
giving the token `a`: the escape test comes first. -/
theorem escaped_list_quoted_field_counterexample :
    (';' ∈ ['\"', ';'] ∧
      (∀ x ∈ ['a', ',', 'b'], x ∉ ['\"', ';'] ∧ x ∉ ['\\']) ∧
      (run (mk_strings ['\\'] [',', ';'] ['\"', ';']) (';' :: (['a', ',', 'b'] ++ [';']))).tokens
        = [[], ['a'], ['b'], []] ∧
      (run (mk_strings ['\\'] [',', ';'] ['\"', ';']) (';' :: (['a', ',', 'b'] ++ [';']))).tokens
        ≠ [['a', ',', 'b']]) ∧
    ('\"' ∈ ['\"'] ∧
      (∀ x ∈ ['a'], x ∉ ['\"'] ∧ x ∉ ['\\', '\"']) ∧
      (run (mk_strings ['\\', '\"'] [','] ['\"']) ('\"' :: (['a'] ++ ['\"']))).outcome
        = Outcome.failed (Failure.escaped_list_error "unknown escape sequence") ∧
      (run (mk_strings ['\\', '\"'] [','] ['\"']) ('\"' :: (['a'] ++ ['\"']))).tokens = []) := by
  decide

/-- C4, amended: for every configuration, every quote character `qc` of it
that is neither an escape character nor a separator character, and every `f`
without quote and escape characters (separators allowed), the input
`qc ++ f ++ qc` gives exactly the one token `f`, and the iteration ends with a
call returning false. -/
theorem escaped_list_quoted_field (e c q : List Char) (qc : Char) (f : List Char)
    (hq : qc ∈ q) (hqe : qc ∉ e) (hqc : qc ∉ c) (hf : ∀ x ∈ f, x ∉ q ∧ x ∉ e) :
    (run (mk_strings e c q) (qc :: (f ++ [qc]))).outcome = Outcome.finished ∧
    (run (mk_strings e c q) (qc :: (f ++ [qc]))).tokens = [f] := by
  have hcall : call (mk_strings e c q) (qc :: (f ++ [qc])) =
      Except.ok ⟨true, f, [], mk_strings e c q⟩ := by
    show scan { mk_strings e c q with last_ := false } false [] (qc :: (f ++ [qc])) = _
    rw [scan_cons]
    simp only [is_escape, is_c, is_quote, mk_strings, hq, hqe, hqc, decide_False, decide_True,
      Bool.false_eq_true, if_false, if_true, Bool.not_false]
    rw [scan_quoted _ f [] [qc] (by simpa [mk_strings] using hf), scan_cons]
    simp [is_escape, is_c, is_quote, hq, hqe, hqc, scan]
  have hcall2 : call (mk_strings e c q) [] = Except.ok ⟨false, [], [], mk_strings e c q⟩ := rfl
  rw [run, tokenize_eq, iterate_ok_true _ _ _ _ _ hcall rfl, iterate_ok_false _ _ _ _ _ hcall2 rfl]
  exact ⟨rfl, rfl⟩

/-- Witness for C4: the quoted field `"embedded,comma"` of the test, in the
default configuration. -/
theorem escaped_list_quoted_field_witness :
    ('\"' ∈ ['\"'] ∧ '\"' ∉ ['\\'] ∧ '\"' ∉ [','] ∧
      ∀ x ∈ "embedded,comma".toList, x ∉ ['\"'] ∧ x ∉ ['\\']) ∧
    (run (mk_strings ['\\'] [','] ['\"']) ('\"' :: ("embedded,comma".toList ++ ['\"']))).tokens
      = ["embedded,comma".toList] :=
  ⟨by decide,
    (escaped_list_quoted_field ['\\'] [','] ['\"'] '\"' "embedded,comma".toList
      (by decide) (by decide) (by decide) (by decide)).2⟩

theorem call_escape_pair (sep : escaped_list_separator) (ec x : Char) (t : List Char)
    (hec : ec ∈ sep.escape_)
    (hd : sep.do_escape [ec, x] [] = Except.ok ([x], t)) :
    call sep [ec, x] = Except.ok ⟨true, t, [], { sep with last_ := false }⟩ := by
  show scan { sep with last_ := false } false [] [ec, x] = _
  have hd2 : do_escape { sep with last_ := false } [ec, x] [] = Except.ok ([x], t) := hd
  rw [scan_cons]
  simp [is_escape, hec, hd2, Except.bind, scan]

/-- C5: for every configuration and every escape character `ec` of it, the
input `[ec, 'n']` gives the single token made of one newline, and for every
`x` other than `'n'` that is a quote, separator or escape character the input
`[ec, x]` gives the single token `[x]`; both iterations end with a call
returning false. -/
theorem escaped_list_escape_pairs (e c q : List Char) (ec : Char) (hec : ec ∈ e) :
    ((run (mk_strings e c q) [ec, 'n']).outcome = Outcome.finished ∧
      (run (mk_strings e c q) [ec, 'n']).tokens = [['\n']]) ∧
    ∀ x, x ≠ 'n' → (x ∈ q ∨ x ∈ c ∨ x ∈ e) →
      (run (mk_strings e c q) [ec, x]).outcome = Outcome.finished ∧
      (run (mk_strings e c q) [ec, x]).tokens = [[x]] := by
  have hend : ∀ sp : escaped_list_separator, sp.last_ = false →
      call sp [] = Except.ok ⟨false, [], [], sp⟩ := by
    intro sp h; simp [call, h]
  constructor
  · have hcall := call_escape_pair (mk_strings e c q) ec 'n' ['\n'] hec (by simp [do_escape])
    rw [run, tokenize_eq, iterate_ok_true _ _ _ _ _ hcall rfl,
      iterate_ok_false _ _ _ _ _ (hend _ rfl) rfl]
    exact ⟨rfl, rfl⟩
  · intro x hxn hx
    have hcall := call_escape_pair (mk_strings e c q) ec x [x] hec (by
      simp only [do_escape, List.tail_cons, hxn, if_false, is_quote, is_c, is_escape, mk_strings]
      by_cases h1 : x ∈ q
      · simp [h1]
      · by_cases h2 : x ∈ c
        · simp [h1, h2]
        · have h3 : x ∈ e := by tauto
          simp [h1, h2, h3])
    rw [run, tokenize_eq, iterate_ok_true _ _ _ _ _ hcall rfl,
      iterate_ok_false _ _ _ _ _ (hend _ rfl) rfl]
    exact ⟨rfl, rfl⟩

/-- Witness for C5: the configuration of the test, with the two escape
characters backslash and caret, the two separators comma and semicolon, and the
double and the single quote: caret then `n` gives a newline, caret then a
semicolon gives the semicolon. -/
theorem escaped_list_escape_pairs_witness :
    '^' ∈ ['\\', '^'] ∧
    (run (mk_strings ['\\', '^'] [',', ';'] "\"'".toList) ['^', 'n']).tokens = [['\n']] ∧
    (run (mk_strings ['\\', '^'] [',', ';'] "\"'".toList) ['^', ';']).tokens = [[';']] :=
  ⟨by decide,
    (escaped_list_escape_pairs ['\\', '^'] [',', ';'] "\"'".toList '^' (by decide)).1.2,
    ((escaped_list_escape_pairs ['\\', '^'] [',', ';'] "\"'".toList '^' (by decide)).2 ';'
      (by decide) (by decide)).2⟩

/-- Scanning a stretch `p` without escape characters that is followed by a
tail `t` on which the scan raises: either the scan of `p` stops at an unquoted
separator, and then so does the scan of `p ++ t`, with `t` still ahead; or the
scan of `p` reaches the end of `p`, and then the scan of `p ++ t` raises. -/
theorem scan_append_bad (sep : escaped_list_separator) (t : List Char) (m : Failure)
    (hbad : ∀ b tok, scan sep b tok t = Except.error m) :
    ∀ (p : List Char) (b : Bool) (tok : List Char), (∀ x ∈ p, x ∉ sep.escape_) →
      (∃ tok1 p2, scan sep b tok p = Except.ok ⟨true, tok1, p2, { sep with last_ := true }⟩ ∧
          scan sep b tok (p ++ t) = Except.ok ⟨true, tok1, p2 ++ t, { sep with last_ := true }⟩ ∧
          p2.length < p.length ∧ ∀ x ∈ p2, x ∈ p) ∨
      (∃ tok1, scan sep b tok p = Except.ok ⟨true, tok1, [], sep⟩ ∧
          scan sep b tok (p ++ t) = Except.error m) := by
  intro p
  induction p with
  | nil =>
    intro b tok _
    exact Or.inr ⟨tok, by simp [scan], by simpa using hbad b tok⟩
  | cons c cs ih =>
    intro b tok hp
    have hc : c ∉ sep.escape_ := hp c (List.mem_cons_self _ _)
    have hcs : ∀ x ∈ cs, x ∉ sep.escape_ := fun x hx => hp x (List.mem_cons_of_mem _ hx)
    have lift : ∀ b1 tok1,
        scan sep b tok (c :: cs) = scan sep b1 tok1 cs →
        scan sep b tok (c :: cs ++ t) = scan sep b1 tok1 (cs ++ t) →
        ((∃ tok1 p2, scan sep b tok (c :: cs) =
              Except.ok ⟨true, tok1, p2, { sep with last_ := true }⟩ ∧
            scan sep b tok (c :: cs ++ t) =
              Except.ok ⟨true, tok1, p2 ++ t, { sep with last_ := true }⟩ ∧
            p2.length < (c :: cs).length ∧ ∀ x ∈ p2, x ∈ c :: cs) ∨
          (∃ tok1, scan sep b tok (c :: cs) = Except.ok ⟨true, tok1, [], sep⟩ ∧
            scan sep b tok (c :: cs ++ t) = Except.error m)) := by
      intro b1 tok1 h1 h2
      rcases ih b1 tok1 hcs with ⟨tk, p2, ha, hb, hl, hm⟩ | ⟨tk, ha, hb⟩
      · exact Or.inl ⟨tk, p2, by rw [h1, ha], by rw [h2, hb],
          by simp only [List.length_cons]; omega, fun x hx => List.mem_cons_of_mem _ (hm x hx)⟩
      · exact Or.inr ⟨tk, by rw [h1, ha], by rw [h2, hb]⟩
    by_cases hsep : c ∈ sep.c_
    · cases b with
      | false =>
        refine Or.inl ⟨tok, cs, ?_, ?_, by simp, fun x hx => List.mem_cons_of_mem _ hx⟩
        · simp [scan_cons, is_escape, is_c, hc, hsep]
        · simp [scan_cons, is_escape, is_c, hc, hsep]
      | true =>
        exact lift true (tok ++ [c])
          (by simp [scan_cons, is_escape, is_c, hc, hsep])
          (by simp [scan_cons, is_escape, is_c, hc, hsep])
    · by_cases hq : c ∈ sep.quote_
      · exact lift (!b) tok
          (by simp [scan_cons, is_escape, is_c, is_quote, hc, hsep, hq])
          (by simp [scan_cons, is_escape, is_c, is_quote, hc, hsep, hq])
      · exact lift b (tok ++ [c])
          (by simp [scan_cons, is_escape, is_c, is_quote, hc, hsep, hq])
          (by simp [scan_cons, is_escape, is_c, is_quote, hc, hsep, hq])

theorem run_append_bad (e c q : List Char) (t : List Char) (m : Failure) (ht : t ≠ [])
    (hbad : ∀ b tok, scan ⟨e, c, q, false⟩ b tok t = Except.error m) :
    ∀ (n : Nat) (p : List Char) (l : Bool), p.length ≤ n → (∀ x ∈ p, x ∉ e) →
      ∀ f1 f2, p.length + 2 ≤ f1 → p.length + 1 ≤ f2 →
        (iterate call f1 ⟨e, c, q, l⟩ p).outcome = Outcome.finished ∧
        (l = true ∨ p ≠ [] → (iterate call f1 ⟨e, c, q, l⟩ p).tokens ≠ []) ∧
        (iterate call f2 ⟨e, c, q, l⟩ (p ++ t)).outcome = Outcome.failed m ∧
        (iterate call f2 ⟨e, c, q, l⟩ (p ++ t)).tokens =
          (iterate call f1 ⟨e, c, q, l⟩ p).tokens.dropLast := by
  have hend : ∀ f, iterate call (f + 1) ⟨e, c, q, false⟩ [] =
      ⟨[], Outcome.finished, ⟨e, c, q, false⟩, []⟩ := by
    intro f
    exact iterate_ok_false call f ⟨e, c, q, false⟩ [] ⟨false, [], [], ⟨e, c, q, false⟩⟩ rfl rfl
  have hnil : ∀ l f1 f2, 2 ≤ f1 → 1 ≤ f2 →
      (iterate call f1 ⟨e, c, q, l⟩ []).outcome = Outcome.finished ∧
      (l = true ∨ ([] : List Char) ≠ [] → (iterate call f1 ⟨e, c, q, l⟩ []).tokens ≠ []) ∧
      (iterate call f2 ⟨e, c, q, l⟩ ([] ++ t)).outcome = Outcome.failed m ∧
      (iterate call f2 ⟨e, c, q, l⟩ ([] ++ t)).tokens =
        (iterate call f1 ⟨e, c, q, l⟩ []).tokens.dropLast := by
    intro l f1 f2 h1 h2
    obtain ⟨g1, rfl⟩ : ∃ k, f1 = k + 2 := ⟨f1 - 2, by omega⟩
    obtain ⟨g2, rfl⟩ : ∃ k, f2 = k + 1 := ⟨f2 - 1, by omega⟩
    have hcallt : call ⟨e, c, q, l⟩ ([] ++ t) = Except.error m := by
      cases t with
      | nil => exact absurd rfl ht
      | cons a as => exact hbad false []
    rw [iterate_error _ _ _ _ _ hcallt]
    cases l with
    | false =>
      rw [hend]
      simp
    | true =>
      have hc1 : call ⟨e, c, q, true⟩ [] = Except.ok ⟨true, [], [], ⟨e, c, q, false⟩⟩ := rfl
      rw [iterate_ok_true _ _ _ _ _ hc1 rfl, hend]
      simp
  intro n
  induction n with
  | zero =>
    intro p l hp _ f1 f2 h1 h2
    have : p = [] := List.length_eq_zero.mp (by omega)
    subst this
    exact hnil l f1 f2 (by simpa using h1) (by simpa using h2)
  | succ n ih =>
    intro p l hp hpe f1 f2 h1 h2
    cases p with
    | nil => exact hnil l f1 f2 (by simpa using h1) (by simpa using h2)
    | cons a as =>
      simp only [List.length_cons] at hp h1 h2
      obtain ⟨g1, rfl⟩ : ∃ k, f1 = k + 2 := ⟨f1 - 2, by omega⟩
      obtain ⟨g2, rfl⟩ : ∃ k, f2 = k + 1 := ⟨f2 - 1, by omega⟩
      have hc1 : call ⟨e, c, q, l⟩ (a :: as) = scan ⟨e, c, q, false⟩ false [] (a :: as) := rfl
      have hc2 : call ⟨e, c, q, l⟩ (a :: as ++ t) =
          scan ⟨e, c, q, false⟩ false [] (a :: as ++ t) := rfl
      rcases scan_append_bad ⟨e, c, q, false⟩ t m hbad (a :: as) false [] hpe with
        ⟨tk, p2, ha, hb, hl, hm⟩ | ⟨tk, ha, hb⟩
      · simp only [List.length_cons] at hl
        have hrec := ih p2 true (by omega) (fun x hx => hpe x (hm x hx)) (g1 + 1) g2
          (by omega) (by omega)
        rw [iterate_ok_true _ _ _ _ _ (hc1.trans ha) rfl,
          iterate_ok_true _ _ _ _ _ (hc2.trans hb) rfl]
        refine ⟨hrec.1, fun _ => by simp, hrec.2.2.1, ?_⟩
        show tk :: _ = List.dropLast (tk :: _)
        rw [List.dropLast_cons_of_ne_nil (hrec.2.1 (Or.inl rfl))]
        exact congrArg _ hrec.2.2.2
      · rw [iterate_ok_true _ _ _ _ _ (hc1.trans ha) rfl, hend,
          iterate_error _ _ _ _ _ (hc2.trans hb)]
        simp

/-- C6: for every configuration, every escape character `ec` of it and every
`p` without escape characters, the iteration over `p ++ [ec]` raises
`escaped_list_error("cannot end with escape")`; the tokens produced before it
are the tokens of `p` (whose iteration ends normally) except the last one: the
call that raises is the one scanning the field that `ec` ends. -/
theorem escaped_list_trailing_escape (e c q : List Char) (ec : Char) (p : List Char)
    (hec : ec ∈ e) (hp : ∀ x ∈ p, x ∉ e) :
    (run (mk_strings e c q) (p ++ [ec])).outcome =
      Outcome.failed (Failure.escaped_list_error "cannot end with escape") ∧
    (run (mk_strings e c q) p).outcome = Outcome.finished ∧
    (run (mk_strings e c q) (p ++ [ec])).tokens = (run (mk_strings e c q) p).tokens.dropLast := by
  have hbad : ∀ b tok, scan ⟨e, c, q, false⟩ b tok [ec] =
      Except.error (Failure.escaped_list_error "cannot end with escape") := by
    intro b tok
    simp [scan_cons, is_escape, hec, do_escape, Except.bind]
  have h := run_append_bad e c q [ec] _ (by simp) hbad p.length p false (le_refl _) hp
    (2 * p.length + 2) (2 * (p ++ [ec]).length + 2) (by omega) (by simp; omega)
  exact ⟨h.2.2.1, h.1, h.2.2.2⟩

/-- Witness for C6: the default configuration on a single backslash, which
raises on the first call, and on `a,b` followed by a backslash: the token `a`,
then the error. -/
theorem escaped_list_trailing_escape_witness :
    ('\\' ∈ ['\\'] ∧ ∀ x ∈ ['a', ',', 'b'], x ∉ ['\\']) ∧
    ((run (mk_strings ['\\'] [','] ['\"']) ([] ++ ['\\'])).outcome =
        Outcome.failed (Failure.escaped_list_error "cannot end with escape") ∧
      (run (mk_strings ['\\'] [','] ['\"']) ([] ++ ['\\'])).tokens = []) ∧
    (run (mk_strings ['\\'] [','] ['\"']) (['a', ',', 'b'] ++ ['\\'])).outcome =
      Outcome.failed (Failure.escaped_list_error "cannot end with escape") ∧
    (run (mk_strings ['\\'] [','] ['\"']) (['a', ',', 'b'] ++ ['\\'])).tokens = [['a']] := by
  have h := escaped_list_trailing_escape ['\\'] [','] ['\"'] '\\' ['a', ',', 'b']
    (by decide) (by decide)
  have h0 := escaped_list_trailing_escape ['\\'] [','] ['\"'] '\\' []
    (by decide) (by decide)
  refine ⟨by decide, ⟨h0.1, ?_⟩, h.1, ?_⟩
  · rw [h0.2.2]; decide
  · rw [h.2.2]; decide

/-- C7: for every configuration, every escape character `ec` of it, every `p`
without escape characters, every `x` that is not `'n'` and not a quote,
separator or escape character, and every `r`, the iteration over
`p ++ [ec, x] ++ r` raises `escaped_list_error("unknown escape sequence")`; the
tokens produced before it are the tokens of `p` (whose iteration ends
normally) except the last one: the call that raises is the one scanning the
field in which `ec` stands. -/
theorem escaped_list_unknown_escape (e c q : List Char) (ec x : Char) (p r : List Char)
    (hec : ec ∈ e) (hp : ∀ y ∈ p, y ∉ e) (hxn : x ≠ 'n') (hxq : x ∉ q) (hxc : x ∉ c)
    (hxe : x ∉ e) :
    (run (mk_strings e c q) (p ++ [ec, x] ++ r)).outcome =
      Outcome.failed (Failure.escaped_list_error "unknown escape sequence") ∧
    (run (mk_strings e c q) p).outcome = Outcome.finished ∧
    (run (mk_strings e c q) (p ++ [ec, x] ++ r)).tokens =
      (run (mk_strings e c q) p).tokens.dropLast := by
  have hbad : ∀ b tok, scan ⟨e, c, q, false⟩ b tok (ec :: x :: r) =
      Except.error (Failure.escaped_list_error "unknown escape sequence") := by
    intro b tok
    simp [scan_cons, is_escape, is_c, is_quote, hec, do_escape, Except.bind, hxn, hxq, hxc, hxe]
  have h := run_append_bad e c q (ec :: x :: r) _ (by simp) hbad p.length p false (le_refl _) hp
    (2 * p.length + 2) (2 * (p ++ [ec, x] ++ r).length + 2) (by omega) (by simp; omega)
  have hl : p ++ [ec, x] ++ r = p ++ ec :: x :: r := by simp
  rw [hl]
  rw [hl] at h
  exact ⟨h.2.2.1, h.1, h.2.2.2⟩

/-- Witness for C7: the default configuration on a backslash followed by `q`,
which raises on the first call, and on `a,b` followed by backslash, `q`, `,c`:
the token `a`, then the error. -/
theorem escaped_list_unknown_escape_witness :
    ('\\' ∈ ['\\'] ∧ (∀ y ∈ ['a', ',', 'b'], y ∉ ['\\']) ∧ 'q' ≠ 'n' ∧ 'q' ∉ ['\"'] ∧
      'q' ∉ [','] ∧ 'q' ∉ ['\\']) ∧
    ((run (mk_strings ['\\'] [','] ['\"']) ([] ++ ['\\', 'q'] ++ [])).outcome =
        Outcome.failed (Failure.escaped_list_error "unknown escape sequence") ∧
      (run (mk_strings ['\\'] [','] ['\"']) ([] ++ ['\\', 'q'] ++ [])).tokens = []) ∧
    (run (mk_strings ['\\'] [','] ['\"']) (['a', ',', 'b'] ++ ['\\', 'q'] ++ [',', 'c'])).outcome =
      Outcome.failed (Failure.escaped_list_error "unknown escape sequence") ∧
    (run (mk_strings ['\\'] [','] ['\"']) (['a', ',', 'b'] ++ ['\\', 'q'] ++ [',', 'c'])).tokens =
      [['a']] := by
  have h := escaped_list_unknown_escape ['\\'] [','] ['\"'] '\\' 'q' ['a', ',', 'b'] [',', 'c']
    (by decide) (by decide) (by decide) (by decide) (by decide) (by decide)
  have h0 := escaped_list_unknown_escape ['\\'] [','] ['\"'] '\\' 'q' [] []
    (by decide) (by decide) (by decide) (by decide) (by decide) (by decide)
  refine ⟨by decide, ⟨h0.1, ?_⟩, h.1, ?_⟩
  · rw [h0.2.2]; decide
  · rw [h.2.2]; decide

end escaped_list_separator

namespace offset_separator

theorem advance_eq (c : Int) :
    ∀ (s : List Char) (i : Int),
      advance c i s =
        (i + (min (c - i).toNat s.length : Nat), s.drop (min (c - i).toNat s.length)) := by
  intro s
  induction s with
  | nil => intro i; simp [advance]
  | cons x rest ih =>
    intro i
    by_cases h : i < c
    · have h1 : (c - i).toNat = (c - (i + 1)).toNat + 1 := by omega
      simp only [advance, h, if_true, ih, List.length_cons, h1, Nat.add_min_add_right,
        List.drop_succ_cons]
      congr 1
      push_cast
      ring
    · have h1 : (c - i).toNat = 0 := by omega
      simp [advance, h, h1]

theorem assign_drop (s : List Char) (k : Nat) :
    tokenizer_detail.assign s (s.drop k) = s.take k := by
  simp only [tokenizer_detail.assign, List.length_drop]
  rcases Nat.le_total k s.length with h | h
  · congr 1
    omega
  · rw [List.take_of_length_le h, List.take_of_length_le (by omega)]

theorem take_min_length (s : List Char) (k : Nat) : s.take (min k s.length) = s.take k := by
  rcases Nat.le_total k s.length with h | h
  · rw [Nat.min_eq_left h]
  · rw [Nat.min_eq_right h, List.take_of_length_le h, List.take_of_length_le (le_refl _)]

theorem drop_min_length (s : List Char) (k : Nat) : s.drop (min k s.length) = s.drop k := by
  rcases Nat.le_total k s.length with h | h
  · rw [Nat.min_eq_left h]
  · rw [Nat.min_eq_right h, List.drop_of_length_le h, List.drop_of_length_le (le_refl _)]

/-- One call on a non-empty input, when the call does not stop at the end of
the offsets: the token is the next `c` characters (fewer at the end of the
input), where `c` is the width read. -/
theorem call_cons (sep : offset_separator) (a : Char) (as : List Char) (c : Int)
    (hstop : ¬ (sep.current_offset_ = sep.offsets_.length ∧ sep.wrap_offsets_ = false))
    (hc : sep.offsets_[if sep.current_offset_ = sep.offsets_.length then 0
      else sep.current_offset_]? = some c) :
    call sep (a :: as) =
      if sep.return_partial_last_ = false ∧ ((min c.toNat (as.length + 1) : Nat) : Int) < c - 1 then
        Except.ok ⟨false, (a :: as).take c.toNat, (a :: as).drop c.toNat,
          { sep with current_offset_ :=
              if sep.current_offset_ = sep.offsets_.length then 0 else sep.current_offset_ }⟩
      else
        Except.ok ⟨true, (a :: as).take c.toNat, (a :: as).drop c.toNat,
          { sep with current_offset_ :=
              ((if sep.current_offset_ = sep.offsets_.length then 0 else sep.current_offset_) + 1)
                % 2 ^ 32 }⟩ := by
  have hne : sep.offsets_.isEmpty = false := by
    cases h : sep.offsets_ with
    | nil => rw [h] at hc; simp at hc
    | cons _ _ => rfl
  have htake := take_min_length (a :: as) c.toNat
  have hdrop := drop_min_length (a :: as) c.toNat
  simp only [List.length_cons] at htake hdrop
  simp only [call, hne, Bool.false_eq_true, if_false, hstop, hc, advance_eq, sub_zero,
    List.length_cons, zero_add, hdrop, assign_drop]

theorem succ_mod_cycle (L cur k0 : Nat) (hlt : cur < L) (hcur : cur = k0 % L) :
    (if cur + 1 = L then 0 else cur + 1) = (k0 + 1) % L := by
  rcases Nat.lt_or_ge 1 L with h1 | h1
  · rw [Nat.add_mod, ← hcur, Nat.mod_eq_of_lt h1]
    split_ifs with h
    · rw [h, Nat.mod_self]
    · rw [Nat.mod_eq_of_lt (by omega)]
  · have hL : L = 1 := by omega
    subst hL
    have h0 : cur = 0 := by omega
    subst h0
    simp [Nat.mod_one]

theorem wrap_layout_aux (w : List Int) (hpos : ∀ x ∈ w, 0 < x) (hlen : w.length < 2 ^ 32) :
    ∀ (n : Nat) (s : List Char) (i k0 : Nat), s.length ≤ n → i ≤ w.length → 0 < w.length →
      (if i = w.length then 0 else i) = k0 % w.length → ∀ fuel, n + 1 ≤ fuel →
        (iterate call fuel ⟨w, i, true, true⟩ s).outcome = Outcome.finished ∧
        OffsetLayout w k0 s (iterate call fuel ⟨w, i, true, true⟩ s).tokens := by
  intro n
  induction n with
  | zero =>
    intro s i k0 hs _ hw _ fuel hf
    have : s = [] := List.length_eq_zero.mp (by omega)
    subst this
    obtain ⟨f, rfl⟩ : ∃ k, fuel = k + 1 := ⟨fuel - 1, by omega⟩
    have hne : w.isEmpty = false := by
      cases w with
      | nil => simp at hw
      | cons _ _ => rfl
    have hcall : call ⟨w, i, true, true⟩ [] = Except.ok ⟨false, [], [], ⟨w, i, true, true⟩⟩ := by
      simp [call, hne]
    rw [iterate_ok_false _ _ _ _ _ hcall rfl]
    exact ⟨rfl, rfl⟩
  | succ n ih =>
    intro s i k0 hs hi hw hcur fuel hf
    obtain ⟨f, rfl⟩ : ∃ k, fuel = k + 1 := ⟨fuel - 1, by omega⟩
    have hne : w.isEmpty = false := by
      cases w with
      | nil => simp at hw
      | cons _ _ => rfl
    cases s with
    | nil =>
      have hcall : call ⟨w, i, true, true⟩ [] = Except.ok ⟨false, [], [], ⟨w, i, true, true⟩⟩ := by
        simp [call, hne]
      rw [iterate_ok_false _ _ _ _ _ hcall rfl]
      exact ⟨rfl, rfl⟩
    | cons a as =>
      have hlt : (if i = w.length then 0 else i) < w.length := by
        split <;> omega
      have hc : w[if i = w.length then 0 else i]? = some (w[if i = w.length then 0 else i]) :=
        List.getElem?_eq_getElem hlt
      have hcpos : 0 < w[if i = w.length then 0 else i] := hpos _ (List.getElem_mem _)
      have hcall := call_cons ⟨w, i, true, true⟩ a as _ (by simp) hc
      simp only [Bool.true_eq_false, false_and, if_false] at hcall
      have hmod : ((if i = w.length then 0 else i) + 1) % 2 ^ 32
          = (if i = w.length then 0 else i) + 1 := Nat.mod_eq_of_lt (by omega)
      rw [hmod] at hcall
      have htoNat : 1 ≤ (w[if i = w.length then 0 else i]).toNat := by omega
      have hget : w.getD (k0 % w.length) 0 = w[if i = w.length then 0 else i] := by
        rw [← hcur, List.getD_eq_getElem?_getD, hc]; rfl
      simp only [List.length_cons] at hs
      have hrec := ih ((a :: as).drop (w[if i = w.length then 0 else i]).toNat)
        ((if i = w.length then 0 else i) + 1) (k0 + 1)
        (by simp only [List.length_drop, List.length_cons]; omega) (by omega) hw
        (succ_mod_cycle w.length _ k0 hlt hcur)
        f (by omega)
      rw [iterate_ok_true _ _ _ _ _ hcall rfl]
      refine ⟨hrec.1, ?_, ?_, ?_⟩
      · show List.take _ (a :: as) = _
        rw [hget]
      · show List.take _ (a :: as) ≠ []
        obtain ⟨m, hm⟩ : ∃ m, (w[if i = w.length then 0 else i]).toNat = m + 1 :=
          ⟨_, (Nat.sub_add_cancel htoNat).symm⟩
        rw [hm]
        simp
      · show OffsetLayout w (k0 + 1)
          ((a :: as).drop (List.take _ (a :: as)).length) _
        rw [List.length_take, drop_min_length]
        exact hrec.2

theorem OffsetLayout.flatten_eq (w : List Int) :
    ∀ (toks : List (List Char)) (k : Nat) (s : List Char),
      OffsetLayout w k s toks → toks.flatten = s := by
  intro toks
  induction toks with
  | nil => intro k s h; exact h.symm
  | cons t ts ih =>
    intro k s h
    obtain ⟨h1, _, h3⟩ := h
    rw [List.flatten_cons, ih _ _ h3]
    have : t.length = min (w.getD (k % w.length) 0).toNat s.length := by
      rw [h1, List.length_take]
    rw [this, drop_min_length, h1, List.take_append_drop]

theorem OffsetLayout.ne_nil (w : List Int) :
    ∀ (toks : List (List Char)) (k : Nat) (s : List Char),
      OffsetLayout w k s toks → ∀ t ∈ toks, t ≠ [] := by
  intro toks
  induction toks with
  | nil => intro k s _ t ht; simp at ht
  | cons t0 ts ih =>
    intro k s h t ht
    obtain ⟨_, h2, h3⟩ := h
    rcases List.mem_cons.mp ht with rfl | ht
    · exact h2
    · exact ih _ _ h3 t ht

theorem OffsetLayout.length_eq (w : List Int) :
    ∀ (toks : List (List Char)) (k : Nat) (s : List Char),
      OffsetLayout w k s toks → ∀ j t, j + 1 < toks.length → toks[j]? = some t →
        (t.length : Int) = w.getD ((k + j) % w.length) 0 := by
  intro toks
  induction toks with
  | nil => intro k s _ j t hj; simp at hj
  | cons t0 ts ih =>
    intro k s h j t hj ht
    obtain ⟨h1, h2, h3⟩ := h
    cases j with
    | zero =>
      simp only [List.getElem?_cons_zero, Option.some.injEq] at ht
      subst ht
      cases ts with
      | nil => simp at hj
      | cons t1 ts1 =>
        obtain ⟨g1, g2, _⟩ := h3
        have hdrop : s.drop t0.length ≠ [] := by
          intro h0
          rw [h0] at g1
          simp at g1
          exact g2 g1
        have hlt : t0.length < s.length := by
          by_contra hc
          exact hdrop (List.drop_of_length_le (by omega))
        have hlen : t0.length = min (w.getD (k % w.length) 0).toNat s.length := by
          conv_lhs => rw [h1]
          rw [List.length_take]
        have hpos : 0 < t0.length := List.length_pos.mpr h2
        simp only [Nat.add_zero]
        omega
    | succ j =>
      simp only [List.getElem?_cons_succ] at ht
      have := ih (k + 1) _ h3 j t (by simpa using hj) ht
      rw [this]
      congr 2
      omega

/-- C8: for a non-empty list `w` of positive widths (fewer than `2 ^ 32` of
them, the range of the `unsigned int` index), wrap enabled and partial-last
enabled, and every input `s`: the iteration ends with a call returning false;
token number `k` is the next `min (w[k mod n], remaining length)` characters
(`OffsetLayout`); the concatenation of the tokens is `s`; no token is empty;
and every token but the last has length exactly `w[k mod n]`. -/
theorem offset_wrap_partial_tokens (w : List Int) (s : List Char) (hne : w ≠ [])
    (hpos : ∀ x ∈ w, 0 < x) (hlen : w.length < 2 ^ 32) :
    (run (mk_range w true true) s).outcome = Outcome.finished ∧
    OffsetLayout w 0 s (run (mk_range w true true) s).tokens ∧
    (run (mk_range w true true) s).tokens.flatten = s ∧
    (∀ t ∈ (run (mk_range w true true) s).tokens, t ≠ []) ∧
    (∀ k t, k + 1 < (run (mk_range w true true) s).tokens.length →
      (run (mk_range w true true) s).tokens[k]? = some t →
      (t.length : Int) = w.getD (k % w.length) 0) := by
  have hw : 0 < w.length := List.length_pos.mpr hne
  have h := wrap_layout_aux w hpos hlen s.length s 0 0 (le_refl _) (Nat.zero_le _) hw
    (by
      rw [if_neg (by omega)]
      simp)
    (2 * s.length + 2) (by omega)
  refine ⟨h.1, h.2, OffsetLayout.flatten_eq w _ _ _ h.2, OffsetLayout.ne_nil w _ _ _ h.2, ?_⟩
  intro k t hk ht
  have := OffsetLayout.length_eq w _ _ _ h.2 k t hk ht
  simpa using this

/-- Witness for C8: the widths 2, 2, 4 on `12252001`, and the default
separator (the single width 1) on `1234567`. -/
theorem offset_wrap_partial_tokens_witness :
    (([2, 2, 4] : List Int) ≠ [] ∧ (∀ x ∈ ([2, 2, 4] : List Int), 0 < x) ∧
      ([2, 2, 4] : List Int).length < 2 ^ 32) ∧
    (run (mk_range [2, 2, 4] true true) "12252001".toList).tokens =
      ["12".toList, "25".toList, "2001".toList] ∧
    (run (mk_range [2, 2, 4] true true) "12252001".toList).tokens.flatten = "12252001".toList ∧
    (run mk_default "1234567".toList).tokens =
      [['1'], ['2'], ['3'], ['4'], ['5'], ['6'], ['7']] ∧
    (run mk_default "1234567".toList).tokens.flatten = "1234567".toList := by
  have h := offset_wrap_partial_tokens [2, 2, 4] "12252001".toList (by decide) (by decide)
    (by decide)
  have h1 := offset_wrap_partial_tokens [1] "1234567".toList (by decide) (by decide) (by decide)
  exact ⟨by decide, by decide, h.2.2.1, by decide, h1.2.2.1⟩

/-- C9, the code at the failing input: with widths 1, 3, 5 and partial-last
acceptance disabled, on `12345678` the third call has four characters left for
the width five; its loop ends with `i = 4`, the test `i < c - 1` is `4 < 4`,
and the call returns true with the four-character token `5678` (with wrap
enabled and with wrap disabled). -/
theorem offset_partial_last_off_by_one :
    call ⟨[1, 3, 5], 2, false, false⟩ "5678".toList =
      Except.ok ⟨true, "5678".toList, [], ⟨[1, 3, 5], 3, false, false⟩⟩ ∧
    (run (mk_range [1, 3, 5] false false) "12345678".toList).tokens =
      ["1".toList, "234".toList, "5678".toList] ∧
    (run (mk_range [1, 3, 5] true false) "12345678".toList).tokens =
      ["1".toList, "234".toList, "5678".toList] ∧
    (run (mk_range [1, 3, 5] false false) "1234567".toList).tokens =
      ["1".toList, "234".toList] :=
  ⟨rfl, by decide, by decide, by decide⟩

theorem drop_min_add (s : List Char) (k m : Nat) :
    s.drop (min k s.length + m) = s.drop (k + m) := by
  rcases Nat.le_total k s.length with h | h
  · rw [Nat.min_eq_left h]
  · rw [Nat.min_eq_right h, List.drop_of_length_le (by omega), List.drop_of_length_le (by omega)]

/-- A call made with the index at the end of the offsets and wrap disabled
returns false and changes neither the cursor nor the separator. -/
theorem call_at_end_no_wrap (sep : offset_separator) (next : List Char)
    (hne : sep.offsets_ ≠ []) (hwrap : sep.wrap_offsets_ = false)
    (hidx : sep.current_offset_ = sep.offsets_.length) :
    call sep next = Except.ok ⟨false, [], next, sep⟩ := by
  have he : sep.offsets_.isEmpty = false := by
    cases h : sep.offsets_ with
    | nil => exact absurd h hne
    | cons _ _ => rfl
  cases next with
  | nil => simp [call, he]
  | cons a as => simp [call, he, hwrap, hidx]

theorem no_wrap_aux (w : List Int) (p : Bool) (hpos : ∀ x ∈ w, 0 < x) (hlen : w.length < 2 ^ 32)
    (hne : w ≠ []) :
    ∀ (n : Nat) (s : List Char) (i : Nat), s.length ≤ n → i ≤ w.length →
      ∀ fuel, n + 1 ≤ fuel →
        (iterate call fuel ⟨w, i, false, p⟩ s).outcome = Outcome.finished ∧
        (iterate call fuel ⟨w, i, false, p⟩ s).tokens.length ≤ w.length - i ∧
        (iterate call fuel ⟨w, i, false, p⟩ s).tokens.flatten <+: s ∧
        ((iterate call fuel ⟨w, i, false, p⟩ s).tokens.length = w.length - i →
          (iterate call fuel ⟨w, i, false, p⟩ s).sep = ⟨w, w.length, false, p⟩ ∧
          (iterate call fuel ⟨w, i, false, p⟩ s).next =
            s.drop (iterate call fuel ⟨w, i, false, p⟩ s).tokens.flatten.length) := by
  have he : w.isEmpty = false := by
    cases w with
    | nil => exact absurd rfl hne
    | cons _ _ => rfl
  have hnil : ∀ (i : Nat) (f : Nat), i ≤ w.length →
      (iterate call (f + 1) ⟨w, i, false, p⟩ []).outcome = Outcome.finished ∧
      (iterate call (f + 1) ⟨w, i, false, p⟩ []).tokens.length ≤ w.length - i ∧
      (iterate call (f + 1) ⟨w, i, false, p⟩ []).tokens.flatten <+: [] ∧
      ((iterate call (f + 1) ⟨w, i, false, p⟩ []).tokens.length = w.length - i →
        (iterate call (f + 1) ⟨w, i, false, p⟩ []).sep = ⟨w, w.length, false, p⟩ ∧
        (iterate call (f + 1) ⟨w, i, false, p⟩ []).next =
          ([] : List Char).drop
            (iterate call (f + 1) ⟨w, i, false, p⟩ []).tokens.flatten.length) := by
    intro i f hi
    have hcall : call ⟨w, i, false, p⟩ [] = Except.ok ⟨false, [], [], ⟨w, i, false, p⟩⟩ := by
      simp [call, he]
    rw [iterate_ok_false _ _ _ _ _ hcall rfl]
    refine ⟨rfl, Nat.zero_le _, by simp, ?_⟩
    intro h0
    have : i = w.length := by simp at h0; omega
    subst this
    exact ⟨rfl, rfl⟩
  intro n
  induction n with
  | zero =>
    intro s i hs hi fuel hf
    have : s = [] := List.length_eq_zero.mp (by omega)
    subst this
    obtain ⟨f, rfl⟩ : ∃ k, fuel = k + 1 := ⟨fuel - 1, by omega⟩
    exact hnil i f hi
  | succ n ih =>
    intro s i hs hi fuel hf
    obtain ⟨f, rfl⟩ : ∃ k, fuel = k + 1 := ⟨fuel - 1, by omega⟩
    cases s with
    | nil => exact hnil i f hi
    | cons a as =>
      by_cases hend : i = w.length
      · subst hend
        have hcall := call_at_end_no_wrap ⟨w, w.length, false, p⟩ (a :: as) hne rfl rfl
        rw [iterate_ok_false _ _ _ _ _ hcall rfl]
        exact ⟨rfl, Nat.zero_le _, by simp, fun _ => ⟨rfl, rfl⟩⟩
      · have hlt : i < w.length := by omega
        have hcur : (if i = w.length then 0 else i) = i := if_neg hend
        have hc : w[if i = w.length then 0 else i]? = some (w[i]) := by
          rw [hcur]; exact List.getElem?_eq_getElem hlt
        have hcpos : 0 < w[i] := hpos _ (List.getElem_mem _)
        have hcall := call_cons ⟨w, i, false, p⟩ a as _ (by simp [hend]) hc
        simp only [hcur] at hcall
        have hmod : (i + 1) % 2 ^ 32 = i + 1 := Nat.mod_eq_of_lt (by omega)
        rw [hmod] at hcall
        by_cases hstop : p = false ∧ ((min (w[i]).toNat (as.length + 1) : Nat) : Int) < w[i] - 1
        · rw [if_pos hstop] at hcall
          rw [iterate_ok_false _ _ _ _ _ hcall rfl]
          refine ⟨rfl, Nat.zero_le _, by simp, ?_⟩
          intro h0
          simp at h0
          omega
        · rw [if_neg hstop] at hcall
          simp only [List.length_cons] at hs
          have htoNat : 1 ≤ (w[i]).toNat := by omega
          have hrec := ih ((a :: as).drop (w[i]).toNat) (i + 1)
            (by simp only [List.length_drop, List.length_cons]; omega) (by omega) f (by omega)
          rw [iterate_ok_true _ _ _ _ _ hcall rfl]
          obtain ⟨h1, h2, h3, h4⟩ := hrec
          refine ⟨h1, ?_, ?_, ?_⟩
          · simp only [List.length_cons]
            omega
          · simp only [List.flatten_cons]
            conv_rhs => rw [← List.take_append_drop (w[i]).toNat (a :: as)]
            exact (List.prefix_append_right_inj _).mpr h3
          · intro h5
            simp only [List.length_cons] at h5
            have h6 := h4 (by omega)
            refine ⟨h6.1, ?_⟩
            rw [h6.2]
            simp only [List.flatten_cons, List.length_append, List.length_take, List.drop_drop]
            exact (drop_min_add _ _ _).symm

/-- C10: with wrap disabled and a non-empty list `w` of positive widths (fewer
than `2 ^ 32`, the range of the `unsigned int` index), for either setting of
partial-last and every input: the iteration ends with a call returning false,
there are at most `w.length` tokens, and their concatenation is a prefix of the
input. When `w.length` tokens were produced, the index stands at the end of
the offsets and the cursor right after the last token, and from that state a
call on any cursor returns false and changes neither cursor nor separator. -/
theorem offset_no_wrap_tokens (w : List Int) (p : Bool) (s : List Char) (hne : w ≠ [])
    (hpos : ∀ x ∈ w, 0 < x) (hlen : w.length < 2 ^ 32) :
    (run (mk_range w false p) s).outcome = Outcome.finished ∧
    (run (mk_range w false p) s).tokens.length ≤ w.length ∧
    (run (mk_range w false p) s).tokens.flatten <+: s ∧
    ((run (mk_range w false p) s).tokens.length = w.length →
      (run (mk_range w false p) s).sep.current_offset_ = w.length ∧
      (run (mk_range w false p) s).next =
        s.drop (run (mk_range w false p) s).tokens.flatten.length ∧
      ∀ next, call (run (mk_range w false p) s).sep next =
        Except.ok ⟨false, [], next, (run (mk_range w false p) s).sep⟩) := by
  have h := no_wrap_aux w p hpos hlen hne s.length s 0 (le_refl _) (Nat.zero_le _)
    (2 * s.length + 2) (by omega)
  refine ⟨h.1, h.2.1, h.2.2.1, ?_⟩
  intro hn
  have h4 := h.2.2.2 hn
  have hsep : (run (mk_range w false p) s).sep = ⟨w, w.length, false, p⟩ := h4.1
  refine ⟨by rw [hsep], h4.2, ?_⟩
  intro next
  rw [hsep]
  exact call_at_end_no_wrap ⟨w, w.length, false, p⟩ next hne rfl rfl

/-- Witness for C10: the single width 5 without wrap on `1234567`: the one
token `12345`, after which a call returns false with `67` still ahead. -/
theorem offset_no_wrap_tokens_witness :
    (([5] : List Int) ≠ [] ∧ (∀ x ∈ ([5] : List Int), 0 < x) ∧ ([5] : List Int).length < 2 ^ 32) ∧
    (run (mk_range [5] false true) "1234567".toList).tokens = ["12345".toList] ∧
    (run (mk_range [5] false true) "1234567".toList).next = "67".toList ∧
    call (run (mk_range [5] false true) "1234567".toList).sep "67".toList =
      Except.ok ⟨false, [], "67".toList, (run (mk_range [5] false true) "1234567".toList).sep⟩ := by
  have h := offset_no_wrap_tokens [5] true "1234567".toList (by decide) (by decide) (by decide)
  exact ⟨by decide, by decide, by decide, (h.2.2.2 (by decide)).2.2 "67".toList⟩

/-- C11: for an offset separator constructed with an empty width list, any
wrap and partial-last flags and any cursor (the end of the input included), a
call fails the assertion `!offsets_.empty()` and so returns neither true nor
false; the iteration ends with that failure on its first call, without a
token. The test of `examples.cpp` is the instance with both flags false. -/
theorem offset_empty_widths_assert :
    (∀ (wrap p : Bool) (next : List Char),
      call (mk_range [] wrap p) next =
        Except.error (Failure.assertion_failed "!offsets_.empty()") ∧
      (∀ r, call (mk_range [] wrap p) next ≠ Except.ok r) ∧
      (run (mk_range [] wrap p) next).outcome =
        Outcome.failed (Failure.assertion_failed "!offsets_.empty()") ∧
      (run (mk_range [] wrap p) next).tokens = []) ∧
    (run (mk_range [] false false) "1234567".toList).outcome =
      Outcome.failed (Failure.assertion_failed "!offsets_.empty()") := by
  have hcall : ∀ (wrap p : Bool) (next : List Char), call (mk_range [] wrap p) next =
      Except.error (Failure.assertion_failed "!offsets_.empty()") := by
    intro wrap p next
    rfl
  refine ⟨fun wrap p next => ⟨hcall wrap p next, ?_, ?_, ?_⟩, by decide⟩
  · intro r hr
    rw [hcall] at hr
    exact Except.noConfusion hr
  · rw [run, tokenize_eq, iterate_error _ _ _ _ _ (hcall wrap p next)]
  · rw [run, tokenize_eq, iterate_error _ _ _ _ _ (hcall wrap p next)]

end offset_separator

theorem iterate_sep_const {σ : Type} (call : σ → List Char → Except Failure (CallResult σ))
    (sep : σ) (h : ∀ next, ∃ r, call sep next = Except.ok r ∧ r.sep = sep) :
    ∀ (fuel : Nat) (s : List Char), (iterate call fuel sep s).sep = sep := by
  intro fuel
  induction fuel with
  | zero => intro s; rfl
  | succ f ih =>
    intro s
    obtain ⟨r, hr, hs⟩ := h s
    by_cases hret : r.ret = true
    · rw [iterate_ok_true _ _ _ _ _ hr hret]
      show (iterate call f r.sep r.next).sep = sep
      rw [hs]
      exact ih _
    · rw [iterate_ok_false _ _ _ _ _ hr (by simpa using hret)]
      exact hs

namespace char_separator

theorem call_drop_sep (sep : char_separator)
    (h : sep.m_empty_tokens = empty_token_policy.drop_empty_tokens) (next : List Char) :
    (sep.call next).sep = sep := by
  unfold call
  rw [h]
  simp only
  split
  · rfl
  · split <;> rfl

/-- C12, the code at the failing input: `reset()` has an empty body, so it
leaves `m_output_done` as the iteration left it. With dropped set `;` and
keep_empty_tokens, the input `;a` gives the tokens "", "a" and ends with
`m_output_done` true; after `reset()` the same input gives only "a". On the
empty input the first iteration gives one empty token and the second none. In
drop_empty_tokens mode the flag is never written and the second iteration
repeats the first. -/
theorem char_separator_reset_keeps_output_done :
    ((run (mk_explicit [';'] none empty_token_policy.keep_empty_tokens) [';', 'a']).tokens
        = [[], ['a']] ∧
      (run (mk_explicit [';'] none empty_token_policy.keep_empty_tokens)
        [';', 'a']).sep.m_output_done = true ∧
      (reset (run (mk_explicit [';'] none empty_token_policy.keep_empty_tokens)
        [';', 'a']).sep).m_output_done = true ∧
      (run (reset (run (mk_explicit [';'] none empty_token_policy.keep_empty_tokens)
        [';', 'a']).sep) [';', 'a']).tokens = [['a']]) ∧
    ((run (mk_explicit [';'] none empty_token_policy.keep_empty_tokens) []).tokens = [[]] ∧
      (run (reset (run (mk_explicit [';'] none empty_token_policy.keep_empty_tokens) []).sep)
        []).tokens = []) ∧
    (∀ (sep : char_separator) (s : List Char),
      sep.m_empty_tokens = empty_token_policy.drop_empty_tokens →
      run (reset (run sep s).sep) s = run sep s) := by
  refine ⟨by decide, by decide, ?_⟩
  intro sep s h
  have hsep : (run sep s).sep = sep :=
    iterate_sep_const _ sep (fun next => ⟨sep.call next, rfl, call_drop_sep sep h next⟩) _ s
  rw [reset, hsep]

end char_separator

namespace escaped_list_separator

theorem scan_config (sep : escaped_list_separator) :
    ∀ (n : Nat) (s : List Char), s.length ≤ n → ∀ (b : Bool) (tok : List Char)
      (r : CallResult escaped_list_separator), scan sep b tok s = Except.ok r →
      r.sep.escape_ = sep.escape_ ∧ r.sep.c_ = sep.c_ ∧ r.sep.quote_ = sep.quote_ := by
  intro n
  induction n with
  | zero =>
    intro s hs b tok r h
    have : s = [] := List.length_eq_zero.mp (by omega)
    subst this
    simp only [scan, Except.ok.injEq] at h
    subst h
    exact ⟨rfl, rfl, rfl⟩
  | succ n ih =>
    intro s hs b tok r h
    cases s with
    | nil =>
      simp only [scan, Except.ok.injEq] at h
      subst h
      exact ⟨rfl, rfl, rfl⟩
    | cons c rest =>
      simp only [List.length_cons] at hs
      rw [scan_cons] at h
      by_cases he : sep.is_escape c = true
      · rw [if_pos he] at h
        cases rest with
        | nil =>
          simp [do_escape, Except.bind] at h
        | cons x rest1 =>
          simp only at h
          cases hd : sep.do_escape (c :: x :: rest1) tok with
          | error e => rw [hd] at h; simp [Except.bind] at h
          | ok p =>
            rw [hd] at h
            simp only [Except.bind] at h
            exact ih rest1 (by simp only [List.length_cons] at hs; omega) _ _ _ h
      · rw [if_neg he] at h
        by_cases hc : sep.is_c c = true
        · rw [if_pos hc] at h
          cases b with
          | false =>
            simp only [Bool.not_false, if_true, Except.ok.injEq] at h
            subst h
            exact ⟨rfl, rfl, rfl⟩
          | true =>
            simp only [Bool.not_true, Bool.false_eq_true, if_false] at h
            exact ih rest (by omega) _ _ _ h
        · rw [if_neg hc] at h
          by_cases hq : sep.is_quote c = true
          · rw [if_pos hq] at h
            exact ih rest (by omega) _ _ _ h
          · rw [if_neg hq] at h
            exact ih rest (by omega) _ _ _ h

theorem escaped_call_config (sep : escaped_list_separator) (next : List Char)
    (r : CallResult escaped_list_separator) (h : call sep next = Except.ok r) :
    r.sep.escape_ = sep.escape_ ∧ r.sep.c_ = sep.c_ ∧ r.sep.quote_ = sep.quote_ := by
  cases next with
  | nil =>
    by_cases hl : sep.last_ = true
    · simp only [call, hl, if_true, Except.ok.injEq] at h
      subst h
      exact ⟨rfl, rfl, rfl⟩
    · simp only [call, hl, Bool.false_eq_true, if_false, Except.ok.injEq] at h
      subst h
      exact ⟨rfl, rfl, rfl⟩
  | cons a as =>
    exact scan_config { sep with last_ := false } _ (a :: as) (le_refl _) _ _ _ h

theorem escaped_reachable_config (e c q : List Char) (sep : escaped_list_separator)
    (h : Reachable call reset (mk_strings e c q) sep) :
    sep.escape_ = e ∧ sep.c_ = c ∧ sep.quote_ = q := by
  induction h with
  | init => exact ⟨rfl, rfl, rfl⟩
  | call sep next r _ hc ih =>
    obtain ⟨h1, h2, h3⟩ := escaped_call_config sep next r hc
    exact ⟨h1.trans ih.1, h2.trans ih.2.1, h3.trans ih.2.2⟩
  | reset sep _ ih => exact ih

end escaped_list_separator

namespace offset_separator

theorem offset_call_config (sep : offset_separator) (next : List Char)
    (r : CallResult offset_separator) (h : call sep next = Except.ok r) :
    r.sep.offsets_ = sep.offsets_ ∧ r.sep.wrap_offsets_ = sep.wrap_offsets_ ∧
      r.sep.return_partial_last_ = sep.return_partial_last_ := by
  unfold call at h
  split at h
  · exact Except.noConfusion h
  · split at h
    · simp only [Except.ok.injEq] at h
      subst h
      exact ⟨rfl, rfl, rfl⟩
    · split at h
      · simp only [Except.ok.injEq] at h
        subst h
        exact ⟨rfl, rfl, rfl⟩
      · simp only at h
        split at h
        · exact Except.noConfusion h
        · split at h
          · simp only [Except.ok.injEq] at h
            subst h
            exact ⟨rfl, rfl, rfl⟩
          · simp only [Except.ok.injEq] at h
            subst h
            exact ⟨rfl, rfl, rfl⟩

theorem offset_reachable_config (w : List Int) (wrap p : Bool) (sep : offset_separator)
    (h : Reachable call reset (mk_range w wrap p) sep) :
    sep.offsets_ = w ∧ sep.wrap_offsets_ = wrap ∧ sep.return_partial_last_ = p := by
  induction h with
  | init => exact ⟨rfl, rfl, rfl⟩
  | call sep next r _ hc ih =>
    obtain ⟨h1, h2, h3⟩ := offset_call_config sep next r hc
    exact ⟨h1.trans ih.1, h2.trans ih.2.1, h3.trans ih.2.2⟩
  | reset sep _ ih => exact ih

end offset_separator

/-- C13: for an escaped-list separator in any state reached from its
construction by calls (on any cursors) and resets, and for an offset separator
(with any widths) in any such state, `reset()` gives back the freshly
constructed separator of the same configuration; so iterating any input after
`reset()` is the same run, token for token (and with the same outcome), as
iterating it with a fresh separator. -/
theorem reset_then_iterate_as_fresh
    (e c q : List Char) (sep1 : escaped_list_separator) (s1 : List Char)
    (h1 : Reachable escaped_list_separator.call escaped_list_separator.reset
      (escaped_list_separator.mk_strings e c q) sep1)
    (w : List Int) (wrap p : Bool) (sep2 : offset_separator) (s2 : List Char)
    (h2 : Reachable offset_separator.call offset_separator.reset
      (offset_separator.mk_range w wrap p) sep2) :
    (escaped_list_separator.reset sep1 = escaped_list_separator.mk_strings e c q ∧
      escaped_list_separator.run (escaped_list_separator.reset sep1) s1 =
        escaped_list_separator.run (escaped_list_separator.mk_strings e c q) s1) ∧
    (offset_separator.reset sep2 = offset_separator.mk_range w wrap p ∧
      offset_separator.run (offset_separator.reset sep2) s2 =
        offset_separator.run (offset_separator.mk_range w wrap p) s2) := by
  have k1 : escaped_list_separator.reset sep1 = escaped_list_separator.mk_strings e c q := by
    obtain ⟨a1, a2, a3⟩ := escaped_list_separator.escaped_reachable_config e c q sep1 h1
    simp only [escaped_list_separator.reset, escaped_list_separator.mk_strings, a1, a2, a3]
  have k2 : offset_separator.reset sep2 = offset_separator.mk_range w wrap p := by
    obtain ⟨a1, a2, a3⟩ := offset_separator.offset_reachable_config w wrap p sep2 h2
    simp only [offset_separator.reset, offset_separator.mk_range, a1, a2, a3]
  exact ⟨⟨k1, by rw [k1]⟩, ⟨k2, by rw [k2]⟩⟩

/-- Witness for C13: the default escaped-list separator after one call on `a,`
(which leaves `last_` set), and the offset separator with widths 2, 2, 4 after
one call on `12252001` (which leaves the index at 1): after `reset()` each
iterates like a fresh one. -/
theorem reset_then_iterate_as_fresh_witness :
    (escaped_list_separator.run
        (escaped_list_separator.reset ⟨['\\'], [','], ['\"'], true⟩) ['x', ',', 'y']).tokens =
      [['x'], ['y']] ∧
    (offset_separator.run (offset_separator.reset ⟨[2, 2, 4], 1, true, true⟩)
        "12252001".toList).tokens = ["12".toList, "25".toList, "2001".toList] := by
  have h := reset_then_iterate_as_fresh ['\\'] [','] ['\"'] ⟨['\\'], [','], ['\"'], true⟩
    ['x', ',', 'y']
    (Reachable.call (escaped_list_separator.mk_strings ['\\'] [','] ['\"']) ['a', ',']
      ⟨true, ['a'], [], ⟨['\\'], [','], ['\"'], true⟩⟩ Reachable.init rfl)
    [2, 2, 4] true true ⟨[2, 2, 4], 1, true, true⟩ "12252001".toList
    (Reachable.call (offset_separator.mk_range [2, 2, 4] true true) "12252001".toList
      ⟨true, "12".toList, "252001".toList, ⟨[2, 2, 4], 1, true, true⟩⟩ Reachable.init rfl)
  refine ⟨?_, ?_⟩
  · rw [h.1.2]; decide
  · rw [h.2.2]; decide

namespace char_separator

theorem char_separator_false_again (sep : char_separator) (next : List Char)
    (h : (sep.call next).ret = false) :
    (sep.call next).next = [] ∧ (sep.call next).sep = sep ∧
      sep.call [] = ⟨false, [], [], sep⟩ := by
  cases hm : sep.m_empty_tokens with
  | drop_empty_tokens =>
    simp only [call, hm] at h ⊢
    cases hd : next.dropWhile sep.is_dropped with
    | nil => simp [hd]
    | cons c rest =>
      rw [hd] at h
      simp only at h
      split at h <;> simp at h
  | keep_empty_tokens =>
    cases next with
    | nil =>
      simp only [call, hm] at h ⊢
      by_cases hdone : sep.m_output_done = false
      · simp [hdone] at h
      · simp [hdone]
    | cons c rest =>
      simp only [call, hm] at h
      split at h
      · split at h <;> simp at h
      · split at h <;> simp at h

end char_separator

namespace char_delimiters_separator

theorem char_delimiters_false_again (sep : char_delimiters_separator) (next : List Char)
    (h : (sep.call next).ret = false) :
    (sep.call next).next = [] ∧ (sep.call next).sep = sep ∧
      sep.call [] = ⟨false, [], [], sep⟩ := by
  simp only [call] at h ⊢
  cases hd : next.dropWhile sep.skipped with
  | nil => simp [hd]
  | cons c rest =>
    rw [hd] at h
    simp only at h
    split at h <;> simp at h

end char_delimiters_separator

namespace escaped_list_separator

theorem scan_ret (sep : escaped_list_separator) :
    ∀ (n : Nat) (s : List Char), s.length ≤ n → ∀ (b : Bool) (tok : List Char)
      (r : CallResult escaped_list_separator), scan sep b tok s = Except.ok r →
      r.ret = true := by
  intro n
  induction n with
  | zero =>
    intro s hs b tok r h
    have : s = [] := List.length_eq_zero.mp (by omega)
    subst this
    simp only [scan, Except.ok.injEq] at h
    subst h
    rfl
  | succ n ih =>
    intro s hs b tok r h
    cases s with
    | nil =>
      simp only [scan, Except.ok.injEq] at h
      subst h
      rfl
    | cons c rest =>
      simp only [List.length_cons] at hs
      rw [scan_cons] at h
      by_cases he : sep.is_escape c = true
      · rw [if_pos he] at h
        cases rest with
        | nil =>
          simp [do_escape, Except.bind] at h
        | cons x rest1 =>
          simp only at h
          cases hd : sep.do_escape (c :: x :: rest1) tok with
          | error e => rw [hd] at h; simp [Except.bind] at h
          | ok p =>
            rw [hd] at h
            simp only [Except.bind] at h
            exact ih rest1 (by simp only [List.length_cons] at hs; omega) _ _ _ h
      · rw [if_neg he] at h
        by_cases hc : sep.is_c c = true
        · rw [if_pos hc] at h
          cases b with
          | false =>
            simp only [Bool.not_false, if_true, Except.ok.injEq] at h
            subst h
            rfl
          | true =>
            simp only [Bool.not_true, Bool.false_eq_true, if_false] at h
            exact ih rest (by omega) _ _ _ h
        · rw [if_neg hc] at h
          by_cases hq : sep.is_quote c = true
          · rw [if_pos hq] at h
            exact ih rest (by omega) _ _ _ h
          · rw [if_neg hq] at h
            exact ih rest (by omega) _ _ _ h

theorem escaped_false_again (sep : escaped_list_separator) (next : List Char)
    (r : CallResult escaped_list_separator) (h : call sep next = Except.ok r)
    (hr : r.ret = false) :
    call r.sep r.next = Except.ok ⟨false, [], r.next, r.sep⟩ := by
  cases next with
  | nil =>
    by_cases hl : sep.last_ = true
    · simp only [call, hl, if_true, Except.ok.injEq] at h
      subst h
      simp at hr
    · simp only [call, hl, Bool.false_eq_true, if_false, Except.ok.injEq] at h
      subst h
      simp [call, hl]
  | cons a as =>
    have := scan_ret { sep with last_ := false } _ (a :: as) (le_refl _) _ _ _ h
    rw [hr] at this
    exact absurd this (by simp)

end escaped_list_separator

namespace offset_separator

theorem offset_false_again (sep : offset_separator) (next : List Char)
    (r : CallResult offset_separator) (h : call sep next = Except.ok r)
    (hr : r.ret = false) :
    call r.sep r.next = Except.ok ⟨false, [], r.next, r.sep⟩ := by
  have hcfg := offset_call_config sep next r h
  by_cases he : sep.offsets_.isEmpty = true
  · simp [call, he] at h
  · have he2 : r.sep.offsets_.isEmpty = false := by
      rw [hcfg.1]; simpa using he
    cases next with
    | nil =>
      simp only [call, he, Bool.false_eq_true, if_false, Except.ok.injEq] at h
      subst h
      simp [call, he]
    | cons a as =>
      by_cases hstop : sep.current_offset_ = sep.offsets_.length ∧ sep.wrap_offsets_ = false
      · simp only [call, he, Bool.false_eq_true, if_false, hstop, and_self, if_true,
          Except.ok.injEq] at h
        subst h
        simp [call, he, hstop]
      · simp only [call, he, Bool.false_eq_true, if_false, hstop] at h
        split at h
        · exact Except.noConfusion h
        · rename_i c hc
          rw [advance_eq] at h
          simp only [sub_zero, zero_add] at h
          split at h
          · rename_i hp
            simp only [Except.ok.injEq] at h
            subst h
            have hend : (a :: as).drop (min c.toNat (a :: as).length) = [] := by
              apply List.drop_of_length_le
              have := hp.2
              omega
            simp only [hend]
            simp [call, he]
          · simp only [Except.ok.injEq] at h
            subst h
            simp at hr

end offset_separator

/-- C14: for each of the four separators, in every state and at every cursor:
when a call returns false, the call made next from the cursor and the state it
left (no reset in between) also returns false and leaves the cursor and the
separator, hence its iteration state, as they were. -/
theorem false_call_stays_false :
    (∀ (sep : char_separator) (next : List Char), (sep.call next).ret = false →
      ((sep.call next).sep.call (sep.call next).next).ret = false ∧
      ((sep.call next).sep.call (sep.call next).next).next = (sep.call next).next ∧
      ((sep.call next).sep.call (sep.call next).next).sep = (sep.call next).sep) ∧
    (∀ (sep : escaped_list_separator) (next : List Char) (r : CallResult escaped_list_separator),
      escaped_list_separator.call sep next = Except.ok r → r.ret = false →
      escaped_list_separator.call r.sep r.next = Except.ok ⟨false, [], r.next, r.sep⟩) ∧
    (∀ (sep : offset_separator) (next : List Char) (r : CallResult offset_separator),
      offset_separator.call sep next = Except.ok r → r.ret = false →
      offset_separator.call r.sep r.next = Except.ok ⟨false, [], r.next, r.sep⟩) ∧
    (∀ (sep : char_delimiters_separator) (next : List Char), (sep.call next).ret = false →
      ((sep.call next).sep.call (sep.call next).next).ret = false ∧
      ((sep.call next).sep.call (sep.call next).next).next = (sep.call next).next ∧
      ((sep.call next).sep.call (sep.call next).next).sep = (sep.call next).sep) := by
  refine ⟨?_, escaped_list_separator.escaped_false_again, offset_separator.offset_false_again, ?_⟩
  · intro sep next h
    obtain ⟨h1, h2, h3⟩ := char_separator.char_separator_false_again sep next h
    rw [h1, h2, h3]
    exact ⟨rfl, rfl, rfl⟩
  · intro sep next h
    obtain ⟨h1, h2, h3⟩ := char_delimiters_separator.char_delimiters_false_again sep next h
    rw [h1, h2, h3]
    exact ⟨rfl, rfl, rfl⟩

/-- Witness for C14: the offset separator with widths 1, 3, 5 and partial-last
disabled, called at index 2 on `567`, returns false with the cursor at the end,
and so does the next call; a keep-mode `char_separator` whose flag is set, the
default escaped-list separator and the default `char_delimiters_separator`
return false at the end of the input, and again on the next call. -/
theorem false_call_stays_false_witness :
    (offset_separator.call ⟨[1, 3, 5], 2, false, false⟩ "567".toList =
        Except.ok ⟨false, "567".toList, [], ⟨[1, 3, 5], 2, false, false⟩⟩ ∧
      offset_separator.call ⟨[1, 3, 5], 2, false, false⟩ [] =
        Except.ok ⟨false, [], [], ⟨[1, 3, 5], 2, false, false⟩⟩) ∧
    ((char_separator.call ⟨[], [';'], false, false, empty_token_policy.keep_empty_tokens, true⟩
        []).ret = false ∧
      (char_separator.call
        (char_separator.call
          ⟨[], [';'], false, false, empty_token_policy.keep_empty_tokens, true⟩ []).sep
        (char_separator.call
          ⟨[], [';'], false, false, empty_token_policy.keep_empty_tokens, true⟩
          []).next).ret = false) ∧
    escaped_list_separator.call escaped_list_separator.mk_default [] =
      Except.ok ⟨false, [], [], escaped_list_separator.mk_default⟩ ∧
    ((char_delimiters_separator.call char_delimiters_separator.mk_default [' ', ' ']).ret = false ∧
      (char_delimiters_separator.call
        (char_delimiters_separator.call char_delimiters_separator.mk_default [' ', ' ']).sep
        (char_delimiters_separator.call char_delimiters_separator.mk_default
          [' ', ' ']).next).ret = false) :=
  ⟨⟨rfl, false_call_stays_false.2.2.1 ⟨[1, 3, 5], 2, false, false⟩ "567".toList
      ⟨false, "567".toList, [], ⟨[1, 3, 5], 2, false, false⟩⟩ rfl rfl⟩,
    ⟨by decide, (false_call_stays_false.1
      ⟨[], [';'], false, false, empty_token_policy.keep_empty_tokens, true⟩ [] (by decide)).1⟩,
    false_call_stays_false.2.1 escaped_list_separator.mk_default []
      ⟨false, [], [], escaped_list_separator.mk_default⟩ rfl rfl,
    ⟨by decide, (false_call_stays_false.2.2.2 char_delimiters_separator.mk_default [' ', ' ']
      (by decide)).1⟩⟩

theorem iterate_sim {σ τ : Type} (call1 : σ → List Char → Except Failure (CallResult σ))
    (call2 : τ → List Char → Except Failure (CallResult τ)) (s1 : σ) (s2 : τ)
    (h : ∀ next, ∃ r1 r2, call1 s1 next = Except.ok r1 ∧ call2 s2 next = Except.ok r2 ∧
      r1.ret = r2.ret ∧ r1.tok = r2.tok ∧ r1.next = r2.next ∧ r1.sep = s1 ∧ r2.sep = s2) :
    ∀ (fuel : Nat) (s : List Char),
      (iterate call1 fuel s1 s).tokens = (iterate call2 fuel s2 s).tokens ∧
      (iterate call1 fuel s1 s).outcome = (iterate call2 fuel s2 s).outcome ∧
      (iterate call1 fuel s1 s).next = (iterate call2 fuel s2 s).next := by
  intro fuel
  induction fuel with
  | zero => intro s; exact ⟨rfl, rfl, rfl⟩
  | succ f ih =>
    intro s
    obtain ⟨r1, r2, h1, h2, hret, htok, hnext, hs1, hs2⟩ := h s
    by_cases hr : r1.ret = true
    · have hr2 : r2.ret = true := by rw [← hret]; exact hr
      rw [iterate_ok_true _ _ _ _ _ h1 hr, iterate_ok_true _ _ _ _ _ h2 hr2]
      simp only
      rw [hs1, hs2, hnext, htok]
      obtain ⟨a, b, c⟩ := ih r2.next
      exact ⟨by rw [a], b, c⟩
    · have hr1 : r1.ret = false := by simpa using hr
      have hr2 : r2.ret = false := by rw [← hret]; exact hr1
      rw [iterate_ok_false _ _ _ _ _ h1 hr1, iterate_ok_false _ _ _ _ _ h2 hr2]
      exact ⟨rfl, rfl, hnext⟩

namespace char_delimiters_separator

theorem is_ret_explicit (sep : char_delimiters_separator) (h : sep.no_ispunct_ = true)
    (c : Char) : sep.is_ret c = decide (c ∈ sep.returnable_) := by
  cases hd : sep.returnable_ <;> simp [is_ret, h, hd]

theorem is_nonret_explicit (sep : char_delimiters_separator) (h : sep.no_isspace_ = true)
    (c : Char) : sep.is_nonret c = decide (c ∈ sep.nonreturnable_) := by
  cases hd : sep.nonreturnable_ <;> simp [is_nonret, h, hd]

theorem call_eq_char_separator (K D : List Char) (next : List Char) :
    ((⟨K, D, true, true, true⟩ : char_delimiters_separator).call next).ret =
      ((char_separator.mk_explicit D (some K) empty_token_policy.drop_empty_tokens).call next).ret ∧
    ((⟨K, D, true, true, true⟩ : char_delimiters_separator).call next).tok =
      ((char_separator.mk_explicit D (some K) empty_token_policy.drop_empty_tokens).call next).tok ∧
    ((⟨K, D, true, true, true⟩ : char_delimiters_separator).call next).next =
      ((char_separator.mk_explicit D (some K) empty_token_policy.drop_empty_tokens).call
        next).next := by
  have hskip : (⟨K, D, true, true, true⟩ : char_delimiters_separator).skipped =
      (char_separator.mk_explicit D (some K) empty_token_policy.drop_empty_tokens).is_dropped := by
    funext c
    simp [skipped, is_nonret_explicit, char_separator.is_dropped_mk_explicit]
  have hnd : (⟨K, D, true, true, true⟩ : char_delimiters_separator).non_delim =
      (char_separator.mk_explicit D (some K) empty_token_policy.drop_empty_tokens).non_delim := by
    funext c
    simp [non_delim, is_nonret_explicit, is_ret_explicit, char_separator.non_delim_mk_explicit]
  have hret : ∀ c, (⟨K, D, true, true, true⟩ : char_delimiters_separator).is_ret c =
      (char_separator.mk_explicit D (some K) empty_token_policy.drop_empty_tokens).is_kept c := by
    intro c
    simp [is_ret_explicit, char_separator.is_kept_mk_explicit]
  simp only [call, char_separator.call, char_separator.mk_explicit] at hskip hnd hret ⊢
  rw [hskip]
  cases next.dropWhile (char_separator.is_dropped
      ⟨(some K).getD [], D, false, false, empty_token_policy.drop_empty_tokens, false⟩) with
  | nil => exact ⟨rfl, rfl, rfl⟩
  | cons c rest =>
    simp only [hret c, hnd]
    split <;> exact ⟨rfl, rfl, rfl⟩

/-- C15: for explicitly supplied strings `K` and `D`, the legacy separator
`char_delimiters_separator(true, K, D)` and `char_separator(D, K,
drop_empty_tokens)` agree call by call: from every cursor the two calls return
the same boolean, the same token and the same new cursor (neither has
iteration state that a call changes), so over every input they give the same
token sequence and end the same way. -/
theorem char_delimiters_as_char_separator (K D : List Char) :
    mk_cstr true (some K) (some D) = some ⟨K, D, true, true, true⟩ ∧
    (∀ next : List Char,
      ((⟨K, D, true, true, true⟩ : char_delimiters_separator).call next).ret =
        ((char_separator.mk_explicit D (some K) empty_token_policy.drop_empty_tokens).call
          next).ret ∧
      ((⟨K, D, true, true, true⟩ : char_delimiters_separator).call next).tok =
        ((char_separator.mk_explicit D (some K) empty_token_policy.drop_empty_tokens).call
          next).tok ∧
      ((⟨K, D, true, true, true⟩ : char_delimiters_separator).call next).next =
        ((char_separator.mk_explicit D (some K) empty_token_policy.drop_empty_tokens).call
          next).next ∧
      ((⟨K, D, true, true, true⟩ : char_delimiters_separator).call next).sep =
        ⟨K, D, true, true, true⟩ ∧
      ((char_separator.mk_explicit D (some K) empty_token_policy.drop_empty_tokens).call
          next).sep =
        char_separator.mk_explicit D (some K) empty_token_policy.drop_empty_tokens) ∧
    (∀ s : List Char,
      (run ⟨K, D, true, true, true⟩ s).tokens =
        (char_separator.run
          (char_separator.mk_explicit D (some K) empty_token_policy.drop_empty_tokens) s).tokens ∧
      (run ⟨K, D, true, true, true⟩ s).outcome =
        (char_separator.run
          (char_separator.mk_explicit D (some K) empty_token_policy.drop_empty_tokens)
          s).outcome) := by
  have hsep1 : ∀ next : List Char,
      ((⟨K, D, true, true, true⟩ : char_delimiters_separator).call next).sep =
        ⟨K, D, true, true, true⟩ := by
    intro next
    simp only [call]
    split
    · rfl
    · split <;> rfl
  have hsep2 : ∀ next : List Char,
      ((char_separator.mk_explicit D (some K) empty_token_policy.drop_empty_tokens).call
          next).sep =
        char_separator.mk_explicit D (some K) empty_token_policy.drop_empty_tokens :=
    fun next => char_separator.call_drop_sep
      (char_separator.mk_explicit D (some K) empty_token_policy.drop_empty_tokens) rfl next
  refine ⟨rfl, fun next => ?_, fun s => ?_⟩
  · obtain ⟨a, b, c⟩ := call_eq_char_separator K D next
    exact ⟨a, b, c, hsep1 next, hsep2 next⟩
  · have := iterate_sim (fun (sp : char_delimiters_separator) nx => Except.ok (sp.call nx))
      (fun (sp : char_separator) nx => Except.ok (sp.call nx))
      ⟨K, D, true, true, true⟩
      (char_separator.mk_explicit D (some K) empty_token_policy.drop_empty_tokens)
      (fun next => ⟨_, _, rfl, rfl, (call_eq_char_separator K D next).1,
        (call_eq_char_separator K D next).2.1, (call_eq_char_separator K D next).2.2,
        hsep1 next, hsep2 next⟩)
      (2 * s.length + 2) s
    exact ⟨this.1, this.2.1⟩

end char_delimiters_separator

theorem splitOnP_eq_run (p : Char → Bool) (s : List Char) :
    s.splitOnP p = s.takeWhile (fun c => !p c) ::
      (match s.dropWhile (fun c => !p c) with
       | [] => []
       | _ :: r => r.splitOnP p) := by
  induction s with
  | nil => simp
  | cons c cs ih =>
    by_cases h : p c = true
    · simp [List.splitOnP_cons, h, List.takeWhile_cons, List.dropWhile_cons]
    · rw [List.splitOnP_cons, if_neg h, ih]
      simp [h, List.takeWhile_cons, List.dropWhile_cons]

theorem mem_splitOnP_not (p : Char → Bool) :
    ∀ (s : List Char), ∀ f ∈ s.splitOnP p, ∀ c ∈ f, p c = false := by
  intro s
  induction s with
  | nil => intro f hf c hc; simp at hf; subst hf; simp at hc
  | cons a as ih =>
    intro f hf c hc
    by_cases h : p a = true
    · rw [List.splitOnP_cons, if_pos h] at hf
      rcases List.mem_cons.mp hf with rfl | hf
      · simp at hc
      · exact ih f hf c hc
    · rw [List.splitOnP_cons, if_neg h] at hf
      cases hsp : List.splitOnP p as with
      | nil => exact absurd hsp (List.splitOnP_ne_nil p as)
      | cons g gs =>
        rw [hsp] at hf ih
        simp only [List.modifyHead_cons, List.mem_cons] at hf
        rcases hf with rfl | hf
        · rcases List.mem_cons.mp hc with rfl | hc
          · simpa using h
          · exact ih g (List.mem_cons_self _ _) c hc
        · exact ih f (List.mem_cons_of_mem _ hf) c hc

namespace char_delimiters_separator

/-- Leading delimiters contribute no non-empty field. -/
theorem fields_skip (p : Char → Bool) (s : List Char) :
    (s.splitOnP p).filter (fun f => decide (f ≠ [])) =
      ((s.dropWhile p).splitOnP p).filter (fun f => decide (f ≠ [])) := by
  induction s with
  | nil => rfl
  | cons c cs ih =>
    by_cases h : p c = true
    · rw [List.splitOnP_cons, if_pos h, List.dropWhile_cons_of_pos h, ← ih]
      simp
    · rw [List.dropWhile_cons_of_neg h]

theorem fields_word (p : Char → Bool) (c : Char) (rest : List Char) (h : p c = false) :
    ((c :: rest).splitOnP p).filter (fun f => decide (f ≠ [])) =
      (c :: rest).takeWhile (fun x => !p x) ::
        (((c :: rest).dropWhile (fun x => !p x)).splitOnP p).filter (fun f => decide (f ≠ [])) := by
  have hne : (c :: rest).takeWhile (fun x => !p x) ≠ [] := by
    simp [List.takeWhile_cons, h]
  rw [splitOnP_eq_run p (c :: rest), List.filter_cons_of_pos (by simpa using hne)]
  congr 1
  cases hd : (c :: rest).dropWhile (fun x => !p x) with
  | nil => simp
  | cons d r =>
    have hpd : p d = true := by
      have := dropWhile_head_false hd
      simpa using this
    simp [List.splitOnP_cons, hpd]

theorem no_return_run_aux (R N : List Char) :
    ∀ (n : Nat) (s : List Char), s.length ≤ n → ∀ fuel, n + 1 ≤ fuel →
      (iterate (fun (sp : char_delimiters_separator) nx => Except.ok (sp.call nx)) fuel
          ⟨R, N, false, true, true⟩ s).outcome = Outcome.finished ∧
      (iterate (fun (sp : char_delimiters_separator) nx => Except.ok (sp.call nx)) fuel
          ⟨R, N, false, true, true⟩ s).tokens =
        (s.splitOnP (fun c => decide (c ∈ R) || decide (c ∈ N))).filter
          (fun f => decide (f ≠ [])) := by
  have hskip : (⟨R, N, false, true, true⟩ : char_delimiters_separator).skipped =
      fun c => decide (c ∈ R) || decide (c ∈ N) := by
    funext c
    simp [skipped, is_nonret_explicit, is_ret_explicit, Bool.or_comm]
  have hnd : (⟨R, N, false, true, true⟩ : char_delimiters_separator).non_delim =
      fun c => !(decide (c ∈ R) || decide (c ∈ N)) := by
    funext c
    simp [non_delim, is_nonret_explicit, is_ret_explicit, Bool.and_comm]
  intro n
  induction n with
  | zero =>
    intro s hs fuel hf
    have : s = [] := List.length_eq_zero.mp (by omega)
    subst this
    obtain ⟨f, rfl⟩ : ∃ k, fuel = k + 1 := ⟨fuel - 1, by omega⟩
    exact ⟨rfl, rfl⟩
  | succ n ih =>
    intro s hs fuel hf
    obtain ⟨f, rfl⟩ : ∃ k, fuel = k + 1 := ⟨fuel - 1, by omega⟩
    rw [fields_skip]
    have hlen := length_takeWhile_add_dropWhile (fun c => decide (c ∈ R) || decide (c ∈ N)) s
    cases hd : s.dropWhile (fun c => decide (c ∈ R) || decide (c ∈ N)) with
    | nil =>
      have hcall : (⟨R, N, false, true, true⟩ : char_delimiters_separator).call s =
          ⟨false, [], [], ⟨R, N, false, true, true⟩⟩ := by
        simp only [call, hskip, hd]
      rw [iterate_ok_false _ _ _ _ _ (congrArg Except.ok hcall) rfl]
      exact ⟨rfl, rfl⟩
    | cons c rest =>
      rw [hd] at hlen
      have hc : (decide (c ∈ R) || decide (c ∈ N)) = false := dropWhile_head_false hd
      have hret : (⟨R, N, false, true, true⟩ : char_delimiters_separator).is_ret c = false := by
        rw [is_ret_explicit _ rfl]
        simp only [Bool.or_eq_false_iff] at hc
        exact hc.1
      have hcall : (⟨R, N, false, true, true⟩ : char_delimiters_separator).call s =
          ⟨true, (c :: rest).takeWhile (fun c => !(decide (c ∈ R) || decide (c ∈ N))),
            (c :: rest).dropWhile (fun c => !(decide (c ∈ R) || decide (c ∈ N))),
            ⟨R, N, false, true, true⟩⟩ := by
        simp only [call, hskip, hd, hret, Bool.false_eq_true, if_false, hnd]
      have hlen2 := length_takeWhile_add_dropWhile
        (fun c => !(decide (c ∈ R) || decide (c ∈ N))) (c :: rest)
      have htne : 0 < ((c :: rest).takeWhile
          (fun c => !(decide (c ∈ R) || decide (c ∈ N)))).length := by
        apply List.length_pos.mpr
        rw [List.takeWhile_cons_of_pos (by rw [hc]; rfl)]
        exact List.cons_ne_nil _ _
      simp only [List.length_cons] at hlen hlen2
      have hrec := ih ((c :: rest).dropWhile (fun c => !(decide (c ∈ R) || decide (c ∈ N))))
        (by omega) f (by omega)
      rw [iterate_ok_true _ _ _ _ _ (congrArg Except.ok hcall) rfl]
      refine ⟨hrec.1, ?_⟩
      rw [fields_word _ c rest hc]
      exact congrArg _ hrec.2

/-- C16: for `char_delimiters_separator(false, R, N)` with explicitly supplied
sets and every input, the iteration ends with a call returning false and the
tokens are exactly the non-empty fields of the input split at every character
of `R` or `N` (its maximal runs of non-delimiters), in order; no token is
empty and none holds a character of `R` or `N`. The test with `R = ","` and
`N = "?"` is evaluated. -/
theorem char_delimiters_no_return_tokens :
    (∀ (R N : List Char) (s : List Char),
      mk_cstr false (some R) (some N) = some ⟨R, N, false, true, true⟩ ∧
      (run ⟨R, N, false, true, true⟩ s).outcome = Outcome.finished ∧
      (run ⟨R, N, false, true, true⟩ s).tokens =
        (s.splitOnP (fun c => decide (c ∈ R) || decide (c ∈ N))).filter
          (fun f => decide (f ≠ [])) ∧
      ∀ t ∈ (run ⟨R, N, false, true, true⟩ s).tokens,
        t ≠ [] ∧ ∀ c ∈ t, c ∉ R ∧ c ∉ N) ∧
    (run ⟨[','], ['?'], false, true, true⟩ "how,are you, doing?".toList).tokens =
      ["how".toList, "are you".toList, " doing".toList] := by
  refine ⟨fun R N s => ?_, by decide⟩
  have h := no_return_run_aux R N s.length s (le_refl _) (2 * s.length + 2) (by omega)
  have h2 : (run ⟨R, N, false, true, true⟩ s).tokens =
      (s.splitOnP (fun c => decide (c ∈ R) || decide (c ∈ N))).filter
        (fun f => decide (f ≠ [])) := h.2
  refine ⟨rfl, h.1, h2, ?_⟩
  intro t ht
  rw [h2, List.mem_filter] at ht
  refine ⟨by simpa using ht.2, ?_⟩
  intro c hc
  have := mem_splitOnP_not _ s t ht.1 c hc
  simpa using this

/-- C17, the code at the failing input: the constructor sizes `nonreturnable_`
with `returnable ? Traits::length(nonreturnable) : 0`, so with `returnable`
null and `nonreturnable = " "` the stored nonreturnable set is empty while
`no_isspace_` is set: no character is a nonreturnable delimiter, and the input
`a b` gives the single token `a b`, which holds the space (for either value of
`return_delims`). The returnable side does fall back to `ispunct`. -/
theorem char_delimiters_null_returnable_drops_nonreturnable :
    mk_cstr false none (some [' ']) = some ⟨[], [], false, false, true⟩ ∧
    mk_cstr true none (some [' ']) = some ⟨[], [], true, false, true⟩ ∧
    (∀ (rd : Bool) (c : Char),
      (⟨[], [], rd, false, true⟩ : char_delimiters_separator).is_nonret c = false ∧
      (⟨[], [], rd, false, true⟩ : char_delimiters_separator).is_ret c =
        tokenizer_detail.traits_extension.ispunct c) ∧
    (run ⟨[], [], false, false, true⟩ ['a', ' ', 'b']).tokens = [['a', ' ', 'b']] ∧
    (run ⟨[], [], true, false, true⟩ ['a', ' ', 'b']).tokens = [['a', ' ', 'b']] :=
  ⟨rfl, rfl, fun _ _ => ⟨rfl, rfl⟩, by decide, by decide⟩

/-- C20: for `char_delimiters_separator(return_delims, "", "")`, both sets
given explicitly as empty strings, with either value of `return_delims`, no
character is a delimiter (there is no fallback to `ispunct` or `isspace`), and
every non-empty input gives exactly one token, the input itself, the iteration
ending with a call that returns false. -/
theorem char_delimiters_empty_sets (rd : Bool) (s : List Char) (hs : s ≠ []) :
    mk_cstr rd (some []) (some []) = some ⟨[], [], rd, true, true⟩ ∧
    (∀ c, (⟨[], [], rd, true, true⟩ : char_delimiters_separator).is_ret c = false ∧
      (⟨[], [], rd, true, true⟩ : char_delimiters_separator).is_nonret c = false) ∧
    (run ⟨[], [], rd, true, true⟩ s).outcome = Outcome.finished ∧
    (run ⟨[], [], rd, true, true⟩ s).tokens = [s] := by
  have hskip : (⟨[], [], rd, true, true⟩ : char_delimiters_separator).skipped =
      fun _ => false := by
    funext c
    simp [skipped, is_nonret, is_ret]
  have hnd : (⟨[], [], rd, true, true⟩ : char_delimiters_separator).non_delim =
      fun _ => true := by
    funext c
    simp [non_delim, is_nonret, is_ret]
  have hcall : (⟨[], [], rd, true, true⟩ : char_delimiters_separator).call s =
      ⟨true, s, [], ⟨[], [], rd, true, true⟩⟩ := by
    cases s with
    | nil => exact absurd rfl hs
    | cons a as =>
      simp [call, hskip, hnd, is_ret]
  have hcall2 : (⟨[], [], rd, true, true⟩ : char_delimiters_separator).call [] =
      ⟨false, [], [], ⟨[], [], rd, true, true⟩⟩ := rfl
  refine ⟨rfl, fun c => ⟨rfl, rfl⟩, ?_, ?_⟩
  · rw [run, tokenize_eq, iterate_ok_true _ _ _ _ _ (congrArg Except.ok hcall) rfl,
      iterate_ok_false _ _ _ _ _ (congrArg Except.ok hcall2) rfl]
  · rw [run, tokenize_eq, iterate_ok_true _ _ _ _ _ (congrArg Except.ok hcall) rfl,
      iterate_ok_false _ _ _ _ _ (congrArg Except.ok hcall2) rfl]

/-- Witness for C20: the two tests on `how,are you, doing?`, with
`return_delims` true and false. -/
theorem char_delimiters_empty_sets_witness :
    "how,are you, doing?".toList ≠ [] ∧
    (run ⟨[], [], true, true, true⟩ "how,are you, doing?".toList).tokens =
      ["how,are you, doing?".toList] ∧
    (run ⟨[], [], false, true, true⟩ "how,are you, doing?".toList).tokens =
      ["how,are you, doing?".toList] :=
  ⟨by decide,
    (char_delimiters_empty_sets true "how,are you, doing?".toList (by decide)).2.2.2,
    (char_delimiters_empty_sets false "how,are you, doing?".toList (by decide)).2.2.2⟩

end char_delimiters_separator

namespace char_separator

/-- C18 as stated fails: the explicit constructor clears `m_use_ispunct` and
`m_use_isspace`, so a separator built by it with an empty dropped string and
no (or an empty) kept string has both sets empty and still does not classify:
`;` is punctuation and the space is white space, yet neither is a delimiter. -/
theorem char_separator_fallback_counterexample :
    (mk_explicit [] none empty_token_policy.drop_empty_tokens).m_kept_delims = [] ∧
    (mk_explicit [] none empty_token_policy.drop_empty_tokens).m_dropped_delims = [] ∧
    tokenizer_detail.traits_extension.ispunct ';' = true ∧
    (mk_explicit [] none empty_token_policy.drop_empty_tokens).is_kept ';' = false ∧
    (mk_explicit [] (some []) empty_token_policy.drop_empty_tokens).is_kept ';' = false ∧
    tokenizer_detail.traits_extension.isspace ' ' = true ∧
    (mk_explicit [] none empty_token_policy.drop_empty_tokens).is_dropped ' ' = false ∧
    (mk_explicit [] (some []) empty_token_policy.drop_empty_tokens).is_dropped ' ' = false := by
  decide

/-- C18, amended: for the default-constructed `char_separator` (whose two sets
are empty) every character is a kept delimiter exactly when `ispunct` holds of
it and a dropped delimiter exactly when `isspace` holds of it; the test input
`;Hello|world-` gives the five tokens of the test. -/
theorem char_separator_default_fallback :
    mk_default.m_kept_delims = [] ∧ mk_default.m_dropped_delims = [] ∧
    (∀ c : Char,
      (mk_default.is_kept c = true ↔ tokenizer_detail.traits_extension.ispunct c = true) ∧
      (mk_default.is_dropped c = true ↔ tokenizer_detail.traits_extension.isspace c = true)) ∧
    (run mk_default ";Hello|world-".toList).tokens =
      [";".toList, "Hello".toList, "|".toList, "world".toList, "-".toList] :=
  ⟨rfl, rfl, fun _ => ⟨Iff.rfl, Iff.rfl⟩, by decide⟩

/-- C19: a `char_separator` built by the explicit constructor with an empty
dropped string and no kept string has no delimiter, in either empty-token
policy: every non-empty input gives exactly one token, the input itself, and
the iteration ends with a call returning false. -/
theorem char_separator_no_delimiters (p : empty_token_policy) (s : List Char) (hs : s ≠ []) :
    (∀ c, (mk_explicit [] none p).is_kept c = false ∧
      (mk_explicit [] none p).is_dropped c = false) ∧
    (run (mk_explicit [] none p) s).outcome = Outcome.finished ∧
    (run (mk_explicit [] none p) s).tokens = [s] := by
  have hmk : mk_explicit [] none p = ⟨[], [], false, false, p, false⟩ := rfl
  have hk : ∀ (b : Bool) (c : Char),
      (⟨[], [], false, false, p, b⟩ : char_separator).is_kept c = false := fun _ _ => rfl
  have hd : ∀ (b : Bool), (⟨[], [], false, false, p, b⟩ : char_separator).is_dropped =
      fun _ => false := fun _ => rfl
  have hnd : ∀ (b : Bool), (⟨[], [], false, false, p, b⟩ : char_separator).non_delim =
      fun _ => true := fun _ => rfl
  refine ⟨fun c => ⟨rfl, rfl⟩, ?_⟩
  rw [hmk]
  cases s with
  | nil => exact absurd rfl hs
  | cons a as =>
    cases p with
    | drop_empty_tokens =>
      have hcall : (⟨[], [], false, false, empty_token_policy.drop_empty_tokens, false⟩ :
          char_separator).call (a :: as) =
          ⟨true, a :: as, [],
            ⟨[], [], false, false, empty_token_policy.drop_empty_tokens, false⟩⟩ := by
        simp only [call, hd, hnd, hk, List.dropWhile_cons, Bool.false_eq_true, if_false,
          List.takeWhile_cons, if_true]
        simp
      have hcall2 : (⟨[], [], false, false, empty_token_policy.drop_empty_tokens, false⟩ :
          char_separator).call [] =
          ⟨false, [], [],
            ⟨[], [], false, false, empty_token_policy.drop_empty_tokens, false⟩⟩ := rfl
      rw [run, tokenize_eq, iterate_ok_true _ _ _ _ _ (congrArg Except.ok hcall) rfl,
        iterate_ok_false _ _ _ _ _ (congrArg Except.ok hcall2) rfl]
      exact ⟨rfl, rfl⟩
    | keep_empty_tokens =>
      have hcall : (⟨[], [], false, false, empty_token_policy.keep_empty_tokens, false⟩ :
          char_separator).call (a :: as) =
          ⟨true, a :: as, [],
            ⟨[], [], false, false, empty_token_policy.keep_empty_tokens, true⟩⟩ := by
        simp only [call, hd, hnd, hk, Bool.false_eq_true, if_false, and_false]
        simp
      have hcall2 : (⟨[], [], false, false, empty_token_policy.keep_empty_tokens, true⟩ :
          char_separator).call [] =
          ⟨false, [], [],
            ⟨[], [], false, false, empty_token_policy.keep_empty_tokens, true⟩⟩ := rfl
      rw [run, tokenize_eq, iterate_ok_true _ _ _ _ _ (congrArg Except.ok hcall) rfl,
        iterate_ok_false _ _ _ _ _ (congrArg Except.ok hcall2) rfl]
      exact ⟨rfl, rfl⟩

/-- Witness for C19: the test `char_separator("", 0, keep_empty_tokens)` on
`;Hello||world-`, and the same input in drop_empty_tokens mode. -/
theorem char_separator_no_delimiters_witness :
    ";Hello||world-".toList ≠ [] ∧
    (run (mk_explicit [] none empty_token_policy.keep_empty_tokens)
      ";Hello||world-".toList).tokens = [";Hello||world-".toList] ∧
    (run (mk_explicit [] none empty_token_policy.drop_empty_tokens)
      ";Hello||world-".toList).tokens = [";Hello||world-".toList] :=
  ⟨by decide,
    (char_separator_no_delimiters empty_token_policy.keep_empty_tokens ";Hello||world-".toList
      (by decide)).2.2,
    (char_separator_no_delimiters empty_token_policy.drop_empty_tokens ";Hello||world-".toList
      (by decide)).2.2⟩

theorem char_separator_call_suffix (sep : char_separator) (next : List Char) :
    (sep.call next).next <:+ next := by
  cases hm : sep.m_empty_tokens with
  | drop_empty_tokens =>
    simp only [call, hm]
    have hsuf : next.dropWhile sep.is_dropped <:+ next := List.dropWhile_suffix sep.is_dropped
    cases hd : next.dropWhile sep.is_dropped with
    | nil => exact List.nil_suffix
    | cons c rest =>
      rw [hd] at hsuf
      simp only
      split
      · exact (List.suffix_cons c rest).trans hsuf
      · exact (List.dropWhile_suffix _).trans hsuf
  | keep_empty_tokens =>
    cases next with
    | nil =>
      simp only [call, hm]
      split <;> exact List.suffix_refl _
    | cons c rest =>
      simp only [call, hm]
      split
      · split
        · exact List.suffix_refl _
        · exact List.suffix_cons c rest
      · split
        · exact List.suffix_refl _
        · simp only
          split
          · exact (List.dropWhile_suffix _).trans (List.suffix_cons c rest)
          · exact List.dropWhile_suffix _

end char_separator

namespace char_delimiters_separator

theorem char_delimiters_call_suffix (sep : char_delimiters_separator) (next : List Char) :
    (sep.call next).next <:+ next := by
  simp only [call]
  have hsuf : next.dropWhile sep.skipped <:+ next := List.dropWhile_suffix sep.skipped
  cases hd : next.dropWhile sep.skipped with
  | nil => exact List.nil_suffix
  | cons c rest =>
    rw [hd] at hsuf
    simp only
    split
    · exact (List.suffix_cons c rest).trans hsuf
    · exact (List.dropWhile_suffix _).trans hsuf

end char_delimiters_separator

namespace escaped_list_separator

theorem scan_suffix (sep : escaped_list_separator) :
    ∀ (n : Nat) (s : List Char), s.length ≤ n → ∀ (b : Bool) (tok : List Char)
      (r : CallResult escaped_list_separator), scan sep b tok s = Except.ok r →
      r.next <:+ s := by
  intro n
  induction n with
  | zero =>
    intro s hs b tok r h
    have : s = [] := List.length_eq_zero.mp (by omega)
    subst this
    simp only [scan, Except.ok.injEq] at h
    subst h
    exact List.suffix_refl _
  | succ n ih =>
    intro s hs b tok r h
    cases s with
    | nil =>
      simp only [scan, Except.ok.injEq] at h
      subst h
      exact List.suffix_refl _
    | cons c rest =>
      simp only [List.length_cons] at hs
      rw [scan_cons] at h
      by_cases he : sep.is_escape c = true
      · rw [if_pos he] at h
        cases rest with
        | nil =>
          simp [do_escape, Except.bind] at h
        | cons x rest1 =>
          simp only at h
          cases hd : sep.do_escape (c :: x :: rest1) tok with
          | error e => rw [hd] at h; simp [Except.bind] at h
          | ok p =>
            rw [hd] at h
            simp only [Except.bind] at h
            have := ih rest1 (by simp only [List.length_cons] at hs; omega) _ _ _ h
            exact this.trans ((List.suffix_cons x rest1).trans (List.suffix_cons c _))
      · rw [if_neg he] at h
        by_cases hc : sep.is_c c = true
        · rw [if_pos hc] at h
          cases b with
          | false =>
            simp only [Bool.not_false, if_true, Except.ok.injEq] at h
            subst h
            exact List.suffix_cons c rest
          | true =>
            simp only [Bool.not_true, Bool.false_eq_true, if_false] at h
            exact (ih rest (by omega) _ _ _ h).trans (List.suffix_cons c rest)
        · rw [if_neg hc] at h
          by_cases hq : sep.is_quote c = true
          · rw [if_pos hq] at h
            exact (ih rest (by omega) _ _ _ h).trans (List.suffix_cons c rest)
          · rw [if_neg hq] at h
            exact (ih rest (by omega) _ _ _ h).trans (List.suffix_cons c rest)

theorem escaped_call_suffix (sep : escaped_list_separator) (next : List Char)
    (r : CallResult escaped_list_separator) (h : call sep next = Except.ok r) :
    r.next <:+ next := by
  cases next with
  | nil =>
    by_cases hl : sep.last_ = true
    · simp only [call, hl, if_true, Except.ok.injEq] at h
      subst h
      exact List.suffix_refl _
    · simp only [call, hl, Bool.false_eq_true, if_false, Except.ok.injEq] at h
      subst h
      exact List.suffix_refl _
  | cons a as =>
    exact scan_suffix { sep with last_ := false } _ (a :: as) (le_refl _) _ _ _ h

end escaped_list_separator

namespace offset_separator

theorem offset_call_suffix (sep : offset_separator) (next : List Char)
    (r : CallResult offset_separator) (h : call sep next = Except.ok r) :
    r.next <:+ next := by
  unfold call at h
  split at h
  · exact Except.noConfusion h
  · split at h
    · simp only [Except.ok.injEq] at h
      subst h
      exact List.suffix_refl _
    · split at h
      · simp only [Except.ok.injEq] at h
        subst h
        exact List.suffix_refl _
      · simp only at h
        split at h
        · exact Except.noConfusion h
        · rw [advance_eq] at h
          split at h
          · simp only [Except.ok.injEq] at h
            subst h
            exact List.drop_suffix _ _
          · simp only [Except.ok.injEq] at h
            subst h
            exact List.drop_suffix _ _

end offset_separator

/-- C24: for each of the four separators, in every state and at every cursor,
a call that does not fail leaves as unconsumed input a suffix of the input
that was unconsumed before it: the cursor only moves forward, and no farther
than the sentinel (the empty suffix). -/
theorem call_leaves_suffix :
    (∀ (sep : char_separator) (next : List Char), (sep.call next).next <:+ next) ∧
    (∀ (sep : escaped_list_separator) (next : List Char) (r : CallResult escaped_list_separator),
      escaped_list_separator.call sep next = Except.ok r → r.next <:+ next) ∧
    (∀ (sep : offset_separator) (next : List Char) (r : CallResult offset_separator),
      offset_separator.call sep next = Except.ok r → r.next <:+ next) ∧
    (∀ (sep : char_delimiters_separator) (next : List Char), (sep.call next).next <:+ next) :=
  ⟨char_separator.char_separator_call_suffix, escaped_list_separator.escaped_call_suffix,
    offset_separator.offset_call_suffix, char_delimiters_separator.char_delimiters_call_suffix⟩

/-- Witness for C24: the default escaped-list separator on `a,b` stops after
the comma and leaves `b`; the offset separator with widths 2, 2, 4 leaves
`252001` of `12252001`. -/
theorem call_leaves_suffix_witness :
    escaped_list_separator.call escaped_list_separator.mk_default ['a', ',', 'b'] =
      Except.ok ⟨true, ['a'], ['b'], ⟨['\\'], [','], ['\"'], true⟩⟩ ∧
    ['b'] <:+ ['a', ',', 'b'] ∧
    "252001".toList <:+ "12252001".toList :=
  ⟨rfl,
    call_leaves_suffix.2.1 escaped_list_separator.mk_default ['a', ',', 'b']
      ⟨true, ['a'], ['b'], ⟨['\\'], [','], ['\"'], true⟩⟩ rfl,
    call_leaves_suffix.2.2.1 (offset_separator.mk_range [2, 2, 4] true true) "12252001".toList
      ⟨true, "12".toList, "252001".toList, ⟨[2, 2, 4], 1, true, true⟩⟩ rfl⟩

/-- C25: for each of the four separators `reset()` is a total function that
leaves every configuration field as it was (delimiter, escape and quote sets,
classification flags, empty-token policy, width list, wrap, partial-last and
return-delimiters flags), and applying it twice gives the same separator as
applying it once. -/
theorem reset_frame_idempotent :
    (∀ sep : char_separator,
      sep.reset.m_kept_delims = sep.m_kept_delims ∧
      sep.reset.m_dropped_delims = sep.m_dropped_delims ∧
      sep.reset.m_use_ispunct = sep.m_use_ispunct ∧
      sep.reset.m_use_isspace = sep.m_use_isspace ∧
      sep.reset.m_empty_tokens = sep.m_empty_tokens ∧
      sep.reset.reset = sep.reset) ∧
    (∀ sep : escaped_list_separator,
      sep.reset.escape_ = sep.escape_ ∧ sep.reset.c_ = sep.c_ ∧ sep.reset.quote_ = sep.quote_ ∧
      sep.reset.reset = sep.reset) ∧
    (∀ sep : offset_separator,
      sep.reset.offsets_ = sep.offsets_ ∧ sep.reset.wrap_offsets_ = sep.wrap_offsets_ ∧
      sep.reset.return_partial_last_ = sep.return_partial_last_ ∧
      sep.reset.reset = sep.reset) ∧
    (∀ sep : char_delimiters_separator,
      sep.reset.returnable_ = sep.returnable_ ∧ sep.reset.nonreturnable_ = sep.nonreturnable_ ∧
      sep.reset.return_delims_ = sep.return_delims_ ∧ sep.reset.no_ispunct_ = sep.no_ispunct_ ∧
      sep.reset.no_isspace_ = sep.no_isspace_ ∧
      sep.reset.reset = sep.reset) :=
  ⟨fun _ => ⟨rfl, rfl, rfl, rfl, rfl, rfl⟩, fun _ => ⟨rfl, rfl, rfl, rfl⟩,
    fun _ => ⟨rfl, rfl, rfl, rfl⟩, fun _ => ⟨rfl, rfl, rfl, rfl, rfl, rfl⟩⟩

theorem iterate_terminates {σ : Type} (call : σ → List Char → Except Failure (CallResult σ))
    (Inv : σ → List Char → Prop) (μ : σ → List Char → Nat)
    (hstep : ∀ sep next r, Inv sep next → call sep next = Except.ok r → r.ret = true →
      Inv r.sep r.next ∧ μ r.sep r.next < μ sep next) :
    ∀ (fuel : Nat) (sep : σ) (next : List Char), Inv sep next → μ sep next < fuel →
      (iterate call fuel sep next).outcome ≠ Outcome.out_of_fuel ∧
      (iterate call fuel sep next).tokens.length ≤ μ sep next := by
  intro fuel
  induction fuel with
  | zero => intro sep next _ h; omega
  | succ f ih =>
    intro sep next hinv hμ
    cases hc : call sep next with
    | error e =>
      rw [iterate_error _ _ _ _ _ hc]
      exact ⟨by simp, Nat.zero_le _⟩
    | ok r =>
      by_cases hr : r.ret = true
      · obtain ⟨h1, h2⟩ := hstep sep next r hinv hc hr
        have hrec := ih r.sep r.next h1 (by omega)
        rw [iterate_ok_true _ _ _ _ _ hc hr]
        exact ⟨hrec.1, by simp only [List.length_cons]; omega⟩
      · rw [iterate_ok_false _ _ _ _ _ hc (by simpa using hr)]
        exact ⟨by simp, Nat.zero_le _⟩

theorem iterate_no_failure {σ : Type} (call : σ → List Char → Except Failure (CallResult σ))
    (Inv : σ → List Char → Prop)
    (hstep : ∀ sep next, Inv sep next → ∃ r, call sep next = Except.ok r ∧
      (r.ret = true → Inv r.sep r.next)) :
    ∀ (fuel : Nat) (sep : σ) (next : List Char), Inv sep next →
      ∀ e, (iterate call fuel sep next).outcome ≠ Outcome.failed e := by
  intro fuel
  induction fuel with
  | zero => intro sep next _ e; simp [iterate]
  | succ f ih =>
    intro sep next hinv e
    obtain ⟨r, hc, hi⟩ := hstep sep next hinv
    by_cases hr : r.ret = true
    · rw [iterate_ok_true _ _ _ _ _ hc hr]
      exact ih r.sep r.next (hi hr) e
    · rw [iterate_ok_false _ _ _ _ _ hc (by simpa using hr)]
      simp

theorem outcome_finished_of (o : Outcome) (h1 : o ≠ Outcome.out_of_fuel)
    (h2 : ∀ e, o ≠ Outcome.failed e) : o = Outcome.finished := by
  cases o with
  | finished => rfl
  | failed e => exact absurd rfl (h2 e)
  | out_of_fuel => exact absurd rfl h1

namespace offset_separator

/-- With offsets present and the index within them, a call returns: it reads
an offset inside the vector. The index it leaves is within the offsets too. -/
theorem offset_call_ok (sep : offset_separator) (next : List Char)
    (hne : sep.offsets_ ≠ []) (hidx : sep.current_offset_ ≤ sep.offsets_.length) :
    ∃ r, call sep next = Except.ok r ∧ r.sep.offsets_ = sep.offsets_ ∧
      r.sep.wrap_offsets_ = sep.wrap_offsets_ ∧
      r.sep.return_partial_last_ = sep.return_partial_last_ ∧
      r.sep.current_offset_ ≤ sep.offsets_.length := by
  have he : sep.offsets_.isEmpty = false := by
    cases h : sep.offsets_ with
    | nil => exact absurd h hne
    | cons _ _ => rfl
  have hpos : 0 < sep.offsets_.length := List.length_pos.mpr hne
  cases next with
  | nil => exact ⟨⟨false, [], [], sep⟩, by simp [call, he], rfl, rfl, rfl, hidx⟩
  | cons a as =>
    by_cases hstop : sep.current_offset_ = sep.offsets_.length ∧ sep.wrap_offsets_ = false
    · exact ⟨⟨false, [], a :: as, sep⟩, by simp [call, he, hstop], rfl, rfl, rfl, hidx⟩
    · have hlt : (if sep.current_offset_ = sep.offsets_.length then 0
          else sep.current_offset_) < sep.offsets_.length := by
        split <;> omega
      obtain ⟨c, hget⟩ : ∃ c, sep.offsets_[if sep.current_offset_ = sep.offsets_.length then 0
          else sep.current_offset_]? = some c := ⟨_, List.getElem?_eq_getElem hlt⟩
      have hc := call_cons sep a as c hstop hget
      by_cases hp : sep.return_partial_last_ = false ∧
          ((min c.toNat (as.length + 1) : Nat) : Int) < c - 1
      · rw [if_pos hp] at hc
        exact ⟨_, hc, rfl, rfl, rfl, Nat.le_of_lt hlt⟩
      · rw [if_neg hp] at hc
        exact ⟨_, hc, rfl, rfl, rfl, (Nat.mod_le _ _).trans hlt⟩

theorem offset_reachable_index (w : List Int) (wrap p : Bool) (hne : w ≠ [])
    (sep : offset_separator) (h : Reachable call reset (mk_range w wrap p) sep) :
    sep.offsets_ = w ∧ sep.current_offset_ ≤ w.length := by
  induction h with
  | init => exact ⟨rfl, Nat.zero_le _⟩
  | call sep next r _ hc ih =>
    obtain ⟨r2, h2, h3, _, _, h6⟩ := offset_call_ok sep next (by rw [ih.1]; exact hne)
      (by rw [ih.1]; exact ih.2)
    rw [hc] at h2
    simp only [Except.ok.injEq] at h2
    subst h2
    rw [ih.1] at h3 h6
    exact ⟨h3, h6⟩
  | reset sep _ ih => exact ⟨ih.1, Nat.zero_le _⟩

/-- C30: for an offset separator with a non-empty width list `w`, in every
state reachable from construction by calls (on any cursors) and resets the
index `current_offset_` is at most the number of widths; the index used for
the read `offsets_[current_offset_]` (the stored one, or 0 after the wrap) is
strictly below it, so the read is inside the vector, and a call from such a
state returns without failing. -/
theorem offset_index_in_bounds (w : List Int) (wrap p : Bool) (hne : w ≠ [])
    (sep : offset_separator) (h : Reachable call reset (mk_range w wrap p) sep) :
    sep.offsets_ = w ∧ sep.current_offset_ ≤ w.length ∧
    ((if sep.current_offset_ = sep.offsets_.length then 0 else sep.current_offset_) <
      sep.offsets_.length) ∧
    (∃ c, sep.offsets_[if sep.current_offset_ = sep.offsets_.length then 0
        else sep.current_offset_]? = some c) ∧
    ∀ next, ∃ r, call sep next = Except.ok r := by
  obtain ⟨h1, h2⟩ := offset_reachable_index w wrap p hne sep h
  have hpos : 0 < w.length := List.length_pos.mpr hne
  have hlt : (if sep.current_offset_ = sep.offsets_.length then 0 else sep.current_offset_) <
      sep.offsets_.length := by
    rw [h1]
    split <;> omega
  refine ⟨h1, h2, hlt, ⟨_, List.getElem?_eq_getElem hlt⟩, ?_⟩
  intro next
  obtain ⟨r, hr, _⟩ := offset_call_ok sep next (by rw [h1]; exact hne) (by rw [h1]; exact h2)
  exact ⟨r, hr⟩

/-- Witness for C30: the widths 2, 2, 4 after three calls on `12252001`, where
the index has reached the number of widths, 3. -/
theorem offset_index_in_bounds_witness :
    ([2, 2, 4] : List Int) ≠ [] ∧
    (⟨[2, 2, 4], 3, true, true⟩ : offset_separator).current_offset_ ≤
      ([2, 2, 4] : List Int).length ∧
    ∃ r, call ⟨[2, 2, 4], 3, true, true⟩ ['x'] = Except.ok r := by
  have h := offset_index_in_bounds [2, 2, 4] true true (by decide) ⟨[2, 2, 4], 3, true, true⟩
    (Reachable.call ⟨[2, 2, 4], 2, true, true⟩ "2001".toList
      ⟨true, "2001".toList, [], ⟨[2, 2, 4], 3, true, true⟩⟩
      (Reachable.call ⟨[2, 2, 4], 1, true, true⟩ "252001".toList
        ⟨true, "25".toList, "2001".toList, ⟨[2, 2, 4], 2, true, true⟩⟩
        (Reachable.call (mk_range [2, 2, 4] true true) "12252001".toList
          ⟨true, "12".toList, "252001".toList, ⟨[2, 2, 4], 1, true, true⟩⟩ Reachable.init rfl)
        rfl)
      rfl)
  exact ⟨by decide, h.2.1, h.2.2.2.2 ['x']⟩

end offset_separator

theorem iterate_failed_call {σ : Type} (call : σ → List Char → Except Failure (CallResult σ))
    (Inv : σ → List Char → Prop)
    (hstep : ∀ sep next r, Inv sep next → call sep next = Except.ok r → Inv r.sep r.next) :
    ∀ (fuel : Nat) (sep : σ) (next : List Char) (e : Failure), Inv sep next →
      (iterate call fuel sep next).outcome = Outcome.failed e →
      ∃ sep1 next1, Inv sep1 next1 ∧ call sep1 next1 = Except.error e := by
  intro fuel
  induction fuel with
  | zero => intro sep next e _ h; simp [iterate] at h
  | succ f ih =>
    intro sep next e hinv h
    cases hc : call sep next with
    | error e1 =>
      rw [iterate_error _ _ _ _ _ hc] at h
      simp only [Outcome.failed.injEq] at h
      subst h
      exact ⟨sep, next, hinv, hc⟩
    | ok r =>
      by_cases hr : r.ret = true
      · rw [iterate_ok_true _ _ _ _ _ hc hr] at h
        exact ih r.sep r.next e (hstep sep next r hinv hc) h
      · rw [iterate_ok_false _ _ _ _ _ hc (by simpa using hr)] at h
        simp at h

namespace escaped_list_separator

theorem do_escape_error (sep : escaped_list_separator) (next tok : List Char) (e : Failure)
    (h : sep.do_escape next tok = Except.error e) :
    e = Failure.escaped_list_error "cannot end with escape" ∨
      e = Failure.escaped_list_error "unknown escape sequence" := by
  unfold do_escape at h
  split at h
  · simp only [Except.error.injEq] at h
    exact Or.inl h.symm
  · split at h
    · exact Except.noConfusion h
    · split at h
      · exact Except.noConfusion h
      · split at h
        · exact Except.noConfusion h
        · split at h
          · exact Except.noConfusion h
          · simp only [Except.error.injEq] at h
            exact Or.inr h.symm

theorem scan_error (sep : escaped_list_separator) :
    ∀ (n : Nat) (s : List Char), s.length ≤ n → ∀ (b : Bool) (tok : List Char) (e : Failure),
      scan sep b tok s = Except.error e →
      (∃ x ∈ s, x ∈ sep.escape_) ∧
      (e = Failure.escaped_list_error "cannot end with escape" ∨
        e = Failure.escaped_list_error "unknown escape sequence") := by
  intro n
  induction n with
  | zero =>
    intro s hs b tok e h
    have : s = [] := List.length_eq_zero.mp (by omega)
    subst this
    simp [scan] at h
  | succ n ih =>
    intro s hs b tok e h
    cases s with
    | nil => simp [scan] at h
    | cons c rest =>
      simp only [List.length_cons] at hs
      have lift : ∀ (b1 : Bool) (tok1 : List Char) (rest0 : List Char),
          rest0.length ≤ n → (∀ x ∈ rest0, x ∈ c :: rest) →
          scan sep b1 tok1 rest0 = Except.error e →
          (∃ x ∈ c :: rest, x ∈ sep.escape_) ∧
          (e = Failure.escaped_list_error "cannot end with escape" ∨
            e = Failure.escaped_list_error "unknown escape sequence") := by
        intro b1 tok1 rest0 hl hsub h1
        obtain ⟨⟨x, hx, hxe⟩, h2⟩ := ih rest0 hl b1 tok1 e h1
        exact ⟨⟨x, hsub x hx, hxe⟩, h2⟩
      rw [scan_cons] at h
      by_cases he : sep.is_escape c = true
      · have hce : ∃ x ∈ c :: rest, x ∈ sep.escape_ :=
          ⟨c, List.mem_cons_self _ _, by simpa [is_escape] using he⟩
        rw [if_pos he] at h
        cases rest with
        | nil =>
          cases hd : sep.do_escape [c] tok with
          | error e1 =>
            rw [hd] at h
            simp only [Except.bind, Except.error.injEq] at h
            subst h
            exact ⟨hce, do_escape_error sep _ _ _ hd⟩
          | ok p => rw [hd] at h; simp [Except.bind] at h
        | cons x rest1 =>
          simp only at h
          cases hd : sep.do_escape (c :: x :: rest1) tok with
          | error e1 =>
            rw [hd] at h
            simp only [Except.bind, Except.error.injEq] at h
            subst h
            exact ⟨hce, do_escape_error sep _ _ _ hd⟩
          | ok p =>
            rw [hd] at h
            simp only [Except.bind] at h
            exact ⟨hce, (ih rest1 (by simp only [List.length_cons] at hs; omega) _ _ _ h).2⟩
      · rw [if_neg he] at h
        by_cases hc : sep.is_c c = true
        · rw [if_pos hc] at h
          cases b with
          | false => simp at h
          | true =>
            simp only [Bool.not_true, Bool.false_eq_true, if_false] at h
            exact lift _ _ rest (by omega) (fun x hx => List.mem_cons_of_mem _ hx) h
        · rw [if_neg hc] at h
          by_cases hq : sep.is_quote c = true
          · rw [if_pos hq] at h
            exact lift _ _ rest (by omega) (fun x hx => List.mem_cons_of_mem _ hx) h
          · rw [if_neg hq] at h
            exact lift _ _ rest (by omega) (fun x hx => List.mem_cons_of_mem _ hx) h

theorem escaped_call_error (sep : escaped_list_separator) (next : List Char) (e : Failure)
    (h : call sep next = Except.error e) :
    (∃ x ∈ next, x ∈ sep.escape_) ∧
    (e = Failure.escaped_list_error "cannot end with escape" ∨
      e = Failure.escaped_list_error "unknown escape sequence") := by
  cases next with
  | nil =>
    by_cases hl : sep.last_ = true <;> simp [call, hl] at h
  | cons a as =>
    exact scan_error { sep with last_ := false } _ (a :: as) (le_refl _) _ _ _ h

theorem scan_shorter (sep : escaped_list_separator) (b : Bool) (tok : List Char) (c : Char)
    (rest : List Char) (r : CallResult escaped_list_separator)
    (h : scan sep b tok (c :: rest) = Except.ok r) : r.next.length ≤ rest.length := by
  rw [scan_cons] at h
  by_cases he : sep.is_escape c = true
  · rw [if_pos he] at h
    cases rest with
    | nil => simp [do_escape, Except.bind] at h
    | cons x rest1 =>
      simp only at h
      cases hd : sep.do_escape (c :: x :: rest1) tok with
      | error e => rw [hd] at h; simp [Except.bind] at h
      | ok p =>
        rw [hd] at h
        simp only [Except.bind] at h
        have := (scan_suffix sep _ rest1 (le_refl _) _ _ _ h).length_le
        simp only [List.length_cons]
        omega
  · rw [if_neg he] at h
    by_cases hc : sep.is_c c = true
    · rw [if_pos hc] at h
      cases b with
      | false =>
        simp only [Bool.not_false, if_true, Except.ok.injEq] at h
        subst h
        exact le_refl _
      | true =>
        simp only [Bool.not_true, Bool.false_eq_true, if_false] at h
        exact (scan_suffix sep _ rest (le_refl _) _ _ _ h).length_le
    · rw [if_neg hc] at h
      by_cases hq : sep.is_quote c = true
      · rw [if_pos hq] at h
        exact (scan_suffix sep _ rest (le_refl _) _ _ _ h).length_le
      · rw [if_neg hq] at h
        exact (scan_suffix sep _ rest (le_refl _) _ _ _ h).length_le

/-- The number of calls that can still return true: one per remaining
character, and one more unless the input is exhausted with no empty field
pending. -/
theorem escaped_call_measure (sep : escaped_list_separator) (next : List Char)
    (r : CallResult escaped_list_separator) (h : call sep next = Except.ok r)
    (hr : r.ret = true) :
    r.next.length + (if r.next = [] ∧ r.sep.last_ = false then 0 else 1) <
      next.length + (if next = [] ∧ sep.last_ = false then 0 else 1) := by
  cases next with
  | nil =>
    by_cases hl : sep.last_ = true
    · simp only [call, hl, if_true, Except.ok.injEq] at h
      subst h
      simp [hl]
    · simp only [call, hl, Bool.false_eq_true, if_false, Except.ok.injEq] at h
      subst h
      simp at hr
  | cons a as =>
    have := scan_shorter { sep with last_ := false } false [] a as r h
    simp only [List.length_cons]
    split <;> simp <;> omega

/-- The escaped-list iteration never runs out of the call budget, and yields
at most one token per character and one more. -/
theorem escaped_run_terminates (sep : escaped_list_separator) (s : List Char) (fuel : Nat)
    (hf : s.length + 1 < fuel) :
    (iterate call fuel sep s).outcome ≠ Outcome.out_of_fuel ∧
    (iterate call fuel sep s).tokens.length ≤
      s.length + (if s = [] ∧ sep.last_ = false then 0 else 1) := by
  have := iterate_terminates call (fun _ _ => True)
    (fun sp nx => nx.length + (if nx = [] ∧ sp.last_ = false then 0 else 1))
    (fun sp nx r _ hc hr => ⟨trivial, escaped_call_measure sp nx r hc hr⟩) fuel sep s trivial
    (by
      show s.length + (if s = [] ∧ sep.last_ = false then 0 else 1) < fuel
      split <;> omega)
  exact this

/-- C23: for every escaped-list configuration, state and input: a call that
fails was made on a cursor whose remaining input holds an escape character,
and its error is `escaped_list_error` with one of the two messages; the same
holds of an iteration that ends in a failure; and an input without escape
characters is iterated to completion, ending with a call that returns false. -/
theorem escaped_list_failures :
    (∀ (sep : escaped_list_separator) (next : List Char) (e : Failure),
      call sep next = Except.error e →
      (∃ x ∈ next, x ∈ sep.escape_) ∧
      (e = Failure.escaped_list_error "cannot end with escape" ∨
        e = Failure.escaped_list_error "unknown escape sequence")) ∧
    (∀ (sep : escaped_list_separator) (s : List Char) (e : Failure),
      (run sep s).outcome = Outcome.failed e →
      (∃ x ∈ s, x ∈ sep.escape_) ∧
      (e = Failure.escaped_list_error "cannot end with escape" ∨
        e = Failure.escaped_list_error "unknown escape sequence")) ∧
    (∀ (sep : escaped_list_separator) (s : List Char),
      (∀ x ∈ s, x ∉ sep.escape_) → (run sep s).outcome = Outcome.finished) := by
  have hrun : ∀ (sep : escaped_list_separator) (s : List Char) (e : Failure),
      (run sep s).outcome = Outcome.failed e →
      (∃ x ∈ s, x ∈ sep.escape_) ∧
      (e = Failure.escaped_list_error "cannot end with escape" ∨
        e = Failure.escaped_list_error "unknown escape sequence") := by
    intro sep s e h
    obtain ⟨sep1, next1, ⟨hcfg, hsuf⟩, hc⟩ := iterate_failed_call call
      (fun sp nx => sp.escape_ = sep.escape_ ∧ nx <:+ s)
      (fun sp nx r hinv hc =>
        ⟨(escaped_call_config sp nx r hc).1.trans hinv.1,
          (escaped_call_suffix sp nx r hc).trans hinv.2⟩)
      _ sep s e ⟨rfl, List.suffix_refl _⟩ h
    obtain ⟨⟨x, hx, hxe⟩, h2⟩ := escaped_call_error sep1 next1 e hc
    exact ⟨⟨x, hsuf.subset hx, by rw [← hcfg]; exact hxe⟩, h2⟩
  refine ⟨escaped_call_error, hrun, ?_⟩
  intro sep s hs
  apply outcome_finished_of
  · exact (escaped_run_terminates sep s (2 * s.length + 2) (by omega)).1
  · intro e he
    obtain ⟨⟨x, hx, hxe⟩, _⟩ := hrun sep s e he
    exact hs x hx hxe

/-- Witness for C23: the default configuration fails on a lone backslash, which
is an escape character, with the first message; on `a,b` it finishes. -/
theorem escaped_list_failures_witness :
    call mk_default ['\\'] =
      Except.error (Failure.escaped_list_error "cannot end with escape") ∧
    (∃ x ∈ ['\\'], x ∈ mk_default.escape_) ∧
    (run mk_default ['a', ',', 'b']).outcome = Outcome.finished :=
  ⟨rfl, (escaped_list_failures.1 mk_default ['\\'] _ rfl).1,
    escaped_list_failures.2.2 mk_default ['a', ',', 'b'] (by decide)⟩

end escaped_list_separator

theorem iterate_tokens_inv {σ : Type} (call : σ → List Char → Except Failure (CallResult σ))
    (Inv : σ → List Char → Prop) (P : List Char → Prop)
    (hstep : ∀ sep next r, Inv sep next → call sep next = Except.ok r →
      Inv r.sep r.next ∧ (r.ret = true → P r.tok)) :
    ∀ (fuel : Nat) (sep : σ) (next : List Char), Inv sep next →
      ∀ t ∈ (iterate call fuel sep next).tokens, P t := by
  intro fuel
  induction fuel with
  | zero => intro sep next _ t ht; simp [iterate] at ht
  | succ f ih =>
    intro sep next hinv t ht
    cases hc : call sep next with
    | error e =>
      rw [iterate_error _ _ _ _ _ hc] at ht
      simp at ht
    | ok r =>
      obtain ⟨h1, h2⟩ := hstep sep next r hinv hc
      by_cases hr : r.ret = true
      · rw [iterate_ok_true _ _ _ _ _ hc hr] at ht
        rcases List.mem_cons.mp ht with rfl | ht
        · exact h2 hr
        · exact ih r.sep r.next h1 t ht
      · rw [iterate_ok_false _ _ _ _ _ hc (by simpa using hr)] at ht
        simp at ht

namespace escaped_list_separator

/-- Scanning input without escape characters appends a character only if it
is no quote character, or is a separator character met inside quotes. -/
theorem scan_appends (sep : escaped_list_separator) :
    ∀ (s : List Char) (b : Bool) (tok : List Char) (r : CallResult escaped_list_separator),
      (∀ x ∈ s, x ∉ sep.escape_) → scan sep b tok s = Except.ok r →
      ∀ x ∈ r.tok, x ∈ tok ∨ (x ∈ sep.quote_ → x ∈ sep.c_) := by
  intro s
  induction s with
  | nil =>
    intro b tok r _ h x hx
    simp only [scan, Except.ok.injEq] at h
    subst h
    exact Or.inl hx
  | cons c rest ih =>
    intro b tok r hs h x hx
    have hc : c ∉ sep.escape_ := hs c (List.mem_cons_self _ _)
    have hrest : ∀ y ∈ rest, y ∉ sep.escape_ := fun y hy => hs y (List.mem_cons_of_mem _ hy)
    rw [scan_cons] at h
    simp only [is_escape, hc, decide_False, Bool.false_eq_true, if_false] at h
    by_cases hsep : c ∈ sep.c_
    · simp only [is_c, hsep, decide_True, if_true] at h
      cases b with
      | false =>
        simp only [Bool.not_false, if_true, Except.ok.injEq] at h
        subst h
        exact Or.inl hx
      | true =>
        simp only [Bool.not_true, Bool.false_eq_true, if_false] at h
        rcases ih _ _ _ hrest h x hx with h1 | h1
        · rcases List.mem_append.mp h1 with h2 | h2
          · exact Or.inl h2
          · simp only [List.mem_singleton] at h2
            subst h2
            exact Or.inr (fun _ => hsep)
        · exact Or.inr h1
    · simp only [is_c, hsep, decide_False, Bool.false_eq_true, if_false] at h
      by_cases hq : c ∈ sep.quote_
      · simp only [is_quote, hq, decide_True, if_true] at h
        exact ih _ _ _ hrest h x hx
      · simp only [is_quote, hq, decide_False, Bool.false_eq_true, if_false] at h
        rcases ih _ _ _ hrest h x hx with h1 | h1
        · rcases List.mem_append.mp h1 with h2 | h2
          · exact Or.inl h2
          · simp only [List.mem_singleton] at h2
            subst h2
            exact Or.inr (fun hxq => absurd hxq hq)
        · exact Or.inr h1

theorem escaped_call_appends (sep : escaped_list_separator) (next : List Char)
    (r : CallResult escaped_list_separator) (hs : ∀ x ∈ next, x ∉ sep.escape_)
    (h : call sep next = Except.ok r) :
    ∀ x ∈ r.tok, x ∈ sep.quote_ → x ∈ sep.c_ := by
  cases next with
  | nil =>
    by_cases hl : sep.last_ = true
    · simp only [call, hl, if_true, Except.ok.injEq] at h
      subst h
      intro x hx
      simp at hx
    · simp only [call, hl, Bool.false_eq_true, if_false, Except.ok.injEq] at h
      subst h
      intro x hx
      simp at hx
  | cons a as =>
    intro x hx
    rcases scan_appends { sep with last_ := false } (a :: as) false [] r hs h x hx with h1 | h1
    · simp at h1
    · exact h1

/-- C22 as stated fails: with separator set `,;` and quote set `";` the
character `;` is a quote character and a separator; inside quotes it is
appended as a separator, so the input `";` (no escape character in it) gives
the token `;`, which is a quote character. -/
theorem escaped_list_no_quote_in_token_counterexample :
    (∀ x ∈ ['\"', ';'], x ∉ ['\\']) ∧
    (run (mk_strings ['\\'] [',', ';'] ['\"', ';']) ['\"', ';']).tokens = [[';']] ∧
    ';' ∈ (mk_strings ['\\'] [',', ';'] ['\"', ';']).quote_ := by
  decide

/-- C22, amended: for every configuration and every input without escape
characters, the iteration ends with a call returning false and no token holds
a quote character that is not also a separator character; so when no quote
character of the configuration is a separator character, no token holds a
quote character. -/
theorem escaped_list_no_quote_in_token (e c q : List Char) (s : List Char)
    (hs : ∀ x ∈ s, x ∉ e) :
    (run (mk_strings e c q) s).outcome = Outcome.finished ∧
    (∀ t ∈ (run (mk_strings e c q) s).tokens, ∀ x ∈ t, x ∈ q → x ∈ c) ∧
    ((∀ x ∈ q, x ∉ c) → ∀ t ∈ (run (mk_strings e c q) s).tokens, ∀ x ∈ t, x ∉ q) := by
  have hfin : (run (mk_strings e c q) s).outcome = Outcome.finished := by
    apply outcome_finished_of
    · exact (escaped_run_terminates (mk_strings e c q) s (2 * s.length + 2) (by omega)).1
    · intro e1 he
      obtain ⟨sep1, next1, ⟨hcfg, hsuf⟩, hc⟩ := iterate_failed_call call
        (fun sp nx => sp.escape_ = e ∧ nx <:+ s)
        (fun sp nx r hinv hc =>
          ⟨(escaped_call_config sp nx r hc).1.trans hinv.1,
            (escaped_call_suffix sp nx r hc).trans hinv.2⟩)
        _ (mk_strings e c q) s e1 ⟨rfl, List.suffix_refl _⟩ he
      obtain ⟨⟨x, hx, hxe⟩, _⟩ := escaped_call_error sep1 next1 e1 hc
      exact hs x (hsuf.subset hx) (by rw [← hcfg]; exact hxe)
  have htok : ∀ t ∈ (run (mk_strings e c q) s).tokens, ∀ x ∈ t, x ∈ q → x ∈ c :=
    iterate_tokens_inv call
      (fun sp nx => (sp.escape_ = e ∧ sp.c_ = c ∧ sp.quote_ = q) ∧ nx <:+ s)
      (fun t => ∀ x ∈ t, x ∈ q → x ∈ c)
      (fun sp nx r hinv hc => by
        obtain ⟨h1, h2, h3⟩ := escaped_call_config sp nx r hc
        refine ⟨⟨⟨h1.trans hinv.1.1, h2.trans hinv.1.2.1, h3.trans hinv.1.2.2⟩,
          (escaped_call_suffix sp nx r hc).trans hinv.2⟩, fun _ => ?_⟩
        have := escaped_call_appends sp nx r
          (fun x hx => by rw [hinv.1.1]; exact hs x (hinv.2.subset hx)) hc
        rw [hinv.1.2.1, hinv.1.2.2] at this
        exact this)
      _ (mk_strings e c q) s ⟨⟨rfl, rfl, rfl⟩, List.suffix_refl _⟩
  exact ⟨hfin, htok, fun hdisj t ht x hx hxq => hdisj x hxq (htok t ht x hx hxq)⟩

/-- Witness for C22: the default configuration on `a"b,c"d`, whose tokens
`ab,cd` hold no double quote. -/
theorem escaped_list_no_quote_in_token_witness :
    (∀ x ∈ ['a', '\"', 'b', ',', 'c', '\"', 'd'], x ∉ ['\\']) ∧
    (run (mk_strings ['\\'] [','] ['\"']) ['a', '\"', 'b', ',', 'c', '\"', 'd']).tokens =
      [['a', 'b', ',', 'c', 'd']] ∧
    (∀ t ∈ (run (mk_strings ['\\'] [','] ['\"']) ['a', '\"', 'b', ',', 'c', '\"', 'd']).tokens,
      ∀ x ∈ t, x ∉ ['\"']) :=
  ⟨by decide, by decide,
    (escaped_list_no_quote_in_token ['\\'] [','] ['\"'] ['a', '\"', 'b', ',', 'c', '\"', 'd']
      (by decide)).2.2 (by decide)⟩

/-- C21 as stated fails: with separator set `,;` and quote set `";` the quote
character `;` is also a separator; the input `;a,b` (an unclosed `;` before the
field `a,b`) gives the three tokens "", "a", "b" instead of the one token
`a,b`. -/
theorem escaped_list_unclosed_quote_counterexample :
    ';' ∈ ['\"', ';'] ∧
    (∀ x ∈ ['a', ',', 'b'], x ∉ ['\"', ';'] ∧ x ∉ ['\\']) ∧
    (run (mk_strings ['\\'] [',', ';'] ['\"', ';']) (';' :: ['a', ',', 'b'])).tokens
      = [[], ['a'], ['b']] ∧
    (run (mk_strings ['\\'] [',', ';'] ['\"', ';']) (';' :: ['a', ',', 'b'])).tokens
      ≠ [['a', ',', 'b']] := by
  decide

/-- C21, amended: for every configuration, every quote character `qc` of it
that is neither an escape character nor a separator character, and every `f`
without quote and escape characters (separators allowed), the input `qc ++ f`,
whose quote is never closed, does not fail and gives exactly the one token
`f`: the call scans to the end inside quotes and returns true, and the next
call returns false. -/
theorem escaped_list_unclosed_quote (e c q : List Char) (qc : Char) (f : List Char)
    (hq : qc ∈ q) (hqe : qc ∉ e) (hqc : qc ∉ c) (hf : ∀ x ∈ f, x ∉ q ∧ x ∉ e) :
    call (mk_strings e c q) (qc :: f) = Except.ok ⟨true, f, [], mk_strings e c q⟩ ∧
    (run (mk_strings e c q) (qc :: f)).outcome = Outcome.finished ∧
    (run (mk_strings e c q) (qc :: f)).tokens = [f] := by
  have hcall : call (mk_strings e c q) (qc :: f) =
      Except.ok ⟨true, f, [], mk_strings e c q⟩ := by
    show scan { mk_strings e c q with last_ := false } false [] (qc :: f) = _
    rw [scan_cons]
    simp only [is_escape, is_c, is_quote, mk_strings, hq, hqe, hqc, decide_False, decide_True,
      Bool.false_eq_true, if_false, if_true, Bool.not_false]
    have := scan_quoted ⟨e, c, q, false⟩ f [] [] (by simpa using hf)
    rw [List.append_nil] at this
    rw [this]
    simp [scan]
  have hcall2 : call (mk_strings e c q) [] = Except.ok ⟨false, [], [], mk_strings e c q⟩ := rfl
  refine ⟨hcall, ?_⟩
  rw [run, tokenize_eq, iterate_ok_true _ _ _ _ _ hcall rfl, iterate_ok_false _ _ _ _ _ hcall2 rfl]
  exact ⟨rfl, rfl⟩

/-- Witness for C21: the default configuration on `"a,b` with the quote left
open. -/
theorem escaped_list_unclosed_quote_witness :
    ('\"' ∈ ['\"'] ∧ '\"' ∉ ['\\'] ∧ '\"' ∉ [','] ∧
      ∀ x ∈ ['a', ',', 'b'], x ∉ ['\"'] ∧ x ∉ ['\\']) ∧
    (run (mk_strings ['\\'] [','] ['\"']) ('\"' :: ['a', ',', 'b'])).tokens
      = [['a', ',', 'b']] :=
  ⟨by decide,
    (escaped_list_unclosed_quote ['\\'] [','] ['\"'] '\"' ['a', ',', 'b']
      (by decide) (by decide) (by decide) (by decide)).2.2⟩

end escaped_list_separator

namespace char_separator

theorem DropLayout.flatten_eq_filter {D K : List Char} {before s : List Char}
    {toks : List (List Char)} (h : DropLayout D K before s toks) :
    toks.flatten = s.filter (fun c => !decide (c ∈ D)) := by
  induction h with
  | done before gap hgap =>
    symm
    simp only [List.flatten_nil, List.filter_eq_nil_iff]
    intro x hx
    simpa using hgap x hx
  | kept before gap c rest toks hgap hK hD htail ih =>
    have hg : gap.filter (fun c => !decide (c ∈ D)) = [] := by
      simp only [List.filter_eq_nil_iff]
      intro x hx
      simpa using hgap x hx
    rw [List.filter_append, hg, List.nil_append, List.filter_cons_of_pos (by simpa using hD),
      List.flatten_cons, ih]
    rfl
  | word before gap t rest toks hgap hne ht hleft hright htail ih =>
    have hg : gap.filter (fun c => !decide (c ∈ D)) = [] := by
      simp only [List.filter_eq_nil_iff]
      intro x hx
      simpa using hgap x hx
    have htf : t.filter (fun c => !decide (c ∈ D)) = t := by
      simp only [List.filter_eq_self]
      intro x hx
      simpa using (ht x hx).1
    rw [List.filter_append, List.filter_append, hg, List.nil_append, htf, List.flatten_cons, ih]

/-- C27: in drop_empty_tokens mode, for any explicit sets `D` and `K`
(overlapping or not, `none` the null pointer) and every input `s`, the
iteration ends with a call returning false and the concatenation of its
tokens is `s` with every character of `D` removed (a character of `D` is
removed also when it is in `K`). -/
theorem char_separator_drop_concat (D : List Char) (K : Option (List Char)) (s : List Char) :
    (run (mk_explicit D K empty_token_policy.drop_empty_tokens) s).outcome = Outcome.finished ∧
    (run (mk_explicit D K empty_token_policy.drop_empty_tokens) s).tokens.flatten =
      s.filter (fun c => !decide (c ∈ D)) := by
  have h := drop_layout_aux D K s.length s (le_refl _) (2 * s.length + 2) (by omega) []
    (Or.inl (by simp))
  exact ⟨h.1, DropLayout.flatten_eq_filter h.2⟩

/-- The non-empty tokens of keep mode, past leading dropped delimiters. -/
theorem keep_fields_skip (D K : List Char) (hdisj : ∀ c ∈ D, c ∉ K) (s : List Char) :
    (keep_fields D K s).filter (fun t => decide (t ≠ [])) =
      (keep_fields D K (s.dropWhile (fun c => decide (c ∈ D)))).filter
        (fun t => decide (t ≠ [])) := by
  induction s with
  | nil => rfl
  | cons c cs ih =>
    by_cases h : c ∈ D
    · rw [keep_fields_cons_dropped D K c cs h (hdisj c h),
        List.dropWhile_cons_of_pos (by simpa using h), ← ih]
      simp
    · rw [List.dropWhile_cons_of_neg (by simpa using h)]

theorem keep_fields_head (D K : List Char) (s : List Char)
    (h : ∀ y, s.head? = some y → y ∈ D ∨ y ∈ K) :
    ((keep_fields D K s).tail).filter (fun t => decide (t ≠ [])) =
      (keep_fields D K s).filter (fun t => decide (t ≠ [])) := by
  cases s with
  | nil => simp [keep_fields_nil]
  | cons c cs =>
    by_cases hk : c ∈ K
    · rw [keep_fields_cons_kept D K c cs hk]
      simp
    · have hd : c ∈ D := by
        rcases h c rfl with h1 | h1
        · exact h1
        · exact absurd h1 hk
      rw [keep_fields_cons_dropped D K c cs hd hk]
      simp

theorem drop_eq_keep_aux (D : List Char) (K : Option (List Char))
    (hdisj : ∀ c ∈ D, c ∉ K.getD []) :
    ∀ (n : Nat) (s : List Char), s.length ≤ n → ∀ fuel, n + 1 ≤ fuel →
      (iterate (fun sp nx => Except.ok (sp.call nx)) fuel
          (mk_explicit D K empty_token_policy.drop_empty_tokens) s).tokens =
        (keep_fields D (K.getD []) s).filter (fun t => decide (t ≠ [])) := by
  have hdrop : (mk_explicit D K empty_token_policy.drop_empty_tokens).is_dropped =
      fun c => decide (c ∈ D) := by
    funext c
    exact is_dropped_mk_explicit D K _ c
  have hnd : (mk_explicit D K empty_token_policy.drop_empty_tokens).non_delim =
      fun c => !decide (c ∈ D) && !decide (c ∈ K.getD []) := by
    funext c
    exact non_delim_mk_explicit D K _ c
  intro n
  induction n with
  | zero =>
    intro s hs fuel hf
    have : s = [] := List.length_eq_zero.mp (by omega)
    subst this
    obtain ⟨f, rfl⟩ : ∃ k, fuel = k + 1 := ⟨fuel - 1, by omega⟩
    simp [iterate, call, mk_explicit, keep_fields_nil]
  | succ n ih =>
    intro s hs fuel hf
    obtain ⟨f, rfl⟩ : ∃ k, fuel = k + 1 := ⟨fuel - 1, by omega⟩
    rw [keep_fields_skip D _ hdisj]
    have hlen := length_takeWhile_add_dropWhile (fun c => decide (c ∈ D)) s
    cases hd : s.dropWhile (fun c => decide (c ∈ D)) with
    | nil =>
      have hcall : (mk_explicit D K empty_token_policy.drop_empty_tokens).call s
          = ⟨false, [], [], mk_explicit D K empty_token_policy.drop_empty_tokens⟩ := by
        simp only [call, hdrop, hd]; rfl
      rw [iterate_ok_false _ _ _ _ _ (congrArg Except.ok hcall) rfl]
      simp [keep_fields_nil]
    | cons c rest =>
      rw [hd] at hlen
      simp only [List.length_cons] at hlen
      have hcD : c ∉ D := by
        have := dropWhile_head_false hd
        simpa using this
      by_cases hk : c ∈ K.getD []
      · have hcall : (mk_explicit D K empty_token_policy.drop_empty_tokens).call s
            = ⟨true, [c], rest, mk_explicit D K empty_token_policy.drop_empty_tokens⟩ := by
          simp only [call, hdrop, hd, is_kept_mk_explicit, hk, decide_True, if_true]; rfl
        rw [iterate_ok_true _ _ _ _ _ (congrArg Except.ok hcall) rfl]
        have hrec := ih rest (by omega) f (by omega)
        rw [keep_fields_cons_kept D _ c rest hk]
        simp only [List.filter_cons, ne_eq, not_true_eq_false, decide_False, Bool.false_eq_true,
          if_false, List.cons_ne_self, not_false_eq_true, decide_True, if_true, reduceCtorEq]
        exact congrArg _ hrec
      · have hcall : (mk_explicit D K empty_token_policy.drop_empty_tokens).call s
            = ⟨true,
                (c :: rest).takeWhile (fun c => !decide (c ∈ D) && !decide (c ∈ K.getD [])),
                (c :: rest).dropWhile (fun c => !decide (c ∈ D) && !decide (c ∈ K.getD [])),
                mk_explicit D K empty_token_policy.drop_empty_tokens⟩ := by
          simp only [call, hdrop, hd, is_kept_mk_explicit, hk, decide_False, Bool.false_eq_true,
            if_false, hnd]; rfl
        have hlen2 := length_takeWhile_add_dropWhile
          (fun c => !decide (c ∈ D) && !decide (c ∈ K.getD [])) (c :: rest)
        have htne : (c :: rest).takeWhile
            (fun c => !decide (c ∈ D) && !decide (c ∈ K.getD [])) ≠ [] := by
          rw [List.takeWhile_cons_of_pos (by simp [hcD, hk])]
          exact List.cons_ne_nil _ _
        have htpos := List.length_pos.mpr htne
        simp only [List.length_cons] at hlen2
        have hrec := ih ((c :: rest).dropWhile
          (fun c => !decide (c ∈ D) && !decide (c ∈ K.getD []))) (by omega) f (by omega)
        rw [iterate_ok_true _ _ _ _ _ (congrArg Except.ok hcall) rfl]
        rw [keep_fields_run D _ (c :: rest), List.filter_cons_of_pos (by simpa using htne)]
        rw [keep_fields_head]
        · exact congrArg _ hrec
        · intro y hy
          have := List.head?_dropWhile_not
            (fun c => !decide (c ∈ D) && !decide (c ∈ K.getD [])) (c :: rest)
          rw [hy] at this
          by_cases h1 : y ∈ D
          · exact Or.inl h1
          · right; simpa [h1] using this

/-- C26: for explicit disjoint sets `D` and `K` (`none` the null pointer) and
every input, the token sequence of `char_separator(D, K, drop_empty_tokens)`
is the token sequence of `char_separator(D, K, keep_empty_tokens)` with its
empty tokens removed; both iterations end with a call returning false. -/
theorem char_separator_drop_is_keep_filtered (D : List Char) (K : Option (List Char))
    (s : List Char) (hdisj : ∀ c ∈ D, c ∉ K.getD []) :
    (run (mk_explicit D K empty_token_policy.drop_empty_tokens) s).outcome = Outcome.finished ∧
    (run (mk_explicit D K empty_token_policy.keep_empty_tokens) s).outcome = Outcome.finished ∧
    (run (mk_explicit D K empty_token_policy.drop_empty_tokens) s).tokens =
      (run (mk_explicit D K empty_token_policy.keep_empty_tokens) s).tokens.filter
        (fun t => decide (t ≠ [])) := by
  have hk := (keep_run_aux s.length s (mk_explicit D K empty_token_policy.keep_empty_tokens)
    (le_refl _) rfl rfl rfl).2 rfl (2 * s.length + 2) (le_refl _)
  have hd := drop_layout_aux D K s.length s (le_refl _) (2 * s.length + 2) (by omega) []
    (Or.inl (by simp))
  have hd2 := drop_eq_keep_aux D K hdisj s.length s (le_refl _) (2 * s.length + 2) (by omega)
  have hk2 : (run (mk_explicit D K empty_token_policy.keep_empty_tokens) s).tokens =
      keep_fields D (K.getD []) s := hk.2
  refine ⟨hd.1, hk.1, ?_⟩
  rw [hk2]
  exact hd2

/-- Witness for C26: the test input `;Hello||world-` with `D = "-;"` and
`K = "|"`, whose keep-mode tokens "", "Hello", "|", "", "|", "world", "" lose
their three empty ones. -/
theorem char_separator_drop_is_keep_filtered_witness :
    (∀ c ∈ "-;".toList, c ∉ (some "|".toList).getD []) ∧
    (run (mk_explicit "-;".toList (some "|".toList) empty_token_policy.keep_empty_tokens)
      ";Hello||world-".toList).tokens =
        [[], "Hello".toList, ['|'], [], ['|'], "world".toList, []] ∧
    (run (mk_explicit "-;".toList (some "|".toList) empty_token_policy.drop_empty_tokens)
      ";Hello||world-".toList).tokens = ["Hello".toList, ['|'], ['|'], "world".toList] := by
  have h := char_separator_drop_is_keep_filtered "-;".toList (some "|".toList)
    ";Hello||world-".toList (by decide)
  refine ⟨by decide, by decide, ?_⟩
  rw [h.2.2]
  decide

end char_separator

namespace escaped_list_separator

theorem encode_nil : encode [] = [] := rfl

theorem encode_single (f : List Char) : encode [f] = enc f := by
  simp [encode, List.intercalate]

theorem encode_cons_cons (f g : List Char) (fs : List (List Char)) :
    encode (f :: g :: fs) = enc f ++ ',' :: encode (g :: fs) := by
  simp [encode, List.intercalate]

theorem scan_enc (l : Bool) :
    ∀ (f tok rest : List Char),
      scan ⟨['\\'], [','], ['\"'], l⟩ false tok (enc f ++ rest) =
        scan ⟨['\\'], [','], ['\"'], l⟩ false (tok ++ f) rest := by
  intro f
  induction f with
  | nil => intro tok rest; simp [enc]
  | cons x f ih =>
    intro tok rest
    by_cases hx : x = '\\' ∨ x = ',' ∨ x = '\"'
    · have hxn : x ≠ 'n' := by
        rcases hx with h | h | h <;> subst h <;> decide
      simp only [enc, hx, if_true, List.cons_append]
      rw [scan_cons]
      have hesc : is_escape ⟨['\\'], [','], ['\"'], l⟩ '\\' = true := rfl
      rw [if_pos hesc]
      simp only
      have hd : do_escape ⟨['\\'], [','], ['\"'], l⟩ ('\\' :: x :: (enc f ++ rest)) tok =
          Except.ok (x :: (enc f ++ rest), tok ++ [x]) := by
        simp only [do_escape, List.tail_cons, hxn, if_false, is_quote, is_c, is_escape,
          List.mem_singleton]
        rcases hx with h | h | h <;> subst h <;> simp
      rw [hd]
      simp only [Except.bind]
      rw [ih]
      simp
    · have h1 : x ≠ '\\' := fun h => hx (Or.inl h)
      have h2 : x ≠ ',' := fun h => hx (Or.inr (Or.inl h))
      have h3 : x ≠ '\"' := fun h => hx (Or.inr (Or.inr h))
      simp only [enc, hx, if_false, List.cons_append]
      rw [scan_cons]
      simp only [is_escape, is_c, is_quote, List.mem_singleton, h1, h2, h3, decide_False,
        Bool.false_eq_true, if_false]
      rw [ih]
      simp

theorem call_of_ne_nil (sep : escaped_list_separator) (s : List Char) (hs : s ≠ []) :
    call sep s = scan { sep with last_ := false } false [] s := by
  cases s with
  | nil => exact absurd rfl hs
  | cons a as => rfl

theorem enc_eq_nil (f : List Char) (h : enc f = []) : f = [] := by
  cases f with
  | nil => rfl
  | cons x f =>
    simp only [enc] at h
    split at h <;> simp at h

theorem encode_run_aux :
    ∀ (fs : List (List Char)), fs ≠ [] → ∀ (l : Bool), (l = true ∨ encode fs ≠ []) →
      ∀ fuel, fs.length + 1 ≤ fuel →
      (iterate call fuel ⟨['\\'], [','], ['\"'], l⟩ (encode fs)).outcome = Outcome.finished ∧
      (iterate call fuel ⟨['\\'], [','], ['\"'], l⟩ (encode fs)).tokens = fs := by
  have hend : ∀ f, iterate call (f + 1) ⟨['\\'], [','], ['\"'], false⟩ [] =
      ⟨[], Outcome.finished, ⟨['\\'], [','], ['\"'], false⟩, []⟩ := by
    intro f
    exact iterate_ok_false call f ⟨['\\'], [','], ['\"'], false⟩ []
      ⟨false, [], [], ⟨['\\'], [','], ['\"'], false⟩⟩ rfl rfl
  intro fs
  induction fs with
  | nil => intro h; exact absurd rfl h
  | cons f rest ih =>
    intro _ l hl fuel hf
    simp only [List.length_cons] at hf
    obtain ⟨g, rfl⟩ : ∃ k, fuel = k + 2 := ⟨fuel - 2, by omega⟩
    cases rest with
    | nil =>
      rw [encode_single] at hl ⊢
      by_cases hne : enc f = []
      · have hf0 := enc_eq_nil f hne
        subst hf0
        have hl1 : l = true := by
          rcases hl with h1 | h1
          · exact h1
          · exact absurd hne h1
        subst hl1
        have hc : call ⟨['\\'], [','], ['\"'], true⟩ (enc []) =
            Except.ok ⟨true, [], [], ⟨['\\'], [','], ['\"'], false⟩⟩ := rfl
        rw [iterate_ok_true _ _ _ _ _ hc rfl, hend]
        exact ⟨rfl, rfl⟩
      · have hc : call ⟨['\\'], [','], ['\"'], l⟩ (enc f) =
            Except.ok ⟨true, f, [], ⟨['\\'], [','], ['\"'], false⟩⟩ := by
          rw [call_of_ne_nil _ _ hne]
          have := scan_enc false f [] []
          simp only [List.append_nil, List.nil_append] at this
          show scan ⟨['\\'], [','], ['\"'], false⟩ false [] (enc f) = _
          rw [this]
          rfl
        rw [iterate_ok_true _ _ _ _ _ hc rfl, hend]
        exact ⟨rfl, rfl⟩
    | cons f2 rest2 =>
      rw [encode_cons_cons]
      have hc : call ⟨['\\'], [','], ['\"'], l⟩ (enc f ++ ',' :: encode (f2 :: rest2)) =
          Except.ok ⟨true, f, encode (f2 :: rest2), ⟨['\\'], [','], ['\"'], true⟩⟩ := by
        rw [call_of_ne_nil _ _ (by simp)]
        have := scan_enc false f [] (',' :: encode (f2 :: rest2))
        simp only [List.nil_append] at this
        show scan ⟨['\\'], [','], ['\"'], false⟩ false []
          (enc f ++ ',' :: encode (f2 :: rest2)) = _
        rw [this, scan_cons]
        rfl
      have hrec := ih (by simp) true (Or.inl rfl) (g + 1)
        (by simp only [List.length_cons] at hf ⊢; omega)
      rw [iterate_ok_true _ _ _ _ _ hc rfl]
      exact ⟨hrec.1, congrArg _ hrec.2⟩

theorem encode_length (fs : List (List Char)) : fs.length ≤ (encode fs).length + 1 := by
  induction fs with
  | nil => simp
  | cons f rest ih =>
    cases rest with
    | nil => simp
    | cons f2 rest2 =>
      rw [encode_cons_cons]
      simp only [List.length_cons, List.length_append] at ih ⊢
      omega

/-- C28: round trip for the default escaped-list separator. With `enc f` the
field `f` with a backslash before every backslash, comma and double quote, and
`encode fs` the `enc` of the fields joined by commas: for every list of fields
`fs` other than `[""]`, iterating `encode fs` does not fail, ends with a call
returning false, and gives exactly `fs`. -/
theorem escaped_list_round_trip (fs : List (List Char)) (h : fs ≠ [[]]) :
    (run mk_default (encode fs)).outcome = Outcome.finished ∧
    (run mk_default (encode fs)).tokens = fs := by
  by_cases h0 : fs = []
  · subst h0
    exact ⟨rfl, rfl⟩
  · have hne : encode fs ≠ [] := by
      cases fs with
      | nil => exact absurd rfl h0
      | cons f rest =>
        cases rest with
        | nil =>
          rw [encode_single]
          intro he
          exact h (by rw [enc_eq_nil f he])
        | cons f2 rest2 =>
          rw [encode_cons_cons]
          simp
    have hlen := encode_length fs
    exact encode_run_aux fs h0 false (Or.inr hne) (2 * (encode fs).length + 2) (by omega)

/-- Witness for C28: the fields `a,b`, the empty field, and `c"\` (with a
double quote and a backslash): their encoding is tokenized back to them. -/
theorem escaped_list_round_trip_witness :
    ([['a', ',', 'b'], [], ['c', '\"', '\\']] : List (List Char)) ≠ [[]] ∧
    encode [['a', ',', 'b'], [], ['c', '\"', '\\']] =
      ['a', '\\', ',', 'b', ',', ',', 'c', '\\', '\"', '\\', '\\'] ∧
    (run mk_default (encode [['a', ',', 'b'], [], ['c', '\"', '\\']])).tokens =
      [['a', ',', 'b'], [], ['c', '\"', '\\']] :=
  ⟨by decide, by decide,
    (escaped_list_round_trip [['a', ',', 'b'], [], ['c', '\"', '\\']] (by decide)).2⟩

end escaped_list_separator

namespace char_separator

theorem drop_call_shorter (sep : char_separator) (next : List Char)
    (hm : sep.m_empty_tokens = empty_token_policy.drop_empty_tokens)
    (hr : (sep.call next).ret = true) : (sep.call next).next.length < next.length := by
  have hlen := length_takeWhile_add_dropWhile sep.is_dropped next
  simp only [call, hm] at hr ⊢
  cases hd : next.dropWhile sep.is_dropped with
  | nil => rw [hd] at hr; simp at hr
  | cons c rest =>
    rw [hd] at hlen
    simp only [List.length_cons] at hlen
    simp only
    split
    · show rest.length < next.length
      omega
    · rename_i hk
      have hcd : sep.is_dropped c = false := dropWhile_head_false hd
      have hnd : sep.non_delim c = true := by
        simp only [non_delim, hcd, Bool.not_false, Bool.true_and, Bool.not_eq_true']
        simpa using hk
      show ((c :: rest).dropWhile sep.non_delim).length < next.length
      rw [List.dropWhile_cons_of_pos hnd]
      have := (List.dropWhile_suffix sep.non_delim : rest.dropWhile sep.non_delim <:+ rest).length_le
      omega

theorem keep_call_measure (sep : char_separator) (next : List Char)
    (hm : sep.m_empty_tokens = empty_token_policy.keep_empty_tokens)
    (hr : (sep.call next).ret = true) :
    (sep.call next).sep.m_empty_tokens = empty_token_policy.keep_empty_tokens ∧
    2 * (sep.call next).next.length + (if (sep.call next).sep.m_output_done = true then 0 else 1) <
      2 * next.length + (if sep.m_output_done = true then 0 else 1) := by
  cases next with
  | nil =>
    simp only [call, hm] at hr ⊢
    by_cases hdone : sep.m_output_done = false
    · simp [hdone, hm]
    · simp [hdone] at hr
  | cons c rest =>
    simp only [call, hm]
    by_cases hk : sep.is_kept c = true
    · by_cases hdone : sep.m_output_done = false
      · simp [hk, hdone, hm]
      · have hd1 : sep.m_output_done = true := by simpa using hdone
        simp only [hk, hd1, if_true, Bool.true_eq_false, if_false, Bool.false_eq_true,
          List.length_cons]
        exact ⟨trivial, by omega⟩
    · by_cases hfirst : sep.m_output_done = false ∧ sep.is_dropped c = true
      · simp [hk, hfirst, hm]
      · simp only [hk, Bool.false_eq_true, if_false, hfirst]
        refine ⟨trivial, ?_⟩
        simp only [if_true]
        by_cases hd : sep.is_dropped c = true
        · simp only [hd, if_true]
          have := (List.dropWhile_suffix sep.non_delim :
            rest.dropWhile sep.non_delim <:+ rest).length_le
          simp only [List.length_cons]
          split <;> omega
        · simp only [hd, Bool.false_eq_true, if_false]
          have hnd : sep.non_delim c = true := by
            simp only [non_delim]
            simp only [Bool.not_eq_true] at hd hk
            simp [hd, hk]
          rw [List.dropWhile_cons_of_pos hnd]
          have := (List.dropWhile_suffix sep.non_delim :
            rest.dropWhile sep.non_delim <:+ rest).length_le
          simp only [List.length_cons]
          split <;> omega

end char_separator

namespace char_delimiters_separator

theorem char_delimiters_call_shorter (sep : char_delimiters_separator) (next : List Char)
    (hr : (sep.call next).ret = true) : (sep.call next).next.length < next.length := by
  have hlen := length_takeWhile_add_dropWhile sep.skipped next
  simp only [call] at hr ⊢
  cases hd : next.dropWhile sep.skipped with
  | nil => rw [hd] at hr; simp at hr
  | cons c rest =>
    rw [hd] at hlen
    simp only [List.length_cons] at hlen
    simp only
    split
    · show rest.length < next.length
      omega
    · rename_i hk
      have hcs : sep.skipped c = false := dropWhile_head_false hd
      have hnd : sep.non_delim c = true := by
        simp only [skipped, Bool.or_eq_false_iff] at hcs
        simp only [non_delim, hcs.1, Bool.not_false, Bool.true_and, Bool.not_eq_true']
        simpa using hk
      show ((c :: rest).dropWhile sep.non_delim).length < next.length
      rw [List.dropWhile_cons_of_pos hnd]
      have := (List.dropWhile_suffix sep.non_delim : rest.dropWhile sep.non_delim <:+ rest).length_le
      omega

end char_delimiters_separator

namespace offset_separator

theorem offset_call_shorter (sep : offset_separator) (next : List Char)
    (r : CallResult offset_separator) (hpos : ∀ x ∈ sep.offsets_, 0 < x)
    (h : call sep next = Except.ok r) (hr : r.ret = true) :
    r.next.length < next.length := by
  by_cases he : sep.offsets_.isEmpty = true
  · simp [call, he] at h
  · cases next with
    | nil =>
      simp only [call, he, Bool.false_eq_true, if_false, Except.ok.injEq] at h
      subst h
      simp at hr
    | cons a as =>
      by_cases hstop : sep.current_offset_ = sep.offsets_.length ∧ sep.wrap_offsets_ = false
      · simp only [call, he, Bool.false_eq_true, if_false, hstop, and_self, if_true,
          Except.ok.injEq] at h
        subst h
        simp at hr
      · cases hget : sep.offsets_[if sep.current_offset_ = sep.offsets_.length then 0
            else sep.current_offset_]? with
        | none => simp [call, he, hstop, hget] at h
        | some c =>
          have hc := call_cons sep a as c hstop hget
          have hcpos : 0 < c := hpos c (List.getElem?_mem hget)
          rw [hc] at h
          by_cases hp : sep.return_partial_last_ = false ∧
              ((min c.toNat (as.length + 1) : Nat) : Int) < c - 1
          · rw [if_pos hp] at h
            simp only [Except.ok.injEq] at h
            subst h
            simp at hr
          · rw [if_neg hp] at h
            simp only [Except.ok.injEq] at h
            subst h
            simp only [List.length_drop, List.length_cons]
            omega

end offset_separator

/-- C29: over an input of length `n`, each separator's repeated calls from the
initial state reach a call that returns false (or, for the escaped-list
separator only, one that fails) within the budget of `2 * n + 2` calls:
`char_separator` in drop mode, `char_delimiters_separator` and
`offset_separator` (non-empty positive widths) give at most `n` tokens,
`escaped_list_separator` at most `n + 1`, and `char_separator` in keep mode at
most `2 * n + 1`. -/
theorem iteration_terminates :
    (∀ (sep : char_separator) (s : List Char),
      sep.m_empty_tokens = empty_token_policy.drop_empty_tokens →
      (char_separator.run sep s).outcome = Outcome.finished ∧
      (char_separator.run sep s).tokens.length ≤ s.length) ∧
    (∀ (sep : char_separator) (s : List Char),
      sep.m_empty_tokens = empty_token_policy.keep_empty_tokens →
      (char_separator.run sep s).outcome = Outcome.finished ∧
      (char_separator.run sep s).tokens.length ≤ 2 * s.length + 1) ∧
    (∀ (sep : char_delimiters_separator) (s : List Char),
      (char_delimiters_separator.run sep s).outcome = Outcome.finished ∧
      (char_delimiters_separator.run sep s).tokens.length ≤ s.length) ∧
    (∀ (sep : escaped_list_separator) (s : List Char),
      ((escaped_list_separator.run sep s).outcome = Outcome.finished ∨
        ∃ e, (escaped_list_separator.run sep s).outcome = Outcome.failed e) ∧
      (escaped_list_separator.run sep s).tokens.length ≤ s.length + 1) ∧
    (∀ (w : List Int) (wrap p : Bool) (s : List Char), w ≠ [] → (∀ x ∈ w, 0 < x) →
      (offset_separator.run (offset_separator.mk_range w wrap p) s).outcome = Outcome.finished ∧
      (offset_separator.run (offset_separator.mk_range w wrap p) s).tokens.length ≤ s.length) := by
  refine ⟨?_, ?_, ?_, ?_, ?_⟩
  · intro sep s hm
    have h1 := iterate_terminates (fun (sp : char_separator) nx => Except.ok (sp.call nx))
      (fun sp _ => sp.m_empty_tokens = empty_token_policy.drop_empty_tokens)
      (fun _ nx => nx.length)
      (fun sp nx r hinv hc hr => by
        simp only [Except.ok.injEq] at hc
        subst hc
        exact ⟨by rw [char_separator.call_drop_sep sp hinv nx]; exact hinv,
          char_separator.drop_call_shorter sp nx hinv hr⟩)
      (2 * s.length + 2) sep s hm (by show s.length < 2 * s.length + 2; omega)
    have h2 := iterate_no_failure (fun (sp : char_separator) nx => Except.ok (sp.call nx))
      (fun _ _ => True) (fun sp nx _ => ⟨_, rfl, fun _ => trivial⟩) (2 * s.length + 2) sep s
      trivial
    exact ⟨outcome_finished_of _ h1.1 h2, h1.2⟩
  · intro sep s hm
    have h1 := iterate_terminates (fun (sp : char_separator) nx => Except.ok (sp.call nx))
      (fun sp _ => sp.m_empty_tokens = empty_token_policy.keep_empty_tokens)
      (fun sp nx => 2 * nx.length + (if sp.m_output_done = true then 0 else 1))
      (fun sp nx r hinv hc hr => by
        simp only [Except.ok.injEq] at hc
        subst hc
        exact char_separator.keep_call_measure sp nx hinv hr)
      (2 * s.length + 2) sep s hm (by show 2 * s.length + _ < _; split <;> omega)
    have h2 := iterate_no_failure (fun (sp : char_separator) nx => Except.ok (sp.call nx))
      (fun _ _ => True) (fun sp nx _ => ⟨_, rfl, fun _ => trivial⟩) (2 * s.length + 2) sep s
      trivial
    refine ⟨outcome_finished_of _ h1.1 h2, h1.2.trans ?_⟩
    show 2 * s.length + _ ≤ _
    split <;> omega
  · intro sep s
    have h1 := iterate_terminates
      (fun (sp : char_delimiters_separator) nx => Except.ok (sp.call nx))
      (fun _ _ => True) (fun _ nx => nx.length)
      (fun sp nx r _ hc hr => by
        simp only [Except.ok.injEq] at hc
        subst hc
        exact ⟨trivial, char_delimiters_separator.char_delimiters_call_shorter sp nx hr⟩)
      (2 * s.length + 2) sep s trivial (by show s.length < 2 * s.length + 2; omega)
    have h2 := iterate_no_failure
      (fun (sp : char_delimiters_separator) nx => Except.ok (sp.call nx))
      (fun _ _ => True) (fun sp nx _ => ⟨_, rfl, fun _ => trivial⟩) (2 * s.length + 2) sep s
      trivial
    exact ⟨outcome_finished_of _ h1.1 h2, h1.2⟩
  · intro sep s
    have h1 := escaped_list_separator.escaped_run_terminates sep s (2 * s.length + 2) (by omega)
    constructor
    · cases ho : (escaped_list_separator.run sep s).outcome with
      | finished => exact Or.inl rfl
      | failed e => exact Or.inr ⟨e, rfl⟩
      | out_of_fuel => exact absurd ho h1.1
    · refine h1.2.trans ?_
      split <;> omega
  · intro w wrap p s hne hpos
    have h1 := iterate_terminates offset_separator.call
      (fun sp _ => sp.offsets_ = w) (fun _ nx => nx.length)
      (fun sp nx r hinv hc hr =>
        ⟨(offset_separator.offset_call_config sp nx r hc).1.trans hinv,
          offset_separator.offset_call_shorter sp nx r (by rw [hinv]; exact hpos) hc hr⟩)
      (2 * s.length + 2) (offset_separator.mk_range w wrap p) s rfl
      (by show s.length < 2 * s.length + 2; omega)
    have h2 := iterate_no_failure offset_separator.call
      (fun sp _ => sp.offsets_ = w ∧ sp.current_offset_ ≤ w.length)
      (fun sp nx hinv => by
        obtain ⟨r, hr, h3, _, _, h6⟩ := offset_separator.offset_call_ok sp nx
          (by rw [hinv.1]; exact hne) (by rw [hinv.1]; exact hinv.2)
        exact ⟨r, hr, fun _ => ⟨h3.trans hinv.1, by rw [hinv.1] at h6; exact h6⟩⟩)
      (2 * s.length + 2) (offset_separator.mk_range w wrap p) s ⟨rfl, Nat.zero_le _⟩
    exact ⟨outcome_finished_of _ h1.1 h2, h1.2⟩

/-- Witness for C29: the keep-mode test input of 33 characters gives 16
tokens, within `2 * 33 + 1`; the widths 2, 2, 4 on `12252001` give 3 tokens,
within 8. -/
theorem iteration_terminates_witness :
    (char_separator.run
      (char_separator.mk_explicit "-;".toList (some "|".toList)
        empty_token_policy.keep_empty_tokens)
      ";;Hello|world||-foo--bar;yow;baz|".toList).tokens.length ≤
        2 * ";;Hello|world||-foo--bar;yow;baz|".toList.length + 1 ∧
    (offset_separator.run (offset_separator.mk_range [2, 2, 4] true true)
      "12252001".toList).outcome = Outcome.finished ∧
    (offset_separator.run (offset_separator.mk_range [2, 2, 4] true true)
      "12252001".toList).tokens.length ≤ "12252001".toList.length :=
  ⟨(iteration_terminates.2.1 _ _ rfl).2,
    iteration_terminates.2.2.2.2 [2, 2, 4] true true "12252001".toList (by decide) (by decide)⟩

namespace tokenizer_detail

theorem static_cast_unsigned_le_iff (c : Int) (hlo : -(2 ^ 31) ≤ c) (hhi : c < 2 ^ 32) :
    static_cast_unsigned c ≤ 255 ↔ 0 ≤ c ∧ c ≤ 255 := by
  unfold static_cast_unsigned
  omega

theorem static_cast_unsigned_of_narrow (c : Int) (h0 : 0 ≤ c) (h1 : c ≤ 255) :
    static_cast_unsigned c ≤ 255 := by
  unfold static_cast_unsigned
  omega

theorem static_cast_unsigned_eof : ¬ static_cast_unsigned (-1) ≤ 255 := by decide

theorem no_cwctype_isspace_closed (c : Int) (hlo : -(2 ^ 31) ≤ c) (hhi : c < 2 ^ 32) :
    no_cwctype.traits_extension.isspace c =
      some (decide (0 ≤ c ∧ c ≤ 255) && std_isspace (Char.ofNat c.toNat)) := by
  unfold no_cwctype.traits_extension.isspace std_isspace_int
  by_cases h : 0 ≤ c ∧ c ≤ 255
  · rw [if_pos ((static_cast_unsigned_le_iff c hlo hhi).2 h), if_pos h]
    simp [h]
  · rw [if_neg (fun hu => h ((static_cast_unsigned_le_iff c hlo hhi).1 hu))]
    simp [h]

theorem no_cwctype_ispunct_closed (c : Int) (hlo : -(2 ^ 31) ≤ c) (hhi : c < 2 ^ 32) :
    no_cwctype.traits_extension.ispunct c =
      some (decide (0 ≤ c ∧ c ≤ 255) && std_ispunct (Char.ofNat c.toNat)) := by
  unfold no_cwctype.traits_extension.ispunct std_ispunct_int
  by_cases h : 0 ≤ c ∧ c ≤ 255
  · rw [if_pos ((static_cast_unsigned_le_iff c hlo hhi).2 h), if_pos h]
    simp [h]
  · rw [if_neg (fun hu => h ((static_cast_unsigned_le_iff c hlo hhi).1 hu))]
    simp [h]

theorem no_cwctype_isspace_of_defined (c : Int) (b : Bool) (hc : c ≤ 255)
    (hb : std_isspace_int c = some b) : no_cwctype.traits_extension.isspace c = some b := by
  unfold no_cwctype.traits_extension.isspace
  by_cases h : 0 ≤ c ∧ c ≤ 255
  · rw [if_pos (static_cast_unsigned_of_narrow c h.1 h.2)]
    exact hb
  · unfold std_isspace_int at hb
    rw [if_neg h] at hb
    by_cases he : c = -1
    · rw [if_pos he] at hb
      subst he
      rw [if_neg static_cast_unsigned_eof]
      exact hb
    · rw [if_neg he] at hb
      exact absurd hb (by simp)

theorem no_cwctype_ispunct_of_defined (c : Int) (b : Bool) (hc : c ≤ 255)
    (hb : std_ispunct_int c = some b) : no_cwctype.traits_extension.ispunct c = some b := by
  unfold no_cwctype.traits_extension.ispunct
  by_cases h : 0 ≤ c ∧ c ≤ 255
  · rw [if_pos (static_cast_unsigned_of_narrow c h.1 h.2)]
    exact hb
  · unfold std_ispunct_int at hb
    rw [if_neg h] at hb
    by_cases he : c = -1
    · rw [if_pos he] at hb
      subst he
      rw [if_neg static_cast_unsigned_eof]
      exact hb
    · rw [if_neg he] at hb
      exact absurd hb (by simp)

theorem char_ofNat_toNat_cast (ch : Char) : Char.ofNat ((ch.toNat : Int)).toNat = ch := by
  rw [Int.toNat_natCast]
  exact Char.ofNat_toNat ch

theorem no_cwctype_narrow_agrees (ch : Char) (h : ch.toNat ≤ 255) :
    no_cwctype.traits_extension.isspace (ch.toNat : Int) = some (traits_extension.isspace ch) ∧
    no_cwctype.traits_extension.ispunct (ch.toNat : Int) = some (traits_extension.ispunct ch) := by
  have h0 : (0 : Int) ≤ (ch.toNat : Int) := Int.natCast_nonneg _
  have h1 : (ch.toNat : Int) ≤ 255 := by omega
  have hu := static_cast_unsigned_of_narrow _ h0 h1
  unfold no_cwctype.traits_extension.isspace no_cwctype.traits_extension.ispunct
    std_isspace_int std_ispunct_int traits_extension.isspace traits_extension.ispunct
  have hn : (0 : Int) ≤ (ch.toNat : Int) ∧ (ch.toNat : Int) ≤ 255 := ⟨h0, h1⟩
  simp only [if_pos hu, if_pos hn, char_ofNat_toNat_cast]
  exact ⟨trivial, trivial⟩

/-- C31: in the build without `<cwctype>` (`BOOST_NO_CWCTYPE`),
`traits_extension::isspace(c)` and `traits_extension::ispunct(c)` return false
for every character value `c` whose conversion to `unsigned` is greater than
255, and return what the narrow classifier returns for `c` when the
conversion is at most 255. For a character type of at most 32 bits, signed or
unsigned, the conversion is at most 255 exactly when `0 ≤ c ≤ 255`, so the
narrow classifier is only ever called inside its domain, both functions
always return, and every negative value and every value above 255 is
classified false. The same holds reading "value at most 255" as the signed
value wherever the narrow classifier is defined, and on the narrow range the
result is that of the build with `<cwctype>`. -/
theorem no_cwctype_classification (c : Int) :
    (255 < static_cast_unsigned c →
      no_cwctype.traits_extension.isspace c = some false ∧
      no_cwctype.traits_extension.ispunct c = some false) ∧
    (static_cast_unsigned c ≤ 255 →
      no_cwctype.traits_extension.isspace c = std_isspace_int c ∧
      no_cwctype.traits_extension.ispunct c = std_ispunct_int c) ∧
    (-(2 ^ 31) ≤ c → c < 2 ^ 32 →
      (static_cast_unsigned c ≤ 255 ↔ 0 ≤ c ∧ c ≤ 255) ∧
      no_cwctype.traits_extension.isspace c =
        some (decide (0 ≤ c ∧ c ≤ 255) && std_isspace (Char.ofNat c.toNat)) ∧
      no_cwctype.traits_extension.ispunct c =
        some (decide (0 ≤ c ∧ c ≤ 255) && std_ispunct (Char.ofNat c.toNat))) ∧
    (∀ b : Bool, c ≤ 255 → std_isspace_int c = some b →
      no_cwctype.traits_extension.isspace c = some b) ∧
    (∀ b : Bool, c ≤ 255 → std_ispunct_int c = some b →
      no_cwctype.traits_extension.ispunct c = some b) ∧
    (∀ ch : Char, ch.toNat ≤ 255 →
      no_cwctype.traits_extension.isspace (ch.toNat : Int) =
        some (traits_extension.isspace ch) ∧
      no_cwctype.traits_extension.ispunct (ch.toNat : Int) =
        some (traits_extension.ispunct ch)) := by
  refine ⟨fun h => ?_, fun h => ?_, fun hlo hhi => ?_, fun b hc hb => ?_, fun b hc hb => ?_,
    fun ch h => ?_⟩
  · unfold no_cwctype.traits_extension.isspace no_cwctype.traits_extension.ispunct
    simp only [if_neg (Nat.not_le.2 h)]
    exact ⟨trivial, trivial⟩
  · unfold no_cwctype.traits_extension.isspace no_cwctype.traits_extension.ispunct
    simp only [if_pos h]
    exact ⟨trivial, trivial⟩
  · exact ⟨static_cast_unsigned_le_iff c hlo hhi, no_cwctype_isspace_closed c hlo hhi,
      no_cwctype_ispunct_closed c hlo hhi⟩
  · exact no_cwctype_isspace_of_defined c b hc hb
  · exact no_cwctype_ispunct_of_defined c b hc hb
  · exact no_cwctype_narrow_agrees ch h

/-- The classification at concrete character values: the ideographic space
U+3000 of a wide character type and the byte 0xE9 of a signed narrow type
(value -23) are classified false without the narrow classifier being called,
the space and the semicolon are classified as by the narrow classifier, and
`EOF` is classified false. -/
theorem no_cwctype_classification_witness :
    (255 < static_cast_unsigned 12288 ∧
      no_cwctype.traits_extension.isspace 12288 = some false ∧
      no_cwctype.traits_extension.ispunct 12288 = some false) ∧
    (static_cast_unsigned 32 ≤ 255 ∧
      no_cwctype.traits_extension.isspace 32 = std_isspace_int 32 ∧
      no_cwctype.traits_extension.ispunct 32 = std_ispunct_int 32 ∧
      std_isspace_int 32 = some true) ∧
    (no_cwctype.traits_extension.isspace (-23) =
        some (decide ((0 : Int) ≤ -23 ∧ (-23 : Int) ≤ 255) &&
          std_isspace (Char.ofNat (-23 : Int).toNat)) ∧
      no_cwctype.traits_extension.isspace (-23) = some false ∧
      std_isspace_int (-23) = none) ∧
    no_cwctype.traits_extension.isspace (-1) = some false ∧
    no_cwctype.traits_extension.ispunct 59 = some true ∧
    no_cwctype.traits_extension.isspace ((' '.toNat : Nat) : Int) =
      some (traits_extension.isspace ' ') :=
  ⟨⟨by decide, (no_cwctype_classification 12288).1 (by decide)⟩,
    ⟨by decide, ((no_cwctype_classification 32).2.1 (by decide)).1,
      ((no_cwctype_classification 32).2.1 (by decide)).2, by decide⟩,
    ⟨((no_cwctype_classification (-23)).2.2.1 (by decide) (by decide)).2.1, by decide, by decide⟩,
    (no_cwctype_classification (-1)).2.2.2.1 false (by decide) (by decide),
    (no_cwctype_classification 59).2.2.2.2.1 true (by decide) (by decide),
    ((no_cwctype_classification 0).2.2.2.2.2 ' ' (by decide)).1⟩

end tokenizer_detail

end boost
